import Mathlib

/-!
Verification of the `fileutils` library (DevTable/go-fileutils).

The library wraps POSIX file operations: `CpWithArgs` (copy with
recursive/preserve-links/preserve-timestamps flags), `Cp`, `CpR`,
`cpSymlink`, `ChmodR`, `ChownR`, and one-line delegations.

We embed the file system shallowly:
* a path is a list of name segments (the Go code composes child paths as
  `source + "/" + name`, which corresponds to appending one segment);
* the file system is an association list from paths to nodes
  (regular file with content/mode/times/owner, directory with mode/owner,
  symbolic link with its target path);
* the state also carries a count of currently open file handles and a
  trace of the mutating/handle events performed, so that claims about
  handle leaks and about the order of operations are statable.

OS primitives (`os.Stat`, `os.Lstat`, `os.Open`, `os.Create`, `io.Copy`,
`os.Chmod`, `os.Chtimes`, `os.Symlink`, `os.Readlink`, `os.MkdirAll`,
`ioutil.ReadDir`, `filepath.Walk`, `os.Chown`) are modelled from their
documented semantics.  Symbolic links are resolved (with a fuel bound, as
the kernel bounds link chains) on the final path component by the
primitives that follow links; links in intermediate components are not
modelled, and no claim exercises them.  Recursion in `CpWithArgs` and in
`filepath.Walk` is made structural on an explicit fuel argument; running
out of fuel yields the model-only error `Err.fuelOut`.
-/

namespace Fileutils

/-- Paths are lists of name segments. -/
abbrev Path := List String

/-- Nodes of the file system: regular files, directories, symbolic links. -/
inductive Node where
  | file (content : List Nat) (mode : Nat) (atime mtime : Nat) (uid gid : Nat)
  | dir (mode : Nat) (uid gid : Nat)
  | symlink (target : Path)
deriving DecidableEq, Repr

/-- Errors. The first three come from the OS (`ENOENT`, `ENOTDIR`,
`ELOOP`/link-chain bound, `EISDIR`, `EEXIST`, `EINVAL`); `srcIsDirectory`
and `destinationExists` are the two errors `CpWithArgs` constructs with
`errors.New`; `fuelOut` is the model's fuel-exhaustion artifact. -/
inductive Err where
  | notExist
  | notDir
  | tooManyLinks
  | isDirErr
  | existsErr
  | invalidArgument
  | srcIsDirectory
  | destinationExists
  | fuelOut
deriving DecidableEq, Repr

/-- Events recorded in the trace; each records the argument path handed
to the OS primitive. -/
inductive Ev where
  | opened (p : Path)
  | closed (p : Path)
  | created (p : Path)
  | wrote (p : Path) (content : List Nat)
  | chmodE (p : Path) (mode : Nat)
  | chtimesE (p : Path) (atime mtime : Nat)
  | syncE (p : Path)
  | symlinkE (target : Path) (p : Path)
  | mkdirE (p : Path) (mode : Nat)
  | chownE (p : Path) (uid gid : Nat)
deriving DecidableEq, Repr

/-- File-system state: entries, open-handle count, event trace. -/
structure FSys where
  entries : List (Path × Node)
  openHandles : Nat
  trace : List Ev
deriving DecidableEq, Repr

/-- Node accessors mirroring `os.FileInfo`. -/
def Node.isDir : Node → Bool
  | .dir _ _ _ => true
  | _ => false

/-- Mirrors `FileMode.IsRegular`. -/
def Node.isRegular : Node → Bool
  | .file _ _ _ _ _ _ => true
  | _ => false

def Node.isLink : Node → Bool
  | .symlink _ => true
  | _ => false

/-- Mirrors `FileInfo.Mode()` (permission bits; links carry none here). -/
def Node.modeOf : Node → Nat
  | .file _ m _ _ _ _ => m
  | .dir m _ _ => m
  | .symlink _ => 0

/-- Mirrors `FileInfo.ModTime()`. -/
def Node.mtimeOf : Node → Nat
  | .file _ _ _ mt _ _ => mt
  | _ => 0

/-- Lookup in the entry list (first match). -/
def lookupEnt : List (Path × Node) → Path → Option Node
  | [], _ => none
  | e :: rest, p => if e.1 = p then some e.2 else lookupEnt rest p

/-- Replace the node stored at a key, leaving other entries alone. -/
def setEnt (l : List (Path × Node)) (p : Path) (n : Node) : List (Path × Node) :=
  l.map fun e => if e.1 = p then (p, n) else e

/-- Append a fresh entry. -/
def insEnt (l : List (Path × Node)) (p : Path) (n : Node) : List (Path × Node) :=
  l ++ [(p, n)]

/-- Boolean path-prefix test: `isPre p q` holds when `p` is a prefix of `q`. -/
def isPre : Path → Path → Bool
  | [], _ => true
  | _ :: _, [] => false
  | a :: p, b :: q => a == b && isPre p q

/-- Bound on symbolic-link chains, as the kernel bounds them (`ELOOP`). -/
def linkDepth : Nat := 40

/-- Resolve a trailing chain of symbolic links (bounded, like the
kernel's link-chain limit); returns the final path, which is then looked
up by the calling primitive. -/
def resolvePath (l : List (Path × Node)) : Nat → Path → Except Err Path
  | 0, _ => .error .tooManyLinks
  | fuel + 1, p =>
    match lookupEnt l p with
    | some (.symlink t) => resolvePath l fuel t
    | _ => .ok p

/-- Error that a lookup miss produces: `ENOTDIR` when some strict
non-empty location on the way is a non-directory, else `ENOENT`.
(`os.IsNotExist` is true only for the latter.) -/
def lookupFailErr (l : List (Path × Node)) (q : Path) : Err :=
  if (List.range q.length).any (fun i =>
      match lookupEnt l (q.take i) with
      | some (.dir _ _ _) => false
      | some _ => true
      | none => false)
  then .notDir else .notExist

/-- Mirrors `os.Stat`: follow links, return the node found. -/
def statNode (l : List (Path × Node)) (p : Path) : Except Err Node :=
  match resolvePath l linkDepth p with
  | .error e => .error e
  | .ok q =>
    match lookupEnt l q with
    | some n => .ok n
    | none => .error (lookupFailErr l q)

/-- Mirrors `os.Open` (read-only open, follows links): on success one
file handle becomes open and an `opened` event is recorded. -/
def osOpen (fs : FSys) (p : Path) : Except Err Unit × FSys :=
  match resolvePath fs.entries linkDepth p with
  | .error e => (.error e, fs)
  | .ok q =>
    match lookupEnt fs.entries q with
    | some _ => (.ok (), { fs with openHandles := fs.openHandles + 1,
                                   trace := fs.trace ++ [.opened p] })
    | none => (.error (lookupFailErr fs.entries q), fs)

/-- Mirrors `File.Close` (never fails in the model). -/
def osClose (fs : FSys) (p : Path) : FSys :=
  { fs with openHandles := fs.openHandles - 1, trace := fs.trace ++ [.closed p] }

/-- Parent-exists check used by the creating primitives: the path is
non-empty and its parent is the implicit root or an existing directory. -/
def parentOk (l : List (Path × Node)) (q : Path) : Bool :=
  q ≠ [] && (q.dropLast = [] ||
    match lookupEnt l q.dropLast with
    | some (.dir _ _ _) => true
    | _ => false)

/-- Mirrors `os.Create`: follow links, then truncate an existing regular
file or create a fresh one with mode `0666`; fails on a directory.  On
success one handle becomes open. -/
def osCreate (fs : FSys) (p : Path) : Except Err Unit × FSys :=
  match resolvePath fs.entries linkDepth p with
  | .error e => (.error e, fs)
  | .ok q =>
    match lookupEnt fs.entries q with
    | some (.dir _ _ _) => (.error .isDirErr, fs)
    | some (.symlink _) => (.error .tooManyLinks, fs)
    | some (.file _ m a _ u g) =>
      (.ok (), { fs with entries := setEnt fs.entries q (.file [] m a 0 u g),
                         openHandles := fs.openHandles + 1,
                         trace := fs.trace ++ [.created p] })
    | none =>
      if parentOk fs.entries q then
        (.ok (), { fs with entries := insEnt fs.entries q (.file [] 438 0 0 0 0),
                           openHandles := fs.openHandles + 1,
                           trace := fs.trace ++ [.created p] })
      else (.error (lookupFailErr fs.entries q), fs)

/-- Mirrors `io.Copy(out, in)` for the two handles `CpWithArgs` opens:
reads the current content behind `src` and overwrites the content behind
`dest`.  Reading the current content is what makes copying a file onto
itself observable (the create step already truncated it). -/
def osWriteAll (fs : FSys) (src dest : Path) : Except Err Unit × FSys :=
  match resolvePath fs.entries linkDepth src with
  | .error e => (.error e, fs)
  | .ok qs =>
    match lookupEnt fs.entries qs with
    | some (.file c _ _ _ _ _) =>
      match resolvePath fs.entries linkDepth dest with
      | .error e => (.error e, fs)
      | .ok qd =>
        match lookupEnt fs.entries qd with
        | some (.file _ m a mt u g) =>
          (.ok (), { fs with entries := setEnt fs.entries qd (.file c m a mt u g),
                             trace := fs.trace ++ [.wrote dest c] })
        | _ => (.error .invalidArgument, fs)
    | _ => (.error .invalidArgument, fs)

/-- Mirrors `os.Chmod` / `File.Chmod`: follow links, set permission bits. -/
def chmodOp (mode : Nat) (fs : FSys) (p : Path) : Except Err Unit × FSys :=
  match resolvePath fs.entries linkDepth p with
  | .error e => (.error e, fs)
  | .ok q =>
    match lookupEnt fs.entries q with
    | some (.file c _ a mt u g) =>
      (.ok (), { fs with entries := setEnt fs.entries q (.file c mode a mt u g),
                         trace := fs.trace ++ [.chmodE p mode] })
    | some (.dir _ u g) =>
      (.ok (), { fs with entries := setEnt fs.entries q (.dir mode u g),
                         trace := fs.trace ++ [.chmodE p mode] })
    | some (.symlink _) => (.error .tooManyLinks, fs)
    | none => (.error (lookupFailErr fs.entries q), fs)

/-- Mirrors `os.Chown`: follow links, set the owner pair. -/
def chownOp (uid gid : Nat) (fs : FSys) (p : Path) : Except Err Unit × FSys :=
  match resolvePath fs.entries linkDepth p with
  | .error e => (.error e, fs)
  | .ok q =>
    match lookupEnt fs.entries q with
    | some (.file c m a mt _ _) =>
      (.ok (), { fs with entries := setEnt fs.entries q (.file c m a mt uid gid),
                         trace := fs.trace ++ [.chownE p uid gid] })
    | some (.dir m _ _) =>
      (.ok (), { fs with entries := setEnt fs.entries q (.dir m uid gid),
                         trace := fs.trace ++ [.chownE p uid gid] })
    | some (.symlink _) => (.error .tooManyLinks, fs)
    | none => (.error (lookupFailErr fs.entries q), fs)

/-- Mirrors `os.Chtimes`: follow links, set access and modification time
on a regular file (a directory accepts the call without stored fields). -/
def chtimesOp (fs : FSys) (p : Path) (a mt : Nat) : Except Err Unit × FSys :=
  match resolvePath fs.entries linkDepth p with
  | .error e => (.error e, fs)
  | .ok q =>
    match lookupEnt fs.entries q with
    | some (.file c m _ _ u g) =>
      (.ok (), { fs with entries := setEnt fs.entries q (.file c m a mt u g),
                         trace := fs.trace ++ [.chtimesE p a mt] })
    | some (.dir _ _ _) =>
      (.ok (), { fs with trace := fs.trace ++ [.chtimesE p a mt] })
    | some (.symlink _) => (.error .tooManyLinks, fs)
    | none => (.error (lookupFailErr fs.entries q), fs)

/-- Mirrors `File.Sync` (durability itself is not modelled; the event
records that and when the flush happened). -/
def osSync (fs : FSys) (p : Path) : Except Err Unit × FSys :=
  (.ok (), { fs with trace := fs.trace ++ [.syncE p] })

/-- Mirrors `os.Symlink(target, dest)`: fails if `dest` exists (even as a
dangling link); otherwise records the new link. -/
def osSymlink (fs : FSys) (target dest : Path) : Except Err Unit × FSys :=
  match lookupEnt fs.entries dest with
  | some _ => (.error .existsErr, fs)
  | none =>
    if parentOk fs.entries dest then
      (.ok (), { fs with entries := insEnt fs.entries dest (.symlink target),
                         trace := fs.trace ++ [.symlinkE target dest] })
    else (.error (lookupFailErr fs.entries dest), fs)

/-- Mirrors `os.Readlink`. -/
def osReadlink (fs : FSys) (p : Path) : Except Err Path :=
  match lookupEnt fs.entries p with
  | some (.symlink t) => .ok t
  | some _ => .error .invalidArgument
  | none => .error (lookupFailErr fs.entries p)

/-- Mirrors `os.MkdirAll` on the ascending chain of non-empty prefixes:
an existing directory is kept, an existing non-directory fails, a missing
prefix is created with the given mode. -/
def mkdirChain (mode : Nat) : List Path → FSys → Except Err Unit × FSys
  | [], fs => (.ok (), fs)
  | q :: rest, fs =>
    match lookupEnt fs.entries q with
    | some (.dir _ _ _) => mkdirChain mode rest fs
    | some _ => (.error .notDir, fs)
    | none =>
      mkdirChain mode rest
        { fs with entries := insEnt fs.entries q (.dir mode 0 0),
                  trace := fs.trace ++ [.mkdirE q mode] }

/-- The ascending non-empty prefixes of a path, ending with the path. -/
def ascPres (p : Path) : List Path :=
  (List.range p.length).map (fun i => p.take (i + 1))

def mkdirAll (fs : FSys) (p : Path) (mode : Nat) : Except Err Unit × FSys :=
  if p = [] then (.error .notExist, fs) else mkdirChain mode (ascPres p) fs

/-- Lexicographic comparison of character lists by code point; on valid
UTF-8 this is exactly Go's byte-wise string order. -/
def charsLe : List Char → List Char → Bool
  | [], _ => true
  | _ :: _, [] => false
  | a :: as, b :: bs =>
    if a.val < b.val then true
    else if b.val < a.val then false
    else charsLe as bs

/-- Go's string order (`sort.Strings`): byte-wise, i.e. code-point
lexicographic. -/
def strLe (s t : String) : Bool := charsLe s.data t.data

/-- Sorted insertion on strings, for the sorted directory listings of
`ioutil.ReadDir` and `filepath.Walk`. -/
def insSorted (s : String) : List String → List String
  | [] => [s]
  | t :: ts => if strLe s t then s :: t :: ts else t :: insSorted s ts

def sortNames : List String → List String
  | [] => []
  | s :: ss => insSorted s (sortNames ss)

/-- Names of the immediate children of `p`, sorted, as `ioutil.ReadDir`
and `readDirNames` return them. -/
def childNames (l : List (Path × Node)) (p : Path) : List String :=
  sortNames (l.filterMap fun e =>
    if e.1 ≠ [] ∧ e.1.dropLast = p then some (e.1.getLastD "") else none)

/-- Mirrors `ioutil.ReadDir` (names only; it opens and closes the
directory internally, so no handle is left open). -/
def readDir (fs : FSys) (p : Path) : Except Err (List String) :=
  match statNode fs.entries p with
  | .error e => .error e
  | .ok (.dir _ _ _) => .ok (childNames fs.entries p)
  | .ok _ => .error .notDir

/-- Copy options, mirroring `CpArgs`. -/
structure CpArgs where
  Recursive : Bool
  PreserveLinks : Bool
  PreserveTimestamps : Bool
deriving DecidableEq, Repr

/-- Mirrors `cpSymlink`: read the source link's target and create a new
link at `dest` with the same target. -/
def cpSymlink (fs : FSys) (src dest : Path) : Except Err Unit × FSys :=
  match osReadlink fs src with
  | .error e => (.error e, fs)
  | .ok linkTarget => osSymlink fs linkTarget dest

/-- Work items for the copy recursion: `one` is a `CpWithArgs` call,
`many` is the loop over the listed child names. -/
inductive CpTask where
  | one (source dest : Path) (args : CpArgs)
  | many (source dest : Path) (args : CpArgs) (names : List String)

/-- Embedding of `CpWithArgs` (src/fileutils.go lines 71-156), with the
child loop as the `many` task so that the recursion is structural on the
fuel.  The directory branch: fail unless recursive; `os.Open(dest)` as
the existence check, whose successfully opened handle the Go code never
closes, and any outcome other than an `IsNotExist` error is treated as
"destination already exists"; `os.MkdirAll(dest, sourceInfo.Mode())`;
`ioutil.ReadDir(source)`; recurse on each child with the same args,
aborting on the first error.  The file branch: `os.Lstat`; the symlink
copy when `PreserveLinks` and the entry is not regular; otherwise open
source, create dest, copy the bytes, `Chmod` to the lstat mode, `Chtimes`
when `PreserveTimestamps`, `Sync`; the deferred closes run in last-in
first-out order (dest handle first, then source). -/
def cpRun : Nat → FSys → CpTask → Except Err Unit × FSys
  | 0, fs, _ => (.error .fuelOut, fs)
  | fuel + 1, fs, .many source dest args names =>
    match names with
    | [] => (.ok (), fs)
    | name :: rest =>
      match cpRun fuel fs (.one (source ++ [name]) (dest ++ [name]) args) with
      | (.error e, fs1) => (.error e, fs1)
      | (.ok _, fs1) => cpRun fuel fs1 (.many source dest args rest)
  | fuel + 1, fs, .one source dest args =>
    match statNode fs.entries source with
    | .error e => (.error e, fs)
    | .ok sourceInfo =>
      if sourceInfo.isDir then
        if !args.Recursive then (.error .srcIsDirectory, fs)
        else
          match osOpen fs dest with
          | (.error .notExist, fs1) =>
            match mkdirAll fs1 dest sourceInfo.modeOf with
            | (.error e, fs2) => (.error e, fs2)
            | (.ok _, fs2) =>
              match readDir fs2 source with
              | .error e => (.error e, fs2)
              | .ok files => cpRun fuel fs2 (.many source dest args files)
          | (_, fs1) => (.error .destinationExists, fs1)
      else
        match lookupEnt fs.entries source with
        | none => (.error (lookupFailErr fs.entries source), fs)
        | some si =>
          if args.PreserveLinks && !si.isRegular then cpSymlink fs source dest
          else
            match osOpen fs source with
            | (.error e, fs1) => (.error e, fs1)
            | (.ok _, fs1) =>
              match osCreate fs1 dest with
              | (.error e, fs2) => (.error e, osClose fs2 source)
              | (.ok _, fs2) =>
                match osWriteAll fs2 source dest with
                | (.error e, fs3) => (.error e, osClose (osClose fs3 dest) source)
                | (.ok _, fs3) =>
                  match chmodOp si.modeOf fs3 dest with
                  | (.error e, fs4) => (.error e, osClose (osClose fs4 dest) source)
                  | (.ok _, fs4) =>
                    match
                      (if args.PreserveTimestamps then
                        chtimesOp fs4 dest si.mtimeOf si.mtimeOf
                      else (.ok (), fs4)) with
                    | (.error e, fs5) => (.error e, osClose (osClose fs5 dest) source)
                    | (.ok _, fs5) =>
                      match osSync fs5 dest with
                      | (r, fs6) => (r, osClose (osClose fs6 dest) source)

/-- Embedding of `CpWithArgs` proper. -/
def CpWithArgs (fuel : Nat) (fs : FSys) (source dest : Path) (args : CpArgs) :
    Except Err Unit × FSys :=
  cpRun fuel fs (.one source dest args)

/-- Embedding of `Cp` (`CpArgs{}` is the all-false zero value). -/
def Cp (fuel : Nat) (fs : FSys) (src dest : Path) : Except Err Unit × FSys :=
  CpWithArgs fuel fs src dest ⟨false, false, false⟩

/-- Embedding of `CpR`. -/
def CpR (fuel : Nat) (fs : FSys) (source dest : Path) : Except Err Unit × FSys :=
  CpWithArgs fuel fs source dest ⟨true, false, false⟩

/-- Work items for `filepath.Walk`: the top-level entry, the visit of one
path with its lstat info, and the loop over a directory's child names. -/
inductive WTask where
  | start (p : Path)
  | visit (p : Path) (info : Node)
  | kids (p : Path) (names : List String)

/-- Embedding of `filepath.Walk(root, walkFn)` where `walkFn` is the
closure `ChmodR`/`ChownR` pass: on a lookup error it returns that error,
otherwise it applies `op`; a directory's sorted child names are read
before the visit, every child is lstat-ed and walked, and the first error
aborts the whole walk (the closure never returns `SkipDir`). -/
def walkRun (op : FSys → Path → Except Err Unit × FSys) :
    Nat → FSys → WTask → Except Err Unit × FSys
  | 0, fs, _ => (.error .fuelOut, fs)
  | fuel + 1, fs, .start p =>
    match lookupEnt fs.entries p with
    | none => (.error (lookupFailErr fs.entries p), fs)
    | some info => walkRun op fuel fs (.visit p info)
  | fuel + 1, fs, .visit p info =>
    if info.isDir then
      match op fs p with
      | (.error e, fs1) => (.error e, fs1)
      | (.ok _, fs1) => walkRun op fuel fs1 (.kids p (childNames fs.entries p))
    else op fs p
  | _ + 1, fs, .kids _ [] => (.ok (), fs)
  | fuel + 1, fs, .kids p (n :: rest) =>
    match lookupEnt fs.entries (p ++ [n]) with
    | none => (.error (lookupFailErr fs.entries (p ++ [n])), fs)
    | some info =>
      match walkRun op fuel fs (.visit (p ++ [n]) info) with
      | (.error e, fs1) => (.error e, fs1)
      | (.ok _, fs1) => walkRun op fuel fs1 (.kids p rest)

/-- Embedding of `ChmodR`. -/
def ChmodR (fuel : Nat) (fs : FSys) (name : Path) (mode : Nat) :
    Except Err Unit × FSys :=
  walkRun (chmodOp mode) fuel fs (.start name)

/-- Embedding of `ChownR`. -/
def ChownR (fuel : Nat) (fs : FSys) (path : Path) (uid gid : Nat) :
    Except Err Unit × FSys :=
  walkRun (chownOp uid gid) fuel fs (.start path)

/-! ### Basic lemmas about the entry list -/

theorem lookupEnt_append (l1 l2 : List (Path × Node)) (q : Path) :
    lookupEnt (l1 ++ l2) q =
      match lookupEnt l1 q with
      | some n => some n
      | none => lookupEnt l2 q := by
  induction l1 with
  | nil => simp [lookupEnt]
  | cons e rest ih =>
    by_cases h : e.1 = q <;> simp [lookupEnt, h, ih]

theorem lookupEnt_setEnt (l : List (Path × Node)) (p : Path) (n : Node) (q : Path) :
    lookupEnt (setEnt l p n) q =
      if q = p then (lookupEnt l p).map (fun _ => n) else lookupEnt l q := by
  induction l with
  | nil => simp [lookupEnt, setEnt]
  | cons e rest ih =>
    simp only [setEnt, List.map_cons] at ih ⊢
    by_cases hep : e.1 = p
    · rw [if_pos hep]
      by_cases hqp : q = p
      · subst hqp
        simp [lookupEnt, hep, ih]
      · have hpq : ¬ p = q := fun h => hqp h.symm
        have heq : e.1 ≠ q := fun h => hqp ((h.symm.trans hep))
        simp [lookupEnt, hpq, heq, ih, hqp]
    · rw [if_neg hep]
      by_cases hqp : q = p
      · subst hqp
        have heq : e.1 ≠ q := hep
        simp [lookupEnt, heq, hep, ih]
      · by_cases heq : e.1 = q
        · simp [lookupEnt, heq, ih, hqp]
        · simp [lookupEnt, heq, ih, hqp]

theorem lookupEnt_insEnt (l : List (Path × Node)) (p : Path) (n : Node) (q : Path) :
    lookupEnt (insEnt l p n) q =
      match lookupEnt l q with
      | some m => some m
      | none => if p = q then some n else none := by
  unfold insEnt
  rw [lookupEnt_append]
  cases lookupEnt l q <;> simp [lookupEnt]

theorem resolvePath_link_head {l : List (Path × Node)} {p t : Path} (f : Nat)
    (h : lookupEnt l p = some (.symlink t)) :
    resolvePath l (f + 1) p = resolvePath l f t := by
  simp [resolvePath, h]

theorem resolvePath_nonlink_head {l : List (Path × Node)} {p : Path} {n : Node} (f : Nat)
    (h : lookupEnt l p = some n) (hn : ∀ t, n ≠ .symlink t) :
    resolvePath l (f + 1) p = .ok p := by
  cases n with
  | symlink t => exact absurd rfl (hn t)
  | file c m a mt u g => simp [resolvePath, h]
  | dir m u g => simp [resolvePath, h]

theorem resolvePath_none_head {l : List (Path × Node)} {p : Path} (f : Nat)
    (h : lookupEnt l p = none) :
    resolvePath l (f + 1) p = .ok p := by
  simp [resolvePath, h]

theorem resolvePath_ok_not_link {l : List (Path × Node)} {f : Nat} {p q : Path}
    (h : resolvePath l f p = .ok q) (t : Path) :
    lookupEnt l q ≠ some (.symlink t) := by
  induction f generalizing p with
  | zero => simp [resolvePath] at h
  | succ f ih =>
    cases hl : lookupEnt l p with
    | none =>
      rw [resolvePath_none_head f hl] at h
      cases h; simp [hl]
    | some n =>
      cases n with
      | symlink t2 =>
        rw [resolvePath_link_head f hl] at h
        exact ih h
      | file c m a mt u g =>
        rw [resolvePath_nonlink_head f hl (by intro t2 he; cases he)] at h
        cases h; simp [hl]
      | dir m u g =>
        rw [resolvePath_nonlink_head f hl (by intro t2 he; cases he)] at h
        cases h; simp [hl]

theorem resolvePath_setEnt_ok {l : List (Path × Node)} {f : Nat} {d q : Path} {n : Node}
    (h : resolvePath l f d = .ok q) (hn : ∀ t, n ≠ .symlink t) :
    resolvePath (setEnt l q n) f d = .ok q := by
  induction f generalizing d with
  | zero => simp [resolvePath] at h
  | succ f ih =>
    cases hl : lookupEnt l d with
    | some nd =>
      cases nd with
      | symlink t =>
        rw [resolvePath_link_head f hl] at h
        have hdq : d ≠ q := by
          intro he
          exact resolvePath_ok_not_link h t (he ▸ hl)
        have hl2 : lookupEnt (setEnt l q n) d = some (.symlink t) := by
          rw [lookupEnt_setEnt, if_neg hdq, hl]
        rw [resolvePath_link_head f hl2]
        exact ih h
      | file c m a mt u g =>
        rw [resolvePath_nonlink_head f hl (by intro t2 he; cases he)] at h
        cases h
        have hl2 : lookupEnt (setEnt l q n) q = some n := by
          rw [lookupEnt_setEnt, if_pos rfl, hl]; rfl
        exact resolvePath_nonlink_head f hl2 hn
      | dir m u g =>
        rw [resolvePath_nonlink_head f hl (by intro t2 he; cases he)] at h
        cases h
        have hl2 : lookupEnt (setEnt l q n) q = some n := by
          rw [lookupEnt_setEnt, if_pos rfl, hl]; rfl
        exact resolvePath_nonlink_head f hl2 hn
    | none =>
      rw [resolvePath_none_head f hl] at h
      cases h
      have hl2 : lookupEnt (setEnt l q n) q = none := by
        rw [lookupEnt_setEnt, if_pos rfl, hl]; rfl
      exact resolvePath_none_head f hl2

theorem resolvePath_insEnt_ok {l : List (Path × Node)} {f : Nat} {d q : Path} {n : Node}
    (h : resolvePath l f d = .ok q) (hq : lookupEnt l q = none) (hn : ∀ t, n ≠ .symlink t) :
    resolvePath (insEnt l q n) f d = .ok q := by
  induction f generalizing d with
  | zero => simp [resolvePath] at h
  | succ f ih =>
    cases hl : lookupEnt l d with
    | some nd =>
      cases nd with
      | symlink t =>
        rw [resolvePath_link_head f hl] at h
        have hl2 : lookupEnt (insEnt l q n) d = some (.symlink t) := by
          rw [lookupEnt_insEnt, hl]
        rw [resolvePath_link_head f hl2]
        exact ih h
      | file c m a mt u g =>
        rw [resolvePath_nonlink_head f hl (by intro t2 he; cases he)] at h
        cases h
        have hl2 : lookupEnt (insEnt l q n) q = some (.file c m a mt u g) := by
          rw [lookupEnt_insEnt, hl]
        exact resolvePath_nonlink_head f hl2 (by intro t2 he; cases he)
      | dir m u g =>
        rw [resolvePath_nonlink_head f hl (by intro t2 he; cases he)] at h
        cases h
        have hl2 : lookupEnt (insEnt l q n) q = some (.dir m u g) := by
          rw [lookupEnt_insEnt, hl]
        exact resolvePath_nonlink_head f hl2 (by intro t2 he; cases he)
    | none =>
      rw [resolvePath_none_head f hl] at h
      cases h
      have hl2 : lookupEnt (insEnt l q n) q = some n := by
        rw [lookupEnt_insEnt, hl, if_pos rfl]
      exact resolvePath_nonlink_head f hl2 hn


/-- Decidable equality on `Except`, so that concrete runs can be checked
by `decide`. -/
instance instDecEqExcept {ε α : Type} [DecidableEq ε] [DecidableEq α] :
    DecidableEq (Except ε α) := fun x y =>
  match x, y with
  | .ok a, .ok b =>
    if h : a = b then .isTrue (by rw [h]) else .isFalse (fun he => h (Except.ok.inj he))
  | .error a, .error b =>
    if h : a = b then .isTrue (by rw [h]) else .isFalse (fun he => h (Except.error.inj he))
  | .ok _, .error _ => .isFalse (fun he => Except.noConfusion he)
  | .error _, .ok _ => .isFalse (fun he => Except.noConfusion he)

/-- Resolution at the link-chain bound stops immediately on a non-link. -/
theorem resolveLD_nonlink {l : List (Path × Node)} {p : Path} {n : Node}
    (h : lookupEnt l p = some n) (hn : ∀ t, n ≠ .symlink t) :
    resolvePath l linkDepth p = .ok p :=
  resolvePath_nonlink_head 39 h hn

theorem setEnt_setEnt (l : List (Path × Node)) (p : Path) (n1 n2 : Node) :
    setEnt (setEnt l p n1) p n2 = setEnt l p n2 := by
  unfold setEnt
  rw [List.map_map]
  exact List.map_congr_left (fun e _ => by
    by_cases h : e.1 = p <;> simp [Function.comp, h])

theorem lookupEnt_none_forall {l : List (Path × Node)} {q : Path}
    (h : lookupEnt l q = none) : ∀ e ∈ l, e.1 ≠ q := by
  induction l with
  | nil => intro e he; cases he
  | cons e rest ih =>
    intro e2 he2
    unfold lookupEnt at h
    by_cases hq : e.1 = q
    · rw [if_pos hq] at h; cases h
    · rw [if_neg hq] at h
      cases he2 with
      | head => exact hq
      | tail _ hmem => exact ih h e2 hmem

theorem setEnt_insEnt_same {l : List (Path × Node)} {q : Path} (n0 n1 : Node)
    (h : lookupEnt l q = none) :
    setEnt (insEnt l q n0) q n1 = insEnt l q n1 := by
  induction l with
  | nil => simp [setEnt, insEnt]
  | cons e rest ih =>
    unfold lookupEnt at h
    by_cases he : e.1 = q
    · rw [if_pos he] at h; cases h
    · rw [if_neg he] at h
      show List.map (fun e2 => if e2.1 = q then (q, n1) else e2)
          (e :: (rest ++ [(q, n0)])) = e :: (rest ++ [(q, n1)])
      rw [List.map_cons, if_neg he]
      exact congrArg (e :: ·) (ih h)

/-! ### Path-prefix lemmas -/

theorem isPre_iff (p q : Path) : isPre p q = true ↔ ∃ r, q = p ++ r := by
  induction p generalizing q with
  | nil => simp [isPre]
  | cons a p ih =>
    cases q with
    | nil => simp [isPre]
    | cons b q =>
      simp only [isPre, Bool.and_eq_true, beq_iff_eq, ih, List.cons_append,
        List.cons.injEq]
      constructor
      · rintro ⟨hab, r, hr⟩; exact ⟨r, hab.symm ▸ rfl, hr⟩
      · rintro ⟨r, hb, hr⟩; exact ⟨hb.symm, r, hr⟩

theorem isPre_refl (p : Path) : isPre p p = true := by
  rw [isPre_iff]; exact ⟨[], by simp⟩

theorem isPre_append_right (p r : Path) : isPre p (p ++ r) = true := by
  rw [isPre_iff]; exact ⟨r, rfl⟩

theorem isPre_trans {p q r : Path} (h1 : isPre p q = true) (h2 : isPre q r = true) :
    isPre p r = true := by
  rw [isPre_iff] at h1 h2 ⊢
  obtain ⟨r1, hr1⟩ := h1
  obtain ⟨r2, hr2⟩ := h2
  exact ⟨r1 ++ r2, by rw [hr2, hr1, List.append_assoc]⟩

theorem isPre_length {p q : Path} (h : isPre p q = true) : p.length ≤ q.length := by
  rw [isPre_iff] at h
  obtain ⟨r, hr⟩ := h
  subst hr
  simp

theorem isPre_antisymm {p q : Path} (h1 : isPre p q = true) (h2 : isPre q p = true) :
    p = q := by
  rw [isPre_iff] at h1 h2
  obtain ⟨r1, hr1⟩ := h1
  obtain ⟨r2, hr2⟩ := h2
  subst hr1
  have hlen := congrArg List.length hr2
  simp only [List.length_append] at hlen
  have h0 : r1.length = 0 := by omega
  rw [List.length_eq_zero] at h0
  subst h0
  simp

theorem isPre_of_append_singleton {p q : Path} {x : String}
    (h : isPre p (q ++ [x]) = true) : isPre p q = true ∨ p = q ++ [x] := by
  rw [isPre_iff] at h
  obtain ⟨r, hr⟩ := h
  cases hre : r.reverse with
  | nil =>
    right
    have : r = [] := by simpa using congrArg List.reverse hre
    subst this
    simp at hr
    rw [hr]
  | cons y r2 =>
    left
    have hrv : r = r2.reverse ++ [y] := by
      have := congrArg List.reverse hre
      simpa using this
    subst hrv
    rw [isPre_iff]
    refine ⟨r2.reverse, ?_⟩
    have h2 : q ++ [x] = (p ++ r2.reverse) ++ [y] := by
      rw [hr, List.append_assoc]
    have h3 := List.append_inj' h2 rfl
    exact h3.1

theorem isPre_le_of_le_of_le {r : Path} : ∀ {p q : Path}, isPre p r = true →
    isPre q r = true → p.length ≤ q.length → isPre p q = true := by
  induction r with
  | nil =>
    intro p q h1 h2 hle
    rw [isPre_iff] at h1 h2
    obtain ⟨r1, hr1⟩ := h1
    have hp : p = [] := by
      cases p with
      | nil => rfl
      | cons a as => simp at hr1
    subst hp
    simp [isPre]
  | cons a r ih =>
    intro p q h1 h2 hle
    cases p with
    | nil => simp [isPre]
    | cons b p2 =>
      cases q with
      | nil => simp at hle
      | cons c q2 =>
        simp only [isPre, Bool.and_eq_true, beq_iff_eq] at h1 h2 ⊢
        obtain ⟨hb, h1'⟩ := h1
        obtain ⟨hc, h2'⟩ := h2
        subst hb
        subst hc
        simp only [List.length_cons, Nat.add_le_add_iff_right] at hle
        exact ⟨rfl, ih h1' h2' hle⟩

theorem isPre_comparable {p q r : Path} (h1 : isPre p r = true)
    (h2 : isPre q r = true) : isPre p q = true ∨ isPre q p = true := by
  cases Nat.le_total p.length q.length with
  | inl h => exact Or.inl (isPre_le_of_le_of_le h1 h2 h)
  | inr h => exact Or.inr (isPre_le_of_le_of_le h2 h1 h)

theorem isPre_drop_singleton {p q : Path} {x : String}
    (h : isPre (p ++ [x]) q = true) : isPre p q = true :=
  isPre_trans (isPre_append_right p [x]) h

theorem disjoint_child {src dest : Path} (name : String)
    (hd1 : isPre src dest = false) (hd2 : isPre dest src = false) :
    isPre (src ++ [name]) (dest ++ [name]) = false ∧
    isPre (dest ++ [name]) (src ++ [name]) = false := by
  constructor
  · cases h : isPre (src ++ [name]) (dest ++ [name]) with
    | false => rfl
    | true =>
      exfalso
      cases isPre_of_append_singleton h with
      | inl h2 =>
        have h3 := isPre_drop_singleton h2
        rw [h3] at hd1; cases hd1
      | inr h2 =>
        have h3 : isPre dest (src ++ [name]) = true := by
          rw [h2]; exact isPre_append_right _ _
        cases isPre_of_append_singleton h3 with
        | inl h4 => rw [h4] at hd2; cases hd2
        | inr h4 =>
          have h6 := congrArg List.length h4
          simp only [List.length_append, List.length_singleton] at h6
          have h5 := congrArg List.length h2
          simp only [List.length_append, List.length_singleton] at h5
          omega
  · cases h : isPre (dest ++ [name]) (src ++ [name]) with
    | false => rfl
    | true =>
      exfalso
      cases isPre_of_append_singleton h with
      | inl h2 =>
        have h3 := isPre_drop_singleton h2
        rw [h3] at hd2; cases hd2
      | inr h2 =>
        have h3 : isPre src (dest ++ [name]) = true := by
          rw [h2]; exact isPre_append_right _ _
        cases isPre_of_append_singleton h3 with
        | inl h4 => rw [h4] at hd1; cases hd1
        | inr h4 =>
          have h6 := congrArg List.length h4
          simp only [List.length_append, List.length_singleton] at h6
          have h5 := congrArg List.length h2
          simp only [List.length_append, List.length_singleton] at h5
          omega

/-! ### Destructuring and projection lemmas for the primitives -/

theorem statNode_ok_elim {l : List (Path × Node)} {p : Path} {n : Node}
    (h : statNode l p = .ok n) :
    ∃ q, resolvePath l linkDepth p = .ok q ∧ lookupEnt l q = some n := by
  cases hr : resolvePath l linkDepth p with
  | error e => simp [statNode, hr] at h
  | ok q =>
    cases hl : lookupEnt l q with
    | none => simp [statNode, hr, hl] at h
    | some m =>
      simp [statNode, hr, hl] at h
      exact ⟨q, rfl, h ▸ hl⟩

theorem osOpen_of_stat {fs : FSys} {p : Path} {n : Node}
    (h : statNode fs.entries p = .ok n) :
    osOpen fs p = (.ok (), { fs with openHandles := fs.openHandles + 1,
                                     trace := fs.trace ++ [.opened p] }) := by
  obtain ⟨q, hr, hl⟩ := statNode_ok_elim h
  simp [osOpen, hr, hl]

theorem osOpen_entries (fs : FSys) (p : Path) :
    (osOpen fs p).2.entries = fs.entries := by
  cases hr : resolvePath fs.entries linkDepth p with
  | error e => simp [osOpen, hr]
  | ok q =>
    cases hl : lookupEnt fs.entries q with
    | none => simp [osOpen, hr, hl]
    | some n => simp [osOpen, hr, hl]

theorem osOpen_of_error {fs : FSys} {p : Path} {e : Err}
    (h : (osOpen fs p).1 = .error e) :
    (osOpen fs p).2 = fs := by
  cases hr : resolvePath fs.entries linkDepth p with
  | error e2 => simp [osOpen, hr]
  | ok q =>
    cases hl : lookupEnt fs.entries q with
    | none => simp [osOpen, hr, hl]
    | some n => simp [osOpen, hr, hl] at h

/-! ### C9: the `Cp` and `CpR` wrappers -/

/-- C9: `Cp` delegates to `CpWithArgs` with all options off, and `CpR`
delegates to `CpWithArgs` with only `Recursive` set; both behave
identically to the corresponding `CpWithArgs` calls on every input. -/
theorem c9_cp_cpr_delegate (fuel : Nat) (fs : FSys) (src dest : Path) :
    Cp fuel fs src dest = CpWithArgs fuel fs src dest ⟨false, false, false⟩ ∧
    CpR fuel fs src dest = CpWithArgs fuel fs src dest ⟨true, false, false⟩ :=
  ⟨rfl, rfl⟩

/-! ### C5: a directory source without the recursive flag -/

/-- C5: when the source stats as a directory and `Recursive` is not set,
`CpWithArgs` fails with the "source is a directory" error and returns the
state entirely unchanged (no entries, handles, or trace mutation). -/
theorem c5_dir_needs_recursive (fuel : Nat) (fs : FSys) (src dest : Path)
    (args : CpArgs) (n : Node) (hstat : statNode fs.entries src = .ok n)
    (hdir : n.isDir = true) (hrec : args.Recursive = false) :
    CpWithArgs (fuel + 1) fs src dest args = (.error .srcIsDirectory, fs) := by
  unfold CpWithArgs cpRun
  rw [hstat]
  simp [hdir, hrec]

def exC5 : FSys := ⟨[(["d"], .dir 493 0 0)], 0, []⟩

/-- Witness for C5 at a concrete one-directory state. -/
theorem c5_dir_needs_recursive_witness :
    statNode exC5.entries ["d"] = .ok (.dir 493 0 0) ∧
    (Node.dir 493 0 0).isDir = true ∧
    CpWithArgs 1 exC5 ["d"] ["t"] ⟨false, false, false⟩ =
      (.error .srcIsDirectory, exC5) :=
  ⟨by decide, by decide,
    c5_dir_needs_recursive 0 exC5 ["d"] ["t"] ⟨false, false, false⟩ (.dir 493 0 0)
      (by decide) (by decide) rfl⟩

/-! ### C1: behaviour on an existing destination -/

def exC1 : FSys := ⟨[(["a"], .file [1, 2] 420 0 0 0 0),
                     (["b"], .file [9] 256 7 7 0 0)], 0, []⟩

/-- C1 counterexample: with a regular-file source and an existing
destination file, `CpWithArgs` does not fail with DestinationExists — it
succeeds and overwrites (truncates and rewrites) the destination. -/
theorem c1_counterexample :
    lookupEnt exC1.entries ["b"] = some (.file [9] 256 7 7 0 0) ∧
    (Cp 3 exC1 ["a"] ["b"]).1 = .ok () ∧
    lookupEnt (Cp 3 exC1 ["a"] ["b"]).2.entries ["b"] =
      some (.file [1, 2] 420 7 0 0 0) := by
  refine ⟨by decide, by decide, by decide⟩

/-- C1 amended: the DestinationExists failure applies to the directory
branch: when the source stats as a directory, `Recursive` is set, and the
destination stats to an existing node, the call fails with
`destinationExists` and the entries are unchanged (the destination is not
modified; the existence check does leak one open handle). -/
theorem c1_amended_dir_dest_exists (fuel : Nat) (fs : FSys) (src dest : Path)
    (args : CpArgs) (n d : Node) (hstat : statNode fs.entries src = .ok n)
    (hdir : n.isDir = true) (hrec : args.Recursive = true)
    (hdest : statNode fs.entries dest = .ok d) :
    (CpWithArgs (fuel + 1) fs src dest args).1 = .error .destinationExists ∧
    (CpWithArgs (fuel + 1) fs src dest args).2.entries = fs.entries := by
  unfold CpWithArgs cpRun
  rw [hstat]
  simp only [hdir, hrec, if_true, Bool.not_true, Bool.false_eq_true, if_false]
  rw [osOpen_of_stat hdest]
  exact ⟨rfl, rfl⟩

def exC1b : FSys := ⟨[(["s"], .dir 493 0 0), (["b"], .file [9] 256 7 7 0 0)], 0, []⟩

/-- Witness for the amended C1 at a concrete state. -/
theorem c1_amended_dir_dest_exists_witness :
    statNode exC1b.entries ["s"] = .ok (.dir 493 0 0) ∧
    statNode exC1b.entries ["b"] = .ok (.file [9] 256 7 7 0 0) ∧
    (CpWithArgs 1 exC1b ["s"] ["b"] ⟨true, false, false⟩).1 =
        .error .destinationExists ∧
    (CpWithArgs 1 exC1b ["s"] ["b"] ⟨true, false, false⟩).2.entries =
        exC1b.entries :=
  ⟨by decide, by decide,
    (c1_amended_dir_dest_exists 0 exC1b ["s"] ["b"] ⟨true, false, false⟩
      (.dir 493 0 0) (.file [9] 256 7 7 0 0) (by decide) (by decide) rfl
      (by decide)).1,
    (c1_amended_dir_dest_exists 0 exC1b ["s"] ["b"] ⟨true, false, false⟩
      (.dir 493 0 0) (.file [9] 256 7 7 0 0) (by decide) (by decide) rfl
      (by decide)).2⟩

/-! ### C6: the destination-existence check in the directory branch -/

def exC6 : FSys := ⟨[(["src"], .dir 493 0 0), (["f"], .file [5] 420 0 0 0 0)], 0, []⟩

/-- C6 counterexample: with directory source and recursive set, a
destination path lying under a regular file (`f/x`) does not exist, and
its stat fails with `notDir` (not "not found") — yet the operation fails
with `destinationExists` instead of propagating that error. -/
theorem c6_counterexample :
    lookupEnt exC6.entries ["f", "x"] = none ∧
    (osOpen exC6 ["f", "x"]).1 = .error .notDir ∧
    (CpWithArgs 2 exC6 ["src"] ["f", "x"] ⟨true, false, false⟩).1 =
      .error .destinationExists ∧
    (CpWithArgs 2 exC6 ["src"] ["f", "x"] ⟨true, false, false⟩).2.entries =
      exC6.entries := by
  refine ⟨by decide, by decide, by decide, by decide⟩

/-- C6 amended: in the directory branch the operation fails with
`destinationExists` whenever opening dest does not fail with the
"not found" error — that is, when dest exists or when the open fails with
any other error; such other errors are converted into
`destinationExists`, not propagated.  The entries are unchanged. -/
theorem c6_amended_check_not_notExist (fuel : Nat) (fs : FSys) (src dest : Path)
    (args : CpArgs) (n : Node) (hstat : statNode fs.entries src = .ok n)
    (hdir : n.isDir = true) (hrec : args.Recursive = true)
    (hcheck : (osOpen fs dest).1 ≠ .error .notExist) :
    (CpWithArgs (fuel + 1) fs src dest args).1 = .error .destinationExists ∧
    (CpWithArgs (fuel + 1) fs src dest args).2.entries = fs.entries := by
  unfold CpWithArgs cpRun
  rw [hstat]
  simp only [hdir, hrec, if_true, Bool.not_true, Bool.false_eq_true, if_false]
  exact ⟨trivial, osOpen_entries fs dest⟩

/-- Witness for the amended C6 at the `notDir` concrete state. -/
theorem c6_amended_check_not_notExist_witness :
    statNode exC6.entries ["src"] = .ok (.dir 493 0 0) ∧
    (osOpen exC6 ["f", "x"]).1 ≠ .error .notExist ∧
    (CpWithArgs 1 exC6 ["src"] ["f", "x"] ⟨true, false, false⟩).1 =
        .error .destinationExists ∧
    (CpWithArgs 1 exC6 ["src"] ["f", "x"] ⟨true, false, false⟩).2.entries =
        exC6.entries := by
  refine ⟨by decide, by decide, ?_, ?_⟩
  · exact (c6_amended_check_not_notExist 0 exC6 ["src"] ["f", "x"]
      ⟨true, false, false⟩ (.dir 493 0 0) (by decide) (by decide) rfl
      (by decide)).1
  · exact (c6_amended_check_not_notExist 0 exC6 ["src"] ["f", "x"]
      ⟨true, false, false⟩ (.dir 493 0 0) (by decide) (by decide) rfl
      (by decide)).2

/-! ### C4: the preserve-links branch -/

def exC4 : FSys := ⟨[(["d"], .dir 493 0 0), (["s"], .symlink ["d"])], 0, []⟩

/-- C4 counterexample: the source `s` is a symbolic link (so its
link-aware stat reports a non-regular file) and `PreserveLinks` is set,
but because `os.Stat` follows the link to a directory, `CpWithArgs` takes
the directory branch and fails with "source is a directory"; no symbolic
link is created at the destination and nothing is copied. -/
theorem c4_counterexample :
    lookupEnt exC4.entries ["s"] = some (.symlink ["d"]) ∧
    (CpWithArgs 3 exC4 ["s"] ["t"] ⟨false, true, false⟩).1 =
      .error .srcIsDirectory ∧
    lookupEnt (CpWithArgs 3 exC4 ["s"] ["t"] ⟨false, true, false⟩).2.entries
      ["t"] = none := by
  refine ⟨by decide, by decide, by decide⟩

/-- C4 amended: when additionally `os.Stat(source)` succeeds and reports
a non-directory, a `PreserveLinks` copy of a source whose lstat is a
symbolic link is exactly `cpSymlink`: it reads the link target and
creates a new link at dest with the same target; on success the
destination is that link, no other entry changes, and the only recorded
event is the link creation (no open, no content write). -/
theorem c4_amended_symlink_copy (fuel : Nat) (fs : FSys) (src dest : Path)
    (args : CpArgs) (t : Path) (n : Node)
    (hstat : statNode fs.entries src = .ok n) (hndir : n.isDir = false)
    (hlstat : lookupEnt fs.entries src = some (.symlink t))
    (hpl : args.PreserveLinks = true) :
    CpWithArgs (fuel + 1) fs src dest args = cpSymlink fs src dest ∧
    cpSymlink fs src dest = osSymlink fs t dest ∧
    ((osSymlink fs t dest).1 = .ok () →
      lookupEnt (osSymlink fs t dest).2.entries dest = some (.symlink t) ∧
      (∀ q, q ≠ dest →
        lookupEnt (osSymlink fs t dest).2.entries q = lookupEnt fs.entries q) ∧
      (osSymlink fs t dest).2.trace = fs.trace ++ [.symlinkE t dest]) := by
  refine ⟨?_, ?_, ?_⟩
  · unfold CpWithArgs cpRun
    rw [hstat]
    simp [hndir, hlstat, hpl, Node.isRegular]
  · simp [cpSymlink, osReadlink, hlstat]
  · intro hok
    cases hd : lookupEnt fs.entries dest with
    | some m => simp [osSymlink, hd] at hok
    | none =>
      cases hp : parentOk fs.entries dest with
      | false => simp [osSymlink, hd, hp] at hok
      | true =>
        refine ⟨?_, ?_, ?_⟩
        · simp [osSymlink, hd, hp, lookupEnt_insEnt]
        · intro q hq
          simp only [osSymlink, hd, hp, if_true]
          rw [lookupEnt_insEnt]
          cases hlq : lookupEnt fs.entries q with
          | some m => rfl
          | none => exact if_neg (fun h : dest = q => hq h.symm)
        · simp [osSymlink, hd, hp]

def exC4b : FSys := ⟨[(["f"], .file [1] 420 0 0 0 0), (["s"], .symlink ["f"])], 0, []⟩

/-- Witness for the amended C4 at a symlink-to-file state. -/
theorem c4_amended_symlink_copy_witness :
    statNode exC4b.entries ["s"] = .ok (.file [1] 420 0 0 0 0) ∧
    lookupEnt exC4b.entries ["s"] = some (.symlink ["f"]) ∧
    CpWithArgs 1 exC4b ["s"] ["t"] ⟨false, true, false⟩ =
      cpSymlink exC4b ["s"] ["t"] ∧
    lookupEnt (osSymlink exC4b ["f"] ["t"]).2.entries ["t"] =
      some (.symlink ["f"]) := by
  have h := c4_amended_symlink_copy 0 exC4b ["s"] ["t"] ⟨false, true, false⟩
    ["f"] (.file [1] 420 0 0 0 0) (by decide) (by decide) (by decide) rfl
  exact ⟨by decide, by decide, h.1, (h.2.2 (by decide)).1⟩

/-! ### C3 and C10 counterexamples -/

def exC3 : FSys := ⟨[(["a"], .file [7] 420 3 3 0 0)], 0, []⟩

/-- C3 counterexample: copying a regular file onto itself succeeds, but
the destination (the file itself) then holds empty content, not the
original content `[7]`: `os.Create` truncates before `io.Copy` reads. -/
theorem c3_counterexample :
    lookupEnt exC3.entries ["a"] = some (.file [7] 420 3 3 0 0) ∧
    (Cp 3 exC3 ["a"] ["a"]).1 = .ok () ∧
    lookupEnt (Cp 3 exC3 ["a"] ["a"]).2.entries ["a"] =
      some (.file [] 420 3 0 0 0) := by
  refine ⟨by decide, by decide, by decide⟩

/-! ### Full characterization of the file-copy branch

These equations compute a whole `CpWithArgs` call on a regular-file
source (by its lstat), for each shape the destination may have: an
existing regular file behind the (resolved) destination is truncated and
overwritten; a missing destination with a directory parent is created;
the remaining shapes fail with the corresponding `os.Create` error. -/

theorem cpWithArgs_file_overwrite_eq (fuel : Nat) (fs : FSys) (src dest : Path) (args : CpArgs)
    (c : List Nat) (m a mt u g : Nat) (q : Path) (cd : List Nat) (md ad td ud gd : Nat)
    (hsrc : lookupEnt fs.entries src = some (.file c m a mt u g))
    (hres : resolvePath fs.entries linkDepth dest = .ok q)
    (hq : lookupEnt fs.entries q = some (.file cd md ad td ud gd))
    (hqs : q ≠ src) :
    CpWithArgs (fuel + 1) fs src dest args =
      (.ok (), { entries := setEnt fs.entries q
                   (if args.PreserveTimestamps then .file c m mt mt ud gd
                    else .file c m ad 0 ud gd),
                 openHandles := fs.openHandles,
                 trace := fs.trace ++ [.opened src, .created dest, .wrote dest c,
                   .chmodE dest m] ++
                   (if args.PreserveTimestamps then [.chtimesE dest mt mt] else []) ++
                   [.syncE dest, .closed dest, .closed src] }) := by
  have hstat : statNode fs.entries src = .ok (.file c m a mt u g) := by
    simp [statNode, resolveLD_nonlink hsrc (by intro t he; cases he), hsrc]
  have hsq : src ≠ q := fun h => hqs h.symm
  unfold CpWithArgs cpRun
  rw [hstat]
  simp only [Node.isDir, Bool.false_eq_true, if_false]
  rw [hsrc]
  simp only [Node.isRegular, Bool.not_true, Bool.and_false, Bool.false_eq_true, if_false]
  rw [osOpen_of_stat hstat]
  cases hpt : args.PreserveTimestamps with
  | true =>
    simp [osCreate, osWriteAll, chmodOp, chtimesOp, osSync, osClose,
          hres, hq, hsrc, hqs, hsq, hpt,
          resolvePath_setEnt_ok hres, resolveLD_nonlink, lookupEnt_setEnt,
          setEnt_setEnt, Node.modeOf, Node.mtimeOf]
  | false =>
    simp [osCreate, osWriteAll, chmodOp, chtimesOp, osSync, osClose,
          hres, hq, hsrc, hqs, hsq, hpt,
          resolvePath_setEnt_ok hres, resolveLD_nonlink, lookupEnt_setEnt,
          setEnt_setEnt, Node.modeOf, Node.mtimeOf]

theorem cpWithArgs_file_fresh_eq (fuel : Nat) (fs : FSys) (src dest : Path) (args : CpArgs)
    (c : List Nat) (m a mt u g : Nat) (q : Path)
    (hsrc : lookupEnt fs.entries src = some (.file c m a mt u g))
    (hres : resolvePath fs.entries linkDepth dest = .ok q)
    (hq : lookupEnt fs.entries q = none)
    (hpar : parentOk fs.entries q = true) :
    CpWithArgs (fuel + 1) fs src dest args =
      (.ok (), { entries := insEnt fs.entries q
                   (if args.PreserveTimestamps then .file c m mt mt 0 0
                    else .file c m 0 0 0 0),
                 openHandles := fs.openHandles,
                 trace := fs.trace ++ [.opened src, .created dest, .wrote dest c,
                   .chmodE dest m] ++
                   (if args.PreserveTimestamps then [.chtimesE dest mt mt] else []) ++
                   [.syncE dest, .closed dest, .closed src] }) := by
  have hstat : statNode fs.entries src = .ok (.file c m a mt u g) := by
    simp [statNode, resolveLD_nonlink hsrc (by intro t he; cases he), hsrc]
  have hqs : q ≠ src := by
    intro he; rw [he, hsrc] at hq; cases hq
  have hsq : src ≠ q := fun h => hqs h.symm
  unfold CpWithArgs cpRun
  rw [hstat]
  simp only [Node.isDir, Bool.false_eq_true, if_false]
  rw [hsrc]
  simp only [Node.isRegular, Bool.not_true, Bool.and_false, Bool.false_eq_true, if_false]
  rw [osOpen_of_stat hstat]
  cases hpt : args.PreserveTimestamps with
  | true =>
    simp [osCreate, osWriteAll, chmodOp, chtimesOp, osSync, osClose,
          hres, hq, hpar, hsrc, hqs, hsq, hpt,
          resolvePath_insEnt_ok hres hq, resolveLD_nonlink, lookupEnt_insEnt,
          setEnt_insEnt_same, Node.modeOf, Node.mtimeOf]
  | false =>
    simp [osCreate, osWriteAll, chmodOp, chtimesOp, osSync, osClose,
          hres, hq, hpar, hsrc, hqs, hsq, hpt,
          resolvePath_insEnt_ok hres hq, resolveLD_nonlink, lookupEnt_insEnt,
          setEnt_insEnt_same, Node.modeOf, Node.mtimeOf]

theorem cpWithArgs_file_resolve_err (fuel : Nat) (fs : FSys) (src dest : Path) (args : CpArgs)
    (c : List Nat) (m a mt u g : Nat) (e : Err)
    (hsrc : lookupEnt fs.entries src = some (.file c m a mt u g))
    (hres : resolvePath fs.entries linkDepth dest = .error e) :
    (CpWithArgs (fuel + 1) fs src dest args).1 = .error e := by
  have hstat : statNode fs.entries src = .ok (.file c m a mt u g) := by
    simp [statNode, resolveLD_nonlink hsrc (by intro t he; cases he), hsrc]
  unfold CpWithArgs cpRun
  rw [hstat]
  simp only [Node.isDir, Bool.false_eq_true, if_false]
  rw [hsrc]
  simp only [Node.isRegular, Bool.not_true, Bool.and_false, Bool.false_eq_true, if_false]
  rw [osOpen_of_stat hstat]
  simp [osCreate, hres]

theorem cpWithArgs_file_isdir_err (fuel : Nat) (fs : FSys) (src dest : Path) (args : CpArgs)
    (c : List Nat) (m a mt u g : Nat) (q : Path) (dm du dg : Nat)
    (hsrc : lookupEnt fs.entries src = some (.file c m a mt u g))
    (hres : resolvePath fs.entries linkDepth dest = .ok q)
    (hq : lookupEnt fs.entries q = some (.dir dm du dg)) :
    (CpWithArgs (fuel + 1) fs src dest args).1 = .error .isDirErr := by
  have hstat : statNode fs.entries src = .ok (.file c m a mt u g) := by
    simp [statNode, resolveLD_nonlink hsrc (by intro t he; cases he), hsrc]
  unfold CpWithArgs cpRun
  rw [hstat]
  simp only [Node.isDir, Bool.false_eq_true, if_false]
  rw [hsrc]
  simp only [Node.isRegular, Bool.not_true, Bool.and_false, Bool.false_eq_true, if_false]
  rw [osOpen_of_stat hstat]
  simp [osCreate, hres, hq]

theorem cpWithArgs_file_noparent_err (fuel : Nat) (fs : FSys) (src dest : Path) (args : CpArgs)
    (c : List Nat) (m a mt u g : Nat) (q : Path)
    (hsrc : lookupEnt fs.entries src = some (.file c m a mt u g))
    (hres : resolvePath fs.entries linkDepth dest = .ok q)
    (hq : lookupEnt fs.entries q = none)
    (hpar : parentOk fs.entries q = false) :
    (CpWithArgs (fuel + 1) fs src dest args).1 =
      .error (lookupFailErr fs.entries q) := by
  have hstat : statNode fs.entries src = .ok (.file c m a mt u g) := by
    simp [statNode, resolveLD_nonlink hsrc (by intro t he; cases he), hsrc]
  unfold CpWithArgs cpRun
  rw [hstat]
  simp only [Node.isDir, Bool.false_eq_true, if_false]
  rw [hsrc]
  simp only [Node.isRegular, Bool.not_true, Bool.and_false, Bool.false_eq_true, if_false]
  rw [osOpen_of_stat hstat]
  simp [osCreate, hres, hq, hpar]



/-- C3 amended: for a regular file `f` and a destination that does not
resolve to `f` itself, a successful `Cp` leaves at the resolved
destination a regular file with exactly the source's content and mode,
and the recorded events are precisely: open source, create dest, write
all bytes, chmod to the source's mode, sync, close dest, close source. -/
theorem c3_amended_content_copy (fuel : Nat) (fs : FSys) (src dest : Path)
    (c : List Nat) (m a mt u g : Nat)
    (hsrc : lookupEnt fs.entries src = some (.file c m a mt u g))
    (hne : ∀ q, resolvePath fs.entries linkDepth dest = .ok q → q ≠ src)
    (hok : (Cp (fuel + 1) fs src dest).1 = .ok ()) :
    ∃ q a2 u2 g2,
      resolvePath fs.entries linkDepth dest = .ok q ∧
      lookupEnt (Cp (fuel + 1) fs src dest).2.entries q =
        some (.file c m a2 0 u2 g2) ∧
      (Cp (fuel + 1) fs src dest).2.trace =
        fs.trace ++ [.opened src, .created dest, .wrote dest c, .chmodE dest m,
          .syncE dest, .closed dest, .closed src] := by
  unfold Cp CpWithArgs at hok ⊢
  cases hres : resolvePath fs.entries linkDepth dest with
  | error e =>
    rw [show cpRun (fuel + 1) fs (.one src dest ⟨false, false, false⟩) =
          CpWithArgs (fuel + 1) fs src dest ⟨false, false, false⟩ from rfl,
        cpWithArgs_file_resolve_err fuel fs src dest ⟨false, false, false⟩ c m a mt u g e hsrc hres] at hok
    cases hok
  | ok q =>
    have hqs : q ≠ src := hne q hres
    cases hlq : lookupEnt fs.entries q with
    | some n =>
      cases n with
      | dir dm du dg =>
        rw [show cpRun (fuel + 1) fs (.one src dest ⟨false, false, false⟩) =
              CpWithArgs (fuel + 1) fs src dest ⟨false, false, false⟩ from rfl,
            cpWithArgs_file_isdir_err fuel fs src dest ⟨false, false, false⟩ c m a mt u g q dm du dg hsrc hres hlq] at hok
        cases hok
      | symlink t => exact absurd hlq (resolvePath_ok_not_link hres t)
      | file cd md ad td ud gd =>
        rw [show cpRun (fuel + 1) fs (.one src dest ⟨false, false, false⟩) =
              CpWithArgs (fuel + 1) fs src dest ⟨false, false, false⟩ from rfl,
            cpWithArgs_file_overwrite_eq fuel fs src dest ⟨false, false, false⟩ c m a mt u g q cd md ad td ud gd hsrc hres hlq hqs]
        refine ⟨q, ad, ud, gd, rfl, ?_, ?_⟩
        · rw [lookupEnt_setEnt, if_pos rfl, hlq]
          rfl
        · simp
    | none =>
      cases hpar : parentOk fs.entries q with
      | false =>
        rw [show cpRun (fuel + 1) fs (.one src dest ⟨false, false, false⟩) =
              CpWithArgs (fuel + 1) fs src dest ⟨false, false, false⟩ from rfl,
            cpWithArgs_file_noparent_err fuel fs src dest ⟨false, false, false⟩ c m a mt u g q hsrc hres hlq hpar] at hok
        cases hok
      | true =>
        rw [show cpRun (fuel + 1) fs (.one src dest ⟨false, false, false⟩) =
              CpWithArgs (fuel + 1) fs src dest ⟨false, false, false⟩ from rfl,
            cpWithArgs_file_fresh_eq fuel fs src dest ⟨false, false, false⟩ c m a mt u g q hsrc hres hlq hpar]
        refine ⟨q, 0, 0, 0, rfl, ?_, ?_⟩
        · rw [lookupEnt_insEnt, hlq]
          simp
        · simp


/-- Witness for the amended C3: the copy of `a` over the existing file
`b` succeeds, leaves content `[1,2]` and mode `420` at `b`, and records
exactly the open/create/write/chmod/sync/close/close sequence. -/
theorem c3_amended_content_copy_witness :
    lookupEnt exC1.entries ["a"] = some (.file [1, 2] 420 0 0 0 0) ∧
    (Cp 2 exC1 ["a"] ["b"]).1 = .ok () ∧
    (∃ q a2 u2 g2,
      resolvePath exC1.entries linkDepth ["b"] = .ok q ∧
      lookupEnt (Cp 2 exC1 ["a"] ["b"]).2.entries q =
        some (.file [1, 2] 420 a2 0 u2 g2) ∧
      (Cp 2 exC1 ["a"] ["b"]).2.trace =
        exC1.trace ++ [.opened ["a"], .created ["b"], .wrote ["b"] [1, 2],
          .chmodE ["b"] 420, .syncE ["b"], .closed ["b"], .closed ["a"]]) :=
  ⟨by decide, by decide,
    c3_amended_content_copy 1 exC1 ["a"] ["b"] [1, 2] 420 0 0 0 0 (by decide)
      (by
        intro q hq
        rw [show resolvePath exC1.entries linkDepth ["b"] = Except.ok ["b"]
          from rfl] at hq
        injection hq with h
        subst h
        decide)
      (by decide)⟩

def exC10 : FSys := ⟨[(["f"], .file [1] 420 5 5 0 0), (["s"], .symlink ["f"])], 0, []⟩

/-- C10 counterexample: a successful non-directory `CpWithArgs` with
`PreserveTimestamps` set that takes the preserve-links branch records no
`Chtimes` call at all (the whole trace is the single link creation), and
the destination is a symbolic link carrying no timestamps. -/
theorem c10_counterexample :
    (CpWithArgs 2 exC10 ["s"] ["d"] ⟨false, true, true⟩).1 = .ok () ∧
    (CpWithArgs 2 exC10 ["s"] ["d"] ⟨false, true, true⟩).2.trace =
      [.symlinkE ["f"] ["d"]] ∧
    lookupEnt (CpWithArgs 2 exC10 ["s"] ["d"] ⟨false, true, true⟩).2.entries
      ["d"] = some (.symlink ["f"]) := by
  refine ⟨by decide, by decide, by decide⟩

/-- C10 amended: a successful non-directory `CpWithArgs` with
`PreserveTimestamps` set that takes the content-copy path (regular lstat)
on a non-aliased destination sets the destination's access and
modification time both to the source's modification time, with the
`Chtimes` call recorded after the content write and the chmod and before
the sync. -/
theorem c10_amended_content_timestamps (fuel : Nat) (fs : FSys) (src dest : Path) (args : CpArgs)
    (c : List Nat) (m a mt u g : Nat)
    (hpt : args.PreserveTimestamps = true)
    (hsrc : lookupEnt fs.entries src = some (.file c m a mt u g))
    (hne : ∀ q, resolvePath fs.entries linkDepth dest = .ok q → q ≠ src)
    (hok : (CpWithArgs (fuel + 1) fs src dest args).1 = .ok ()) :
    ∃ q u2 g2,
      resolvePath fs.entries linkDepth dest = .ok q ∧
      lookupEnt (CpWithArgs (fuel + 1) fs src dest args).2.entries q =
        some (.file c m mt mt u2 g2) ∧
      (CpWithArgs (fuel + 1) fs src dest args).2.trace =
        fs.trace ++ [.opened src, .created dest, .wrote dest c, .chmodE dest m,
          .chtimesE dest mt mt, .syncE dest, .closed dest, .closed src] := by
  cases hres : resolvePath fs.entries linkDepth dest with
  | error e =>
    rw [cpWithArgs_file_resolve_err fuel fs src dest args c m a mt u g e hsrc hres] at hok
    cases hok
  | ok q =>
    have hqs : q ≠ src := hne q hres
    cases hlq : lookupEnt fs.entries q with
    | some n =>
      cases n with
      | dir dm du dg =>
        rw [cpWithArgs_file_isdir_err fuel fs src dest args c m a mt u g q dm du dg hsrc hres hlq] at hok
        cases hok
      | symlink t => exact absurd hlq (resolvePath_ok_not_link hres t)
      | file cd md ad td ud gd =>
        rw [cpWithArgs_file_overwrite_eq fuel fs src dest args c m a mt u g q cd md ad td ud gd hsrc hres hlq hqs]
        refine ⟨q, ud, gd, rfl, ?_, ?_⟩
        · rw [lookupEnt_setEnt, if_pos rfl, hlq, hpt]
          rfl
        · simp [hpt]
    | none =>
      cases hpar : parentOk fs.entries q with
      | false =>
        rw [cpWithArgs_file_noparent_err fuel fs src dest args c m a mt u g q hsrc hres hlq hpar] at hok
        cases hok
      | true =>
        rw [cpWithArgs_file_fresh_eq fuel fs src dest args c m a mt u g q hsrc hres hlq hpar]
        refine ⟨q, 0, 0, rfl, ?_, ?_⟩
        · rw [lookupEnt_insEnt, hlq, hpt]
          simp
        · simp [hpt]


def exC10b : FSys := ⟨[(["f"], .file [3] 416 9 9 0 0)], 0, []⟩

/-- Witness for the amended C10: a content copy with `PreserveTimestamps`
sets both times of the new destination file to the source's modification
time `9`, with the `Chtimes` event between chmod and sync. -/
theorem c10_amended_content_timestamps_witness :
    lookupEnt exC10b.entries ["f"] = some (.file [3] 416 9 9 0 0) ∧
    (CpWithArgs 2 exC10b ["f"] ["g"] ⟨false, false, true⟩).1 = .ok () ∧
    (∃ q u2 g2,
      resolvePath exC10b.entries linkDepth ["g"] = .ok q ∧
      lookupEnt (CpWithArgs 2 exC10b ["f"] ["g"]
        ⟨false, false, true⟩).2.entries q = some (.file [3] 416 9 9 u2 g2) ∧
      (CpWithArgs 2 exC10b ["f"] ["g"] ⟨false, false, true⟩).2.trace =
        exC10b.trace ++ [.opened ["f"], .created ["g"], .wrote ["g"] [3],
          .chmodE ["g"] 416, .chtimesE ["g"] 9 9, .syncE ["g"], .closed ["g"],
          .closed ["f"]]) :=
  ⟨by decide, by decide,
    c10_amended_content_timestamps 1 exC10b ["f"] ["g"] ⟨false, false, true⟩
      [3] 416 9 9 0 0 rfl (by decide)
      (by
        intro q hq
        rw [show resolvePath exC10b.entries linkDepth ["g"] = Except.ok ["g"]
          from rfl] at hq
        injection hq with h
        subst h
        decide)
      (by decide)⟩

/-! ### C7 counterexample: the leaked existence-check handle -/

def exC7 : FSys := ⟨[(["s"], .dir 493 0 0), (["t"], .dir 493 0 0)], 0, []⟩

/-- C7 counterexample: copying a directory onto an existing destination
opens dest for the existence check and returns without closing it: one
more handle is open after the call than before. -/
theorem c7_counterexample :
    exC7.openHandles = 0 ∧
    (CpWithArgs 2 exC7 ["s"] ["t"] ⟨true, false, false⟩).2.openHandles = 1 := by
  refine ⟨rfl, by decide⟩

theorem osOpen_handles_le (fs : FSys) (p : Path) :
    (osOpen fs p).2.openHandles ≤ fs.openHandles + 1 := by
  cases hr : resolvePath fs.entries linkDepth p with
  | error e => simp [osOpen, hr]
  | ok q =>
    cases hl : lookupEnt fs.entries q with
    | none => simp [osOpen, hr, hl]
    | some n => simp [osOpen, hr, hl]

theorem osOpen_ok_handles {fs : FSys} {p : Path} {u : Unit}
    (h : (osOpen fs p).1 = .ok u) :
    (osOpen fs p).2.openHandles = fs.openHandles + 1 := by
  cases hr : resolvePath fs.entries linkDepth p with
  | error e => simp [osOpen, hr] at h
  | ok q =>
    cases hl : lookupEnt fs.entries q with
    | none => simp [osOpen, hr, hl] at h
    | some n => simp [osOpen, hr, hl]

theorem osCreate_of_error {fs : FSys} {p : Path} {e : Err}
    (h : (osCreate fs p).1 = .error e) : (osCreate fs p).2 = fs := by
  cases hr : resolvePath fs.entries linkDepth p with
  | error e2 => simp [osCreate, hr]
  | ok q =>
    cases hl : lookupEnt fs.entries q with
    | none =>
      cases hp : parentOk fs.entries q with
      | true => simp [osCreate, hr, hl, hp] at h
      | false => simp [osCreate, hr, hl, hp]
    | some n =>
      cases n with
      | file c m a mt u g => simp [osCreate, hr, hl] at h
      | dir m u g => simp [osCreate, hr, hl]
      | symlink t => simp [osCreate, hr, hl]

theorem osCreate_ok_handles {fs : FSys} {p : Path} {u : Unit}
    (h : (osCreate fs p).1 = .ok u) :
    (osCreate fs p).2.openHandles = fs.openHandles + 1 := by
  cases hr : resolvePath fs.entries linkDepth p with
  | error e2 => simp [osCreate, hr] at h
  | ok q =>
    cases hl : lookupEnt fs.entries q with
    | none =>
      cases hp : parentOk fs.entries q with
      | true => simp [osCreate, hr, hl, hp]
      | false => simp [osCreate, hr, hl, hp] at h
    | some n =>
      cases n with
      | file c m a mt u2 g => simp [osCreate, hr, hl]
      | dir m u2 g => simp [osCreate, hr, hl] at h
      | symlink t => simp [osCreate, hr, hl] at h

theorem osWriteAll_handles (fs : FSys) (src dest : Path) :
    (osWriteAll fs src dest).2.openHandles = fs.openHandles := by
  cases hr : resolvePath fs.entries linkDepth src with
  | error e => simp [osWriteAll, hr]
  | ok qs =>
    cases hl : lookupEnt fs.entries qs with
    | none => simp [osWriteAll, hr, hl]
    | some n =>
      cases n with
      | symlink t => simp [osWriteAll, hr, hl]
      | dir m u g => simp [osWriteAll, hr, hl]
      | file c m a mt u g =>
        cases hr2 : resolvePath fs.entries linkDepth dest with
        | error e => simp [osWriteAll, hr, hl, hr2]
        | ok qd =>
          cases hl2 : lookupEnt fs.entries qd with
          | none => simp [osWriteAll, hr, hl, hr2, hl2]
          | some n2 => cases n2 <;> simp [osWriteAll, hr, hl, hr2, hl2]

theorem chmodOp_handles (mode : Nat) (fs : FSys) (p : Path) :
    (chmodOp mode fs p).2.openHandles = fs.openHandles := by
  cases hr : resolvePath fs.entries linkDepth p with
  | error e => simp [chmodOp, hr]
  | ok q =>
    cases hl : lookupEnt fs.entries q with
    | none => simp [chmodOp, hr, hl]
    | some n => cases n <;> simp [chmodOp, hr, hl]

theorem chtimesOp_handles (fs : FSys) (p : Path) (a mt : Nat) :
    (chtimesOp fs p a mt).2.openHandles = fs.openHandles := by
  cases hr : resolvePath fs.entries linkDepth p with
  | error e => simp [chtimesOp, hr]
  | ok q =>
    cases hl : lookupEnt fs.entries q with
    | none => simp [chtimesOp, hr, hl]
    | some n => cases n <;> simp [chtimesOp, hr, hl]

theorem cpSymlink_handles (fs : FSys) (src dest : Path) :
    (cpSymlink fs src dest).2.openHandles = fs.openHandles := by
  cases hl : lookupEnt fs.entries src with
  | none => simp [cpSymlink, osReadlink, hl]
  | some n =>
    cases n with
    | file c m a mt u g => simp [cpSymlink, osReadlink, hl]
    | dir m u g => simp [cpSymlink, osReadlink, hl]
    | symlink t =>
      cases hd : lookupEnt fs.entries dest with
      | some n2 => simp [cpSymlink, osReadlink, osSymlink, hl, hd]
      | none =>
        cases hp : parentOk fs.entries dest with
        | true => simp [cpSymlink, osReadlink, osSymlink, hl, hd, hp]
        | false => simp [cpSymlink, osReadlink, osSymlink, hl, hd, hp]

theorem mkdirChain_handles (mode : Nat) (ps : List Path) (fs : FSys) :
    (mkdirChain mode ps fs).2.openHandles = fs.openHandles := by
  induction ps generalizing fs with
  | nil => rfl
  | cons q rest ih =>
    cases hl : lookupEnt fs.entries q with
    | none =>
      show (mkdirChain mode (q :: rest) fs).2.openHandles = fs.openHandles
      unfold mkdirChain
      rw [hl]
      exact ih _
    | some n =>
      cases n with
      | file c m a mt u g => simp [mkdirChain, hl]
      | dir m u g =>
        show (mkdirChain mode (q :: rest) fs).2.openHandles = fs.openHandles
        unfold mkdirChain
        rw [hl]
        exact ih fs
      | symlink t => simp [mkdirChain, hl]

/-- C7 amended, as a statement over every copy task: the open-handle
count after any `cpRun` is at most one above the starting count, and it
is exactly the starting count unless the operation failed with
`destinationExists` (the one leak is the directory-branch existence
check's handle, abandoned when that check fails the operation). -/
theorem cpRun_handles : ∀ (fuel : Nat) (fs : FSys) (task : CpTask),
    (cpRun fuel fs task).2.openHandles ≤ fs.openHandles + 1 ∧
    ((cpRun fuel fs task).1 ≠ .error .destinationExists →
      (cpRun fuel fs task).2.openHandles = fs.openHandles) := by
  intro fuel
  induction fuel with
  | zero => intro fs task; exact ⟨Nat.le_succ _, fun _ => rfl⟩
  | succ fuel ih =>
    intro fs task
    match task with
    | .many source dest args [] =>
      exact ⟨Nat.le_succ _, fun _ => rfl⟩
    | .many source dest args (name :: rest) =>
      have ihc := ih fs (.one (source ++ [name]) (dest ++ [name]) args)
      unfold cpRun
      dsimp only
      rcases hc : cpRun fuel fs (.one (source ++ [name]) (dest ++ [name]) args)
        with ⟨rc, fsc⟩
      rw [hc] at ihc
      cases rc with
      | error e => exact ⟨ihc.1, fun hne => ihc.2 hne⟩
      | ok u =>
        have hfsc : fsc.openHandles = fs.openHandles := ihc.2 (by intro h2; cases h2)
        have ihr := ih fsc (.many source dest args rest)
        refine ⟨?_, fun hne => ?_⟩
        · have h3 := ihr.1
          rw [hfsc] at h3
          exact h3
        · rw [ihr.2 hne, hfsc]
    | .one source dest args =>
      unfold cpRun
      cases hst : statNode fs.entries source with
      | error e => exact ⟨Nat.le_succ _, fun _ => rfl⟩
      | ok info =>
        dsimp only
        cases hdir : info.isDir with
        | false =>
          simp only [hdir, Bool.false_eq_true, if_false]
          cases hls : lookupEnt fs.entries source with
          | none => exact ⟨Nat.le_succ _, fun _ => rfl⟩
          | some si =>
            dsimp only
            cases hpl : (args.PreserveLinks && !si.isRegular) with
            | true =>
              simp only [hpl, if_true]
              have h := cpSymlink_handles fs source dest
              exact ⟨by rw [h]; exact Nat.le_succ _, fun _ => h⟩
            | false =>
              simp only [hpl, Bool.false_eq_true, if_false]
              rcases hov : osOpen fs source with ⟨ro, fs1⟩
              cases ro with
              | error e =>
                have h2 : fs1 = fs := by
                  have h3 := osOpen_of_error
                    (show (osOpen fs source).1 = Except.error e by rw [hov])
                  rw [hov] at h3
                  exact h3
                subst h2
                exact ⟨Nat.le_succ _, fun _ => rfl⟩
              | ok u =>
                dsimp only
                have h1 : fs1.openHandles = fs.openHandles + 1 := by
                  have h3 := osOpen_ok_handles
                    (show (osOpen fs source).1 = Except.ok u by rw [hov])
                  rw [hov] at h3
                  exact h3
                rcases hcr : osCreate fs1 dest with ⟨rc, fs2⟩
                cases rc with
                | error e =>
                  have h2 : fs2 = fs1 := by
                    have h3 := osCreate_of_error
                      (show (osCreate fs1 dest).1 = Except.error e by rw [hcr])
                    rw [hcr] at h3
                    exact h3
                  subst h2
                  refine ⟨?_, fun _ => ?_⟩ <;>
                    simp [osClose, h1]
                | ok u2 =>
                  dsimp only
                  have h2 : fs2.openHandles = fs.openHandles + 2 := by
                    have h3 := osCreate_ok_handles
                      (show (osCreate fs1 dest).1 = Except.ok u2 by rw [hcr])
                    rw [hcr] at h3
                    rw [h3, h1]
                  rcases hwr : osWriteAll fs2 source dest with ⟨rw3, fs3⟩
                  have h3 : fs3.openHandles = fs.openHandles + 2 := by
                    have h4 := osWriteAll_handles fs2 source dest
                    rw [hwr] at h4
                    rw [h4, h2]
                  cases rw3 with
                  | error e => refine ⟨?_, fun _ => ?_⟩ <;> simp [osClose, h3]
                  | ok u3 =>
                    dsimp only
                    rcases hcm : chmodOp si.modeOf fs3 dest with ⟨rc4, fs4⟩
                    have h4 : fs4.openHandles = fs.openHandles + 2 := by
                      have h5 := chmodOp_handles si.modeOf fs3 dest
                      rw [hcm] at h5
                      rw [h5, h3]
                    cases rc4 with
                    | error e => refine ⟨?_, fun _ => ?_⟩ <;> simp [osClose, h4]
                    | ok u4 =>
                      dsimp only
                      rcases hct : (if args.PreserveTimestamps then
                          chtimesOp fs4 dest si.mtimeOf si.mtimeOf
                        else (.ok (), fs4)) with ⟨rc5, fs5⟩
                      have h5 : fs5.openHandles = fs.openHandles + 2 := by
                        cases hpt : args.PreserveTimestamps with
                        | true =>
                          rw [hpt] at hct
                          simp only [if_true] at hct
                          have h6 := chtimesOp_handles fs4 dest si.mtimeOf si.mtimeOf
                          rw [hct] at h6
                          rw [h6, h4]
                        | false =>
                          rw [hpt] at hct
                          simp only [Bool.false_eq_true, if_false] at hct
                          cases hct
                          exact h4
                      cases rc5 with
                      | error e => refine ⟨?_, fun _ => ?_⟩ <;> simp [osClose, h5]
                      | ok u5 =>
                        refine ⟨?_, fun _ => ?_⟩ <;>
                          simp [osSync, osClose, h5]
        | true =>
          cases hrec : args.Recursive with
          | false =>
            simp only [hdir, hrec, if_true, Bool.not_false, if_true]
            exact ⟨Nat.le_succ _, fun _ => trivial⟩
          | true =>
            simp only [hdir, hrec, if_true, Bool.not_true, Bool.false_eq_true, if_false]
            rcases hov : osOpen fs dest with ⟨ro, fs1⟩
            have hle : fs1.openHandles ≤ fs.openHandles + 1 := by
              have h3 := osOpen_handles_le fs dest
              rw [hov] at h3
              exact h3
            cases ro with
            | ok u =>
              exact ⟨hle, fun hne => absurd rfl hne⟩
            | error e =>
              cases e with
              | notExist =>
                dsimp only
                have h2 : fs1 = fs := by
                  have h3 := osOpen_of_error
                    (show (osOpen fs dest).1 = Except.error Err.notExist by rw [hov])
                  rw [hov] at h3
                  exact h3
                subst h2
                rcases hmk : mkdirAll fs1 dest info.modeOf with ⟨rm, fs2⟩
                have hm2 : fs2.openHandles = fs1.openHandles := by
                  have h3 : (mkdirAll fs1 dest info.modeOf).2.openHandles =
                      fs1.openHandles := by
                    unfold mkdirAll
                    by_cases hd : dest = []
                    · rw [if_pos hd]
                    · rw [if_neg hd]
                      exact mkdirChain_handles info.modeOf (ascPres dest) fs1
                  rw [hmk] at h3
                  exact h3
                cases rm with
                | error e2 => exact ⟨by rw [hm2]; exact Nat.le_succ _, fun _ => hm2⟩
                | ok u2 =>
                  dsimp only
                  cases hrd : readDir fs2 source with
                  | error e3 => exact ⟨by rw [hm2]; exact Nat.le_succ _, fun _ => hm2⟩
                  | ok files =>
                    have ihm := ih fs2 (.many source dest args files)
                    refine ⟨?_, fun hne => ?_⟩
                    · have h3 := ihm.1
                      rw [hm2] at h3
                      exact h3
                    · rw [ihm.2 hne, hm2]
              | notDir => exact ⟨hle, fun hne => absurd rfl hne⟩
              | tooManyLinks => exact ⟨hle, fun hne => absurd rfl hne⟩
              | isDirErr => exact ⟨hle, fun hne => absurd rfl hne⟩
              | existsErr => exact ⟨hle, fun hne => absurd rfl hne⟩
              | invalidArgument => exact ⟨hle, fun hne => absurd rfl hne⟩
              | srcIsDirectory => exact ⟨hle, fun hne => absurd rfl hne⟩
              | destinationExists => exact ⟨hle, fun hne => absurd rfl hne⟩
              | fuelOut => exact ⟨hle, fun hne => absurd rfl hne⟩

/-- C7 amended: every file handle opened during a copy is closed before
the operation returns except the directory-branch existence-check handle:
the open-handle count never grows by more than one, and it is unchanged
unless the operation failed with `destinationExists` (the case in which
the Go code abandons the handle `os.Open(dest)` returned). -/
theorem c7_amended_handle_balance (fuel : Nat) (fs : FSys) (src dest : Path)
    (args : CpArgs) :
    (CpWithArgs fuel fs src dest args).2.openHandles ≤ fs.openHandles + 1 ∧
    ((CpWithArgs fuel fs src dest args).1 ≠ .error .destinationExists →
      (CpWithArgs fuel fs src dest args).2.openHandles = fs.openHandles) :=
  cpRun_handles fuel fs (.one src dest args)

def exC7b : FSys := ⟨[(["a"], .file [1] 420 0 0 0 0)], 0, []⟩

/-- Witness for the amended C7: a successful file copy ends with exactly
as many open handles as it started with. -/
theorem c7_amended_handle_balance_witness :
    (CpWithArgs 2 exC7b ["a"] ["b"] ⟨false, false, false⟩).1 ≠
      .error .destinationExists ∧
    (CpWithArgs 2 exC7b ["a"] ["b"] ⟨false, false, false⟩).2.openHandles =
      exC7b.openHandles :=
  ⟨by decide,
    (c7_amended_handle_balance 2 exC7b ["a"] ["b"] ⟨false, false, false⟩).2
      (by decide)⟩

/-! ### Entry-list and directory-listing lemmas -/

def keysNodup (l : List (Path × Node)) : Prop := (l.map Prod.fst).Nodup

instance (l : List (Path × Node)) : Decidable (keysNodup l) := by
  unfold keysNodup
  infer_instance

theorem lookupEnt_none_of_not_mem {l : List (Path × Node)} {q : Path}
    (h : q ∉ l.map Prod.fst) : lookupEnt l q = none := by
  induction l with
  | nil => rfl
  | cons e rest ih =>
    simp only [List.map_cons, List.mem_cons, not_or] at h
    rw [show lookupEnt (e :: rest) q = if e.1 = q then some e.2 else lookupEnt rest q
      from rfl, if_neg (fun he => h.1 he.symm)]
    exact ih h.2

theorem not_mem_of_lookupEnt_none {l : List (Path × Node)} {q : Path}
    (h : lookupEnt l q = none) : q ∉ l.map Prod.fst := by
  intro hmem
  rw [List.mem_map] at hmem
  obtain ⟨e, he, hq⟩ := hmem
  exact lookupEnt_none_forall h e he hq

theorem lookupEnt_some_mem {l : List (Path × Node)} {q : Path} {n : Node}
    (h : lookupEnt l q = some n) : (q, n) ∈ l := by
  induction l with
  | nil => cases h
  | cons e rest ih =>
    unfold lookupEnt at h
    by_cases he : e.1 = q
    · rw [if_pos he] at h
      cases h
      exact (show (q, e.2) = e by rw [← he]) ▸ List.mem_cons_self e rest
    · rw [if_neg he] at h
      exact List.mem_cons_of_mem e (ih h)

theorem mem_lookupEnt_of_nodup {l : List (Path × Node)} {q : Path} {n : Node}
    (hnd : keysNodup l) (h : (q, n) ∈ l) : lookupEnt l q = some n := by
  induction l with
  | nil => cases h
  | cons e rest ih =>
    unfold keysNodup at hnd
    simp only [List.map_cons, List.nodup_cons] at hnd
    cases h with
    | head => simp [lookupEnt]
    | tail _ hmem =>
      have hq : e.1 ≠ q := by
        intro he
        exact hnd.1 (he ▸ List.mem_map_of_mem Prod.fst hmem)
      rw [show lookupEnt (e :: rest) q = if e.1 = q then some e.2 else lookupEnt rest q
        from rfl, if_neg hq]
      exact ih hnd.2 hmem

theorem keysNodup_setEnt (l : List (Path × Node)) (p : Path) (n : Node)
    (h : keysNodup l) : keysNodup (setEnt l p n) := by
  unfold keysNodup at h ⊢
  have hkeys : (setEnt l p n).map Prod.fst = l.map Prod.fst := by
    unfold setEnt
    rw [List.map_map]
    exact List.map_congr_left (fun e _ => by
      by_cases he : e.1 = p <;> simp [Function.comp, he])
  rw [hkeys]
  exact h

theorem setEnt_keys (l : List (Path × Node)) (p : Path) (n : Node) :
    (setEnt l p n).map Prod.fst = l.map Prod.fst := by
  unfold setEnt
  rw [List.map_map]
  exact List.map_congr_left (fun e _ => by
    by_cases he : e.1 = p <;> simp [Function.comp, he])

theorem keysNodup_insEnt (l : List (Path × Node)) (p : Path) (n : Node)
    (h : keysNodup l) (hp : lookupEnt l p = none) : keysNodup (insEnt l p n) := by
  unfold keysNodup at h ⊢
  show ((l ++ [(p, n)]).map Prod.fst).Nodup
  rw [List.map_append]
  simp only [List.map_cons, List.map_nil]
  rw [List.nodup_append]
  refine ⟨h, List.nodup_singleton p, ?_⟩
  intro a ha hb
  simp only [List.mem_singleton] at hb
  subst hb
  exact (not_mem_of_lookupEnt_none hp) ha

theorem insSorted_perm (s : String) (l : List String) :
    List.Perm (insSorted s l) (s :: l) := by
  induction l with
  | nil => exact List.Perm.refl _
  | cons t ts ih =>
    unfold insSorted
    by_cases h : strLe s t = true
    · rw [if_pos h]
    · rw [if_neg h]
      exact (List.Perm.cons t ih).trans (List.Perm.swap s t ts)

theorem sortNames_perm (l : List String) : List.Perm (sortNames l) l := by
  induction l with
  | nil => exact List.Perm.refl _
  | cons s ss ih =>
    exact (insSorted_perm s (sortNames ss)).trans (List.Perm.cons s ih)

theorem mem_sortNames {x : String} {l : List String} :
    x ∈ sortNames l ↔ x ∈ l :=
  (sortNames_perm l).mem_iff

theorem sortNames_nodup {l : List String} (h : l.Nodup) : (sortNames l).Nodup :=
  ((sortNames_perm l).nodup_iff).mpr h

/-- Raw (unsorted) child names, before `sortNames`. -/
def rawChildNames (l : List (Path × Node)) (p : Path) : List String :=
  l.filterMap fun e =>
    if e.1 ≠ [] ∧ e.1.dropLast = p then some (e.1.getLastD "") else none

theorem childNames_eq_sort_raw (l : List (Path × Node)) (p : Path) :
    childNames l p = sortNames (rawChildNames l p) := rfl

theorem self_eq_dropLast_append (l : List String) (d : String) (h : l ≠ []) :
    l = l.dropLast ++ [l.getLastD d] := by
  induction l with
  | nil => cases h rfl
  | cons a t ih =>
    cases t with
    | nil => rfl
    | cons b t2 =>
      show a :: (b :: t2) = a :: ((b :: t2).dropLast ++ [(b :: t2).getLastD d])
      exact congrArg (a :: ·) (ih (by simp))

theorem key_eq_of_raw {p : Path} {e : Path × Node}
    (h : e.1 ≠ [] ∧ e.1.dropLast = p) : e.1 = p ++ [e.1.getLastD ""] := by
  obtain ⟨h1, h2⟩ := h
  have h3 := self_eq_dropLast_append e.1 "" h1
  rw [h2] at h3
  exact h3

theorem mem_rawChildNames {l : List (Path × Node)} {p : Path} {n : String} :
    n ∈ rawChildNames l p ↔ ∃ nd, (p ++ [n], nd) ∈ l := by
  unfold rawChildNames
  rw [List.mem_filterMap]
  constructor
  · rintro ⟨e, hmem, he⟩
    by_cases hc : e.1 ≠ [] ∧ e.1.dropLast = p
    · rw [if_pos hc] at he
      cases he
      refine ⟨e.2, ?_⟩
      have hk := key_eq_of_raw hc
      rw [← hk]
      exact hmem
    · rw [if_neg hc] at he; cases he
  · rintro ⟨nd, hmem⟩
    refine ⟨(p ++ [n], nd), hmem, ?_⟩
    have hne : (p ++ [n] : Path) ≠ [] := by simp
    have hdl : (p ++ [n] : Path).dropLast = p := by
      rw [List.dropLast_concat]
    rw [if_pos ⟨hne, hdl⟩]
    have hgl : (p ++ [n] : Path).getLastD "" = n := by
      have h3 := self_eq_dropLast_append (p ++ [n]) "" hne
      rw [hdl] at h3
      have h4 := List.append_inj' h3 rfl
      simpa using h4.2.symm
    rw [hgl]

theorem mem_childNames {l : List (Path × Node)} {p : Path} {n : String} :
    n ∈ childNames l p ↔ ∃ nd, (p ++ [n], nd) ∈ l := by
  rw [childNames_eq_sort_raw, mem_sortNames, mem_rawChildNames]

theorem rawChildNames_nodup {l : List (Path × Node)} (p : Path)
    (h : keysNodup l) : (rawChildNames l p).Nodup := by
  unfold keysNodup at h
  induction l with
  | nil => exact List.nodup_nil
  | cons e rest ih =>
    simp only [List.map_cons, List.nodup_cons] at h
    show (List.filterMap _ (e :: rest)).Nodup
    rw [List.filterMap_cons]
    by_cases hc : e.1 ≠ [] ∧ e.1.dropLast = p
    · rw [if_pos hc]
      dsimp only
      rw [List.nodup_cons]
      refine ⟨?_, ih h.2⟩
      intro hmem
      have h2 := mem_rawChildNames.mp hmem
      obtain ⟨nd, hmem2⟩ := h2
      have hk := key_eq_of_raw hc
      rw [← hk] at hmem2
      have h5 : e.1 ∈ List.map Prod.fst rest := by
        rw [List.mem_map]
        exact ⟨(e.1, nd), hmem2, rfl⟩
      exact h.1 h5
    · rw [if_neg hc]
      dsimp only
      exact ih h.2

theorem childNames_nodup {l : List (Path × Node)} (p : Path)
    (h : keysNodup l) : (childNames l p).Nodup :=
  sortNames_nodup (rawChildNames_nodup p h)

theorem rawChildNames_append (l ext : List (Path × Node)) (p : Path)
    (hext : ∀ e ∈ ext, ¬(e.1 ≠ [] ∧ e.1.dropLast = p)) :
    rawChildNames (l ++ ext) p = rawChildNames l p := by
  unfold rawChildNames
  rw [List.filterMap_append]
  have h2 : (ext.filterMap fun e =>
      if e.1 ≠ [] ∧ e.1.dropLast = p then some (e.1.getLastD "") else none) = [] := by
    rw [List.filterMap_eq_nil]
    intro e he
    rw [if_neg (hext e he)]
  rw [h2, List.append_nil]

theorem rawChildNames_setEnt (l : List (Path × Node)) (k : Path) (n : Node)
    (p : Path) : rawChildNames (setEnt l k n) p = rawChildNames l p := by
  unfold rawChildNames setEnt
  rw [List.filterMap_map]
  exact List.filterMap_congr (fun e _ => by
    by_cases he : e.1 = k <;> simp [Function.comp, he])

theorem childNames_setEnt (l : List (Path × Node)) (k : Path) (n : Node)
    (p : Path) : childNames (setEnt l k n) p = childNames l p := by
  rw [childNames_eq_sort_raw, childNames_eq_sort_raw, rawChildNames_setEnt]

theorem childNames_append (l ext : List (Path × Node)) (p : Path)
    (hext : ∀ e ∈ ext, ¬(e.1 ≠ [] ∧ e.1.dropLast = p)) :
    childNames (l ++ ext) p = childNames l p := by
  rw [childNames_eq_sort_raw, childNames_eq_sort_raw, rawChildNames_append l ext p hext]

/-! ### Append, prefix and mkdir-chain structure lemmas -/

theorem lookupEnt_append_some {l : List (Path × Node)} (ext : List (Path × Node))
    {q : Path} {n : Node} (h : lookupEnt l q = some n) :
    lookupEnt (l ++ ext) q = some n := by
  rw [lookupEnt_append, h]

theorem lookupEnt_append_none {l : List (Path × Node)} (ext : List (Path × Node))
    {q : Path} (h : lookupEnt l q = none) :
    lookupEnt (l ++ ext) q = lookupEnt ext q := by
  rw [lookupEnt_append, h]

theorem lookupEnt_append_none_left {l ext : List (Path × Node)} {q : Path}
    (h : lookupEnt (l ++ ext) q = none) : lookupEnt l q = none := by
  rw [lookupEnt_append] at h
  cases hl : lookupEnt l q with
  | none => rfl
  | some n => rw [hl] at h; cases h

theorem isPre_append_cancel (p a b : Path) :
    isPre (p ++ a) (p ++ b) = isPre a b := by
  induction p with
  | nil => rfl
  | cons x xs ih => simp [isPre, ih]

theorem isPre_take (p : Path) (k : Nat) : isPre (p.take k) p = true := by
  rw [isPre_iff]
  exact ⟨p.drop k, (List.take_append_drop k p).symm⟩

theorem take_of_isPre {q p : Path} (h : isPre q p = true) : p.take q.length = q := by
  obtain ⟨r, hr⟩ := (isPre_iff q p).mp h
  rw [hr, List.take_left]

theorem isPre_take_of_isPre {src q : Path} {i : Nat}
    (h : isPre src q = true) (hi : src.length ≤ i) :
    isPre src (q.take i) = true := by
  obtain ⟨r, hr⟩ := (isPre_iff src q).mp h
  subst hr
  rw [isPre_iff]
  refine ⟨r.take (i - src.length), ?_⟩
  rw [List.take_append_eq_append_take, List.take_of_length_le hi]

theorem mem_ascPres {q p : Path} :
    q ∈ ascPres p ↔ q ≠ [] ∧ isPre q p = true := by
  unfold ascPres
  rw [List.mem_map]
  constructor
  · rintro ⟨i, hi, rfl⟩
    rw [List.mem_range] at hi
    refine ⟨?_, isPre_take p (i + 1)⟩
    intro h0
    have h1 := congrArg List.length h0
    rw [List.length_take] at h1
    simp only [List.length_nil] at h1
    omega
  · rintro ⟨hne, hpre⟩
    refine ⟨q.length - 1, ?_, ?_⟩
    · rw [List.mem_range]
      have h1 := isPre_length hpre
      have h2 : 0 < q.length := List.length_pos.mpr hne
      omega
    · have h2 : 0 < q.length := List.length_pos.mpr hne
      have h3 : q.length - 1 + 1 = q.length := by omega
      rw [h3]
      exact take_of_isPre hpre

theorem keysNodup_append {l ext : List (Path × Node)}
    (h1 : keysNodup l) (h2 : (ext.map Prod.fst).Nodup)
    (h3 : ∀ e ∈ ext, lookupEnt l e.1 = none) : keysNodup (l ++ ext) := by
  unfold keysNodup at h1 ⊢
  rw [List.map_append, List.nodup_append]
  refine ⟨h1, h2, ?_⟩
  intro a ha hb
  rw [List.mem_map] at hb
  obtain ⟨e, he, hae⟩ := hb
  have h4 := h3 e he
  rw [hae] at h4
  exact not_mem_of_lookupEnt_none h4 ha

/-- `os.MkdirAll` only appends fresh directory entries (with the requested
mode) whose keys come from the requested prefix chain. -/
theorem mkdirChain_struct (mode : Nat) : ∀ (ps : List Path) (fs : FSys),
    ∃ ext : List (Path × Node),
      (mkdirChain mode ps fs).2.entries = fs.entries ++ ext ∧
      (∀ e ∈ ext, e.1 ∈ ps ∧ lookupEnt fs.entries e.1 = none ∧
        e.2 = Node.dir mode 0 0) ∧
      (ext.map Prod.fst).Nodup := by
  intro ps
  induction ps with
  | nil =>
    intro fs
    exact ⟨[], by simp [mkdirChain], by simp, by simp⟩
  | cons q rest ih =>
    intro fs
    unfold mkdirChain
    cases hq : lookupEnt fs.entries q with
    | none =>
      dsimp only
      obtain ⟨ext, h1, h2, h3⟩ := ih { fs with
        entries := insEnt fs.entries q (.dir mode 0 0),
        trace := fs.trace ++ [.mkdirE q mode] }
      refine ⟨(q, .dir mode 0 0) :: ext, ?_, ?_, ?_⟩
      · rw [h1]
        show insEnt fs.entries q (.dir mode 0 0) ++ ext = _
        rw [insEnt, List.append_assoc]
        rfl
      · intro e he
        cases he with
        | head => exact ⟨List.mem_cons_self _ _, hq, rfl⟩
        | tail _ hmem =>
          obtain ⟨hm1, hm2, hm3⟩ := h2 e hmem
          refine ⟨List.mem_cons_of_mem _ hm1, ?_, hm3⟩
          have hm2b : lookupEnt (insEnt fs.entries q (.dir mode 0 0)) e.1 = none := hm2
          rw [lookupEnt_insEnt] at hm2b
          cases hl : lookupEnt fs.entries e.1 with
          | none => rfl
          | some n => rw [hl] at hm2b; cases hm2b
      · rw [List.map_cons, List.nodup_cons]
        refine ⟨?_, h3⟩
        intro hmem
        rw [List.mem_map] at hmem
        obtain ⟨e, he, hqe⟩ := hmem
        have h5 : lookupEnt (insEnt fs.entries q (.dir mode 0 0)) e.1 = none :=
          (h2 e he).2.1
        rw [hqe, lookupEnt_insEnt, hq] at h5
        simp at h5
    | some n =>
      cases n with
      | dir m u g =>
        dsimp only
        obtain ⟨ext, h1, h2, h3⟩ := ih fs
        exact ⟨ext, h1,
          fun e he => ⟨List.mem_cons_of_mem _ (h2 e he).1, (h2 e he).2⟩, h3⟩
      | file c m a mt u g => exact ⟨[], by simp, by simp, by simp⟩
      | symlink t => exact ⟨[], by simp, by simp, by simp⟩

/-- On success every requested prefix is a directory afterwards, and the
ones that were missing were created with the requested mode. -/
theorem mkdirChain_ok_dir (mode : Nat) : ∀ (ps : List Path) (fs : FSys),
    (mkdirChain mode ps fs).1 = .ok () →
    ∀ q ∈ ps,
      (∃ m2 u2 g2,
        lookupEnt (mkdirChain mode ps fs).2.entries q = some (.dir m2 u2 g2)) ∧
      (lookupEnt fs.entries q = none →
        lookupEnt (mkdirChain mode ps fs).2.entries q = some (.dir mode 0 0)) := by
  intro ps
  induction ps with
  | nil => intro fs _ q hq; cases hq
  | cons p rest ih =>
    intro fs hok q hq
    cases hl : lookupEnt fs.entries p with
    | some n =>
      cases n with
      | dir m u g =>
        have heq : mkdirChain mode (p :: rest) fs = mkdirChain mode rest fs := by
          conv_lhs => unfold mkdirChain
          rw [hl]
        rw [heq] at hok ⊢
        cases hq with
        | head =>
          obtain ⟨ext, h1, _, _⟩ := mkdirChain_struct mode rest fs
          refine ⟨⟨m, u, g, by rw [h1]; exact lookupEnt_append_some ext hl⟩, ?_⟩
          intro hnone
          rw [hnone] at hl
          cases hl
        | tail _ hmem => exact ih fs hok q hmem
      | file c m a mt u g =>
        have heq : (mkdirChain mode (p :: rest) fs).1 = .error .notDir := by
          conv_lhs => unfold mkdirChain
          rw [hl]
        rw [heq] at hok
        cases hok
      | symlink t =>
        have heq : (mkdirChain mode (p :: rest) fs).1 = .error .notDir := by
          conv_lhs => unfold mkdirChain
          rw [hl]
        rw [heq] at hok
        cases hok
    | none =>
      have heq : mkdirChain mode (p :: rest) fs = mkdirChain mode rest
          { fs with entries := insEnt fs.entries p (.dir mode 0 0),
                    trace := fs.trace ++ [.mkdirE p mode] } := by
        conv_lhs => unfold mkdirChain
        rw [hl]
      rw [heq] at hok ⊢
      have hplook : lookupEnt (insEnt fs.entries p (.dir mode 0 0)) p =
          some (.dir mode 0 0) := by
        rw [lookupEnt_insEnt, hl]
        simp
      by_cases hqp : q = p
      · subst hqp
        obtain ⟨ext, h1, _, _⟩ := mkdirChain_struct mode rest
          { fs with entries := insEnt fs.entries q (.dir mode 0 0),
                    trace := fs.trace ++ [.mkdirE q mode] }
        have h2 : lookupEnt (mkdirChain mode rest
            { fs with entries := insEnt fs.entries q (.dir mode 0 0),
                      trace := fs.trace ++ [.mkdirE q mode] }).2.entries q =
            some (.dir mode 0 0) := by
          rw [h1]
          exact lookupEnt_append_some ext hplook
        exact ⟨⟨mode, 0, 0, h2⟩, fun _ => h2⟩
      · cases hq with
        | head => exact absurd rfl hqp
        | tail _ hmem =>
          have hres := ih _ hok q hmem
          refine ⟨hres.1, ?_⟩
          intro hnone
          refine hres.2 ?_
          show lookupEnt (insEnt fs.entries p (.dir mode 0 0)) q = none
          rw [lookupEnt_insEnt, hnone]
          simp only []
          rw [if_neg (fun h => hqp h.symm)]

/-! ### The copy never removes entries: domain monotonicity -/

theorem lookupEnt_setEnt_mono {l : List (Path × Node)} {q : Path} {n : Node}
    (p : Path) (m : Node) (h : lookupEnt l q = some n) :
    ∃ n2, lookupEnt (setEnt l p m) q = some n2 := by
  rw [lookupEnt_setEnt]
  by_cases hq : q = p
  · subst hq
    rw [if_pos rfl, h]
    exact ⟨m, rfl⟩
  · rw [if_neg hq]
    exact ⟨n, h⟩

theorem lookupEnt_insEnt_mono {l : List (Path × Node)} {q : Path} {n : Node}
    (p : Path) (m : Node) (h : lookupEnt l q = some n) :
    lookupEnt (insEnt l p m) q = some n := by
  rw [lookupEnt_insEnt, h]

theorem osCreate_entries_mono {fs : FSys} {q : Path} {n : Node} (p : Path)
    (h : lookupEnt fs.entries q = some n) :
    ∃ n2, lookupEnt (osCreate fs p).2.entries q = some n2 := by
  unfold osCreate
  cases hr : resolvePath fs.entries linkDepth p with
  | error e => exact ⟨n, h⟩
  | ok qd =>
    dsimp only
    cases hl : lookupEnt fs.entries qd with
    | none =>
      dsimp only
      by_cases hp : parentOk fs.entries qd
      · rw [if_pos hp]
        exact ⟨n, lookupEnt_insEnt_mono _ _ h⟩
      · rw [if_neg hp]
        exact ⟨n, h⟩
    | some m =>
      cases m with
      | dir _ _ _ => exact ⟨n, h⟩
      | symlink _ => exact ⟨n, h⟩
      | file c mo a mt u g => exact lookupEnt_setEnt_mono _ _ h

theorem osWriteAll_entries_mono {fs : FSys} {q : Path} {n : Node} (src dest : Path)
    (h : lookupEnt fs.entries q = some n) :
    ∃ n2, lookupEnt (osWriteAll fs src dest).2.entries q = some n2 := by
  unfold osWriteAll
  cases hr : resolvePath fs.entries linkDepth src with
  | error e => exact ⟨n, h⟩
  | ok qs =>
    dsimp only
    cases hl : lookupEnt fs.entries qs with
    | none => exact ⟨n, h⟩
    | some m =>
      cases m with
      | dir _ _ _ => exact ⟨n, h⟩
      | symlink _ => exact ⟨n, h⟩
      | file c mo a mt u g =>
        dsimp only
        cases hr2 : resolvePath fs.entries linkDepth dest with
        | error e => exact ⟨n, h⟩
        | ok qd =>
          dsimp only
          cases hl2 : lookupEnt fs.entries qd with
          | none => exact ⟨n, h⟩
          | some m2 =>
            cases m2 with
            | dir _ _ _ => exact ⟨n, h⟩
            | symlink _ => exact ⟨n, h⟩
            | file c2 mo2 a2 mt2 u2 g2 => exact lookupEnt_setEnt_mono _ _ h

theorem chmodOp_entries_mono {fs : FSys} {q : Path} {n : Node} (mode : Nat) (p : Path)
    (h : lookupEnt fs.entries q = some n) :
    ∃ n2, lookupEnt (chmodOp mode fs p).2.entries q = some n2 := by
  unfold chmodOp
  cases hr : resolvePath fs.entries linkDepth p with
  | error e => exact ⟨n, h⟩
  | ok qd =>
    dsimp only
    cases hl : lookupEnt fs.entries qd with
    | none => exact ⟨n, h⟩
    | some m =>
      cases m with
      | dir _ _ _ => exact lookupEnt_setEnt_mono _ _ h
      | symlink _ => exact ⟨n, h⟩
      | file c mo a mt u g => exact lookupEnt_setEnt_mono _ _ h

theorem chtimesOp_entries_mono {fs : FSys} {q : Path} {n : Node} (p : Path) (a mt : Nat)
    (h : lookupEnt fs.entries q = some n) :
    ∃ n2, lookupEnt (chtimesOp fs p a mt).2.entries q = some n2 := by
  unfold chtimesOp
  cases hr : resolvePath fs.entries linkDepth p with
  | error e => exact ⟨n, h⟩
  | ok qd =>
    dsimp only
    cases hl : lookupEnt fs.entries qd with
    | none => exact ⟨n, h⟩
    | some m =>
      cases m with
      | dir _ _ _ => exact ⟨n, h⟩
      | symlink _ => exact ⟨n, h⟩
      | file c mo a2 mt2 u g => exact lookupEnt_setEnt_mono _ _ h

theorem cpSymlink_entries_mono {fs : FSys} {q : Path} {n : Node} (src dest : Path)
    (h : lookupEnt fs.entries q = some n) :
    ∃ n2, lookupEnt (cpSymlink fs src dest).2.entries q = some n2 := by
  unfold cpSymlink
  cases hr : osReadlink fs src with
  | error e => exact ⟨n, h⟩
  | ok t =>
    dsimp only
    unfold osSymlink
    cases hl : lookupEnt fs.entries dest with
    | some m => exact ⟨n, h⟩
    | none =>
      dsimp only
      by_cases hp : parentOk fs.entries dest
      · rw [if_pos hp]
        exact ⟨n, lookupEnt_insEnt_mono _ _ h⟩
      · rw [if_neg hp]
        exact ⟨n, h⟩

theorem mkdirAll_entries_mono {fs : FSys} {q : Path} {n : Node} (p : Path) (mode : Nat)
    (h : lookupEnt fs.entries q = some n) :
    ∃ n2, lookupEnt (mkdirAll fs p mode).2.entries q = some n2 := by
  unfold mkdirAll
  by_cases hp : p = []
  · rw [if_pos hp]
    exact ⟨n, h⟩
  · rw [if_neg hp]
    obtain ⟨ext, h1, _, _⟩ := mkdirChain_struct mode (ascPres p) fs
    rw [h1]
    exact ⟨n, lookupEnt_append_some ext h⟩

/-- No path that exists before a (partial or complete) copy disappears:
the recursion only creates or overwrites entries, it never removes one. -/
theorem cpRun_entries_mono :
    ∀ (fuel : Nat) (fs : FSys) (task : CpTask) (q : Path) (n : Node),
    lookupEnt fs.entries q = some n →
    ∃ n2, lookupEnt (cpRun fuel fs task).2.entries q = some n2 := by
  intro fuel
  induction fuel with
  | zero => intro fs task q n h; exact ⟨n, h⟩
  | succ fuel ih =>
    intro fs task q n h
    match task with
    | .many source dest args [] => exact ⟨n, h⟩
    | .many source dest args (name :: rest) =>
      unfold cpRun
      dsimp only
      rcases hc : cpRun fuel fs (.one (source ++ [name]) (dest ++ [name]) args)
        with ⟨rc, fsc⟩
      have ihc := ih fs (.one (source ++ [name]) (dest ++ [name]) args) q n h
      rw [hc] at ihc
      obtain ⟨n1, hn1⟩ := ihc
      cases rc with
      | error e => exact ⟨n1, hn1⟩
      | ok u => exact ih fsc (.many source dest args rest) q n1 hn1
    | .one source dest args =>
      unfold cpRun
      cases hst : statNode fs.entries source with
      | error e => exact ⟨n, h⟩
      | ok info =>
        dsimp only
        cases hdir : info.isDir with
        | false =>
          simp only [hdir, Bool.false_eq_true, if_false]
          cases hls : lookupEnt fs.entries source with
          | none => exact ⟨n, h⟩
          | some si =>
            dsimp only
            cases hpl : (args.PreserveLinks && !si.isRegular) with
            | true =>
              simp only [hpl, if_true]
              exact cpSymlink_entries_mono source dest h
            | false =>
              simp only [hpl, Bool.false_eq_true, if_false]
              rcases hov : osOpen fs source with ⟨ro, fs1⟩
              have hfs1 : fs1.entries = fs.entries := by
                have h3 := osOpen_entries fs source
                rw [hov] at h3
                exact h3
              have h1 : lookupEnt fs1.entries q = some n := by rw [hfs1]; exact h
              cases ro with
              | error e => exact ⟨n, h1⟩
              | ok u =>
                dsimp only
                rcases hcr : osCreate fs1 dest with ⟨rc, fs2⟩
                have ih2 := osCreate_entries_mono dest h1
                rw [hcr] at ih2
                obtain ⟨n2, h2⟩ := ih2
                cases rc with
                | error e => exact ⟨n2, by simp [osClose]; exact h2⟩
                | ok u2 =>
                  dsimp only
                  rcases hwr : osWriteAll fs2 source dest with ⟨rw3, fs3⟩
                  have ih3 := osWriteAll_entries_mono source dest h2
                  rw [hwr] at ih3
                  obtain ⟨n3, h3⟩ := ih3
                  cases rw3 with
                  | error e => exact ⟨n3, by simp [osClose]; exact h3⟩
                  | ok u3 =>
                    dsimp only
                    rcases hcm : chmodOp si.modeOf fs3 dest with ⟨rc4, fs4⟩
                    have ih4 := chmodOp_entries_mono si.modeOf dest h3
                    rw [hcm] at ih4
                    obtain ⟨n4, h4⟩ := ih4
                    cases rc4 with
                    | error e => exact ⟨n4, by simp [osClose]; exact h4⟩
                    | ok u4 =>
                      dsimp only
                      rcases hct : (if args.PreserveTimestamps then
                          chtimesOp fs4 dest si.mtimeOf si.mtimeOf
                        else (.ok (), fs4)) with ⟨rc5, fs5⟩
                      have ih5 : ∃ n5, lookupEnt fs5.entries q = some n5 := by
                        cases hpt : args.PreserveTimestamps with
                        | true =>
                          rw [hpt] at hct
                          simp only [if_true] at hct
                          have h6 := chtimesOp_entries_mono dest si.mtimeOf si.mtimeOf h4
                          rw [hct] at h6
                          exact h6
                        | false =>
                          rw [hpt] at hct
                          simp only [Bool.false_eq_true, if_false] at hct
                          cases hct
                          exact ⟨n4, h4⟩
                      obtain ⟨n5, h5⟩ := ih5
                      cases rc5 with
                      | error e => exact ⟨n5, by simp [osClose]; exact h5⟩
                      | ok u5 => exact ⟨n5, by simp [osSync, osClose]; exact h5⟩
        | true =>
          cases hrec : args.Recursive with
          | false =>
            simp only [hdir, hrec, if_true, Bool.not_false, if_true]
            exact ⟨n, h⟩
          | true =>
            simp only [hdir, hrec, if_true, Bool.not_true, Bool.false_eq_true, if_false]
            rcases hov : osOpen fs dest with ⟨ro, fs1⟩
            have hfs1 : fs1.entries = fs.entries := by
              have h3 := osOpen_entries fs dest
              rw [hov] at h3
              exact h3
            have h1 : lookupEnt fs1.entries q = some n := by rw [hfs1]; exact h
            cases ro with
            | ok u => exact ⟨n, h1⟩
            | error e =>
              cases e with
              | notExist =>
                dsimp only
                rcases hmk : mkdirAll fs1 dest info.modeOf with ⟨rm, fs2⟩
                have ih2 := mkdirAll_entries_mono dest info.modeOf h1
                rw [hmk] at ih2
                obtain ⟨n2, h2⟩ := ih2
                cases rm with
                | error e2 => exact ⟨n2, h2⟩
                | ok u2 =>
                  dsimp only
                  cases hrd : readDir fs2 source with
                  | error e3 => exact ⟨n2, h2⟩
                  | ok files => exact ih fs2 (.many source dest args files) q n2 h2
              | notDir => exact ⟨n, h1⟩
              | tooManyLinks => exact ⟨n, h1⟩
              | isDirErr => exact ⟨n, h1⟩
              | existsErr => exact ⟨n, h1⟩
              | invalidArgument => exact ⟨n, h1⟩
              | srcIsDirectory => exact ⟨n, h1⟩
              | destinationExists => exact ⟨n, h1⟩
              | fuelOut => exact ⟨n, h1⟩

/-! ### Structural identity of a recursive copy: the relation and the
side conditions -/

/-- The node the copy is specified to leave at the destination, compared
with the source node: a regular file keeps content and mode, a directory
keeps its mode (`MkdirAll(dest, sourceInfo.Mode())`). -/
def copiesNode : Node → Node → Prop
  | .file c m _ _ _ _, .file c2 m2 _ _ _ _ => c2 = c ∧ m2 = m
  | .dir m _ _, .dir m2 _ _ => m2 = m
  | .symlink t, .symlink t2 => t2 = t
  | _, _ => False

/-- Lifted to lookup results: present on one side iff on the other. -/
def copiesOpt : Option Node → Option Node → Prop
  | some n, some n2 => copiesNode n n2
  | none, none => True
  | _, _ => False

/-- The claim's "tree with no symbolic links": no entry at or under `src`
is a symbolic link. -/
def linkFreeUnder (l : List (Path × Node)) (src : Path) : Prop :=
  ∀ e ∈ l, isPre src e.1 = true → e.2.isLink = false

/-- `q` is present as a directory. -/
def isDirAt (l : List (Path × Node)) (q : Path) : Bool :=
  match lookupEnt l q with
  | some (.dir _ _ _) => true
  | _ => false

/-- Every entry at or under `src` has all its ancestors from `src`
downward present as directories (what being a directory tree means for
the flat entry list). -/
def treeParentsDirs (l : List (Path × Node)) (src : Path) : Prop :=
  ∀ e ∈ l, isPre src e.1 = true →
    ∀ i ∈ List.range e.1.length, src.length ≤ i → isDirAt l (e.1.take i) = true

/-- Nothing exists at or under `dest` (a fresh destination). -/
def cleanUnder (l : List (Path × Node)) (dest : Path) : Prop :=
  ∀ e ∈ l, isPre dest e.1 = false

instance (l : List (Path × Node)) (src : Path) : Decidable (linkFreeUnder l src) := by
  unfold linkFreeUnder
  infer_instance

instance (l : List (Path × Node)) (src : Path) : Decidable (treeParentsDirs l src) := by
  unfold treeParentsDirs
  infer_instance

instance (l : List (Path × Node)) (dest : Path) : Decidable (cleanUnder l dest) := by
  unfold cleanUnder
  infer_instance

theorem cleanUnder_lookup_none {l : List (Path × Node)} {dest : Path}
    (h : cleanUnder l dest) : lookupEnt l dest = none := by
  cases hl : lookupEnt l dest with
  | none => rfl
  | some n =>
    have h2 := h (dest, n) (lookupEnt_some_mem hl)
    rw [isPre_refl] at h2
    cases h2

theorem cleanUnder_lookup_none_below {l : List (Path × Node)} {dest : Path}
    (h : cleanUnder l dest) (q : Path) (hq : isPre dest q = true) :
    lookupEnt l q = none := by
  cases hl : lookupEnt l q with
  | none => rfl
  | some n =>
    have h2 := h (q, n) (lookupEnt_some_mem hl)
    rw [hq] at h2
    cases h2

theorem isPre_singleton_ext_inj {dest q : Path} {a b : String}
    (h1 : isPre (dest ++ [a]) q = true) (h2 : isPre (dest ++ [b]) q = true) :
    a = b := by
  have e1 := take_of_isPre h1
  have e2 := take_of_isPre h2
  have l1 : (dest ++ [a] : Path).length = dest.length + 1 := by simp
  have l2 : (dest ++ [b] : Path).length = dest.length + 1 := by simp
  rw [l1] at e1
  rw [l2] at e2
  have e3 : dest ++ [a] = dest ++ [b] := e1.symm.trans e2
  have e4 := List.append_cancel_left e3
  injection e4

/-- A path at or under one fresh child of `dest` is incomparable with the
subtree of a different child name. -/
theorem child_name_determined {dest q : Path} {a b : String}
    (hab : a ≠ b) (h1 : isPre (dest ++ [a]) q = true) :
    isPre (dest ++ [b]) q = false ∧ isPre q (dest ++ [b]) = false := by
  constructor
  · cases h : isPre (dest ++ [b]) q with
    | false => rfl
    | true => exact absurd (isPre_singleton_ext_inj h1 h) hab
  · cases h : isPre q (dest ++ [b]) with
    | false => rfl
    | true =>
      exfalso
      have h2 : isPre (dest ++ [a]) (dest ++ [b]) = true := isPre_trans h1 h
      rw [isPre_append_cancel] at h2
      have h3 : ([a] : Path) = [b] := by
        have h4 := isPre_length h2
        simp only [List.length_singleton] at h4
        have h5 := take_of_isPre h2
        simpa using h5.symm
      injection h3 with h6
      exact hab h6

/-- `mkdirAll` on a non-empty path only appends fresh directories with
keys that are non-empty prefixes of the path. -/
theorem mkdirAll_struct {fs : FSys} {p : Path} (mode : Nat) (hp : p ≠ []) :
    ∃ ext : List (Path × Node),
      (mkdirAll fs p mode).2.entries = fs.entries ++ ext ∧
      (∀ e ∈ ext, (e.1 ≠ [] ∧ isPre e.1 p = true) ∧
        lookupEnt fs.entries e.1 = none ∧ e.2 = Node.dir mode 0 0) ∧
      (ext.map Prod.fst).Nodup := by
  obtain ⟨ext, h1, h2, h3⟩ := mkdirChain_struct mode (ascPres p) fs
  have heq : mkdirAll fs p mode = mkdirChain mode (ascPres p) fs := by
    unfold mkdirAll
    rw [if_neg hp]
  rw [heq]
  exact ⟨ext, h1, fun e he =>
    ⟨mem_ascPres.mp (h2 e he).1, (h2 e he).2⟩, h3⟩

/-- On success `mkdirAll` leaves a directory with the requested mode at a
previously missing target. -/
theorem mkdirAll_ok_dir {fs : FSys} {p : Path} (mode : Nat) (hp : p ≠ [])
    (hnone : lookupEnt fs.entries p = none)
    (hok : (mkdirAll fs p mode).1 = .ok ()) :
    lookupEnt (mkdirAll fs p mode).2.entries p = some (.dir mode 0 0) := by
  have heq : mkdirAll fs p mode = mkdirChain mode (ascPres p) fs := by
    unfold mkdirAll
    rw [if_neg hp]
  rw [heq] at hok ⊢
  have hmem : p ∈ ascPres p := mem_ascPres.mpr ⟨hp, isPre_refl p⟩
  exact (mkdirChain_ok_dir mode (ascPres p) fs hok p hmem).2 hnone

theorem mkdirAll_empty (fs : FSys) (mode : Nat) :
    mkdirAll fs [] mode = (.error .notExist, fs) := by
  unfold mkdirAll
  rw [if_pos rfl]

/-- Restricting the no-links condition to a subtree. -/
theorem linkFreeUnder_mono {l : List (Path × Node)} {src src2 : Path}
    (hpre : isPre src src2 = true) (h : linkFreeUnder l src) :
    linkFreeUnder l src2 :=
  fun e he hp => h e he (isPre_trans hpre hp)

/-- Restricting the parents-are-directories condition to a subtree. -/
theorem treeParentsDirs_mono {l : List (Path × Node)} {src src2 : Path}
    (hpre : isPre src src2 = true) (h : treeParentsDirs l src) :
    treeParentsDirs l src2 := by
  intro e he hp i hi hle
  exact h e he (isPre_trans hpre hp) i hi
    (le_trans (isPre_length hpre) hle)

/-- A path in the source subtree is incomparable with the subtree of any
child of a disjoint destination. -/
theorem srcSub_incomp_destChild {src dest : Path} (name : String) {q : Path}
    (hd1 : isPre src dest = false) (hd2 : isPre dest src = false)
    (hp : isPre src q = true) :
    isPre (dest ++ [name]) q = false ∧ isPre q (dest ++ [name]) = false := by
  have key : isPre src (dest ++ [name]) = false := by
    cases h9 : isPre src (dest ++ [name]) with
    | false => rfl
    | true =>
      exfalso
      rcases isPre_of_append_singleton h9 with h10 | h10
      · rw [h10] at hd1; cases hd1
      · have h11 : isPre dest src = true := by
          rw [h10]; exact isPre_append_right _ _
        rw [h11] at hd2; cases hd2
  constructor
  · cases hq9 : isPre (dest ++ [name]) q with
    | false => rfl
    | true =>
      exfalso
      rcases isPre_comparable hp hq9 with h9 | h9
      · rw [h9] at key; cases key
      · have h10 := isPre_drop_singleton h9
        rw [h10] at hd2; cases hd2
  · cases hq9 : isPre q (dest ++ [name]) with
    | false => rfl
    | true =>
      exfalso
      have h9 := isPre_trans hp hq9
      rw [h9] at key; cases key

/-- One unfolding step of the copy recursion (empty child list). -/
theorem cpRun_many_nil (fuel : Nat) (fs : FSys) (src dest : Path) (args : CpArgs) :
    cpRun (fuel + 1) fs (.many src dest args []) = (.ok (), fs) := rfl

/-- One unfolding step of the copy recursion (child loop). -/
theorem cpRun_many_cons (fuel : Nat) (fs : FSys) (src dest : Path) (args : CpArgs)
    (name : String) (rest : List String) :
    cpRun (fuel + 1) fs (.many src dest args (name :: rest)) =
      match cpRun fuel fs (.one (src ++ [name]) (dest ++ [name]) args) with
      | (.error e, fs1) => (.error e, fs1)
      | (.ok _, fs1) => cpRun fuel fs1 (.many src dest args rest) := rfl

/-- One unfolding step of the copy recursion (a `CpWithArgs` call). -/
theorem cpRun_one_eq (fuel : Nat) (fs : FSys) (source dest : Path) (args : CpArgs) :
    cpRun (fuel + 1) fs (.one source dest args) =
      match statNode fs.entries source with
      | .error e => (.error e, fs)
      | .ok sourceInfo =>
        if sourceInfo.isDir then
          if !args.Recursive then (.error .srcIsDirectory, fs)
          else
            match osOpen fs dest with
            | (.error .notExist, fs1) =>
              match mkdirAll fs1 dest sourceInfo.modeOf with
              | (.error e, fs2) => (.error e, fs2)
              | (.ok _, fs2) =>
                match readDir fs2 source with
                | .error e => (.error e, fs2)
                | .ok files => cpRun fuel fs2 (.many source dest args files)
            | (_, fs1) => (.error .destinationExists, fs1)
        else
          match lookupEnt fs.entries source with
          | none => (.error (lookupFailErr fs.entries source), fs)
          | some si =>
            if args.PreserveLinks && !si.isRegular then cpSymlink fs source dest
            else
              match osOpen fs source with
              | (.error e, fs1) => (.error e, fs1)
              | (.ok _, fs1) =>
                match osCreate fs1 dest with
                | (.error e, fs2) => (.error e, osClose fs2 source)
                | (.ok _, fs2) =>
                  match osWriteAll fs2 source dest with
                  | (.error e, fs3) => (.error e, osClose (osClose fs3 dest) source)
                  | (.ok _, fs3) =>
                    match chmodOp si.modeOf fs3 dest with
                    | (.error e, fs4) => (.error e, osClose (osClose fs4 dest) source)
                    | (.ok _, fs4) =>
                      match
                        (if args.PreserveTimestamps then
                          chtimesOp fs4 dest si.mtimeOf si.mtimeOf
                        else (.ok (), fs4)) with
                      | (.error e, fs5) => (.error e, osClose (osClose fs5 dest) source)
                      | (.ok _, fs5) =>
                        match osSync fs5 dest with
                        | (r, fs6) => (r, osClose (osClose fs6 dest) source) := rfl

/-- Final-component resolution of a missing path is the identity. -/
theorem resolveLD_none {l : List (Path × Node)} {p : Path}
    (h : lookupEnt l p = none) : resolvePath l linkDepth p = .ok p :=
  resolvePath_none_head 39 h

/-- Postcondition of one successful recursive copy call on a fresh,
disjoint destination: (1) the destination subtree mirrors the source
subtree relative path by relative path, content, and mode; (2) paths
incomparable with `dest` are untouched; (3) nothing outside the `dest`
subtree is lost or changed; (4) key uniqueness is preserved; (5) every
entry afterwards is an old entry, inside the `dest` subtree, or a
freshly created ancestor of `dest`. -/
def copyPost (fs : FSys) (src dest : Path) (out : FSys) : Prop :=
  (∀ rel : Path, copiesOpt (lookupEnt fs.entries (src ++ rel))
      (lookupEnt out.entries (dest ++ rel))) ∧
  (∀ q : Path, isPre dest q = false → isPre q dest = false →
      lookupEnt out.entries q = lookupEnt fs.entries q) ∧
  (∀ (q : Path) (n : Node), isPre dest q = false →
      lookupEnt fs.entries q = some n → lookupEnt out.entries q = some n) ∧
  keysNodup out.entries ∧
  (∀ (q : Path) (n2 : Node), lookupEnt out.entries q = some n2 →
      lookupEnt fs.entries q = some n2 ∨ isPre dest q = true ∨
        (isPre q dest = true ∧ lookupEnt fs.entries q = none))

/-- The analogue for the loop over a directory's child names. -/
def manyPost (fs : FSys) (src dest : Path) (names : List String)
    (out : FSys) : Prop :=
  (∀ n ∈ names, ∀ rel : Path,
      copiesOpt (lookupEnt fs.entries (src ++ [n] ++ rel))
        (lookupEnt out.entries (dest ++ [n] ++ rel))) ∧
  (∀ q : Path, (∀ n ∈ names, isPre (dest ++ [n]) q = false ∧
        isPre q (dest ++ [n]) = false) →
      lookupEnt out.entries q = lookupEnt fs.entries q) ∧
  (∀ (q : Path) (nd : Node), (∀ n ∈ names, isPre (dest ++ [n]) q = false) →
      lookupEnt fs.entries q = some nd → lookupEnt out.entries q = some nd) ∧
  keysNodup out.entries ∧
  (∀ (q : Path) (n2 : Node), lookupEnt out.entries q = some n2 →
      lookupEnt fs.entries q = some n2 ∨
        ∃ n ∈ names, (isPre (dest ++ [n]) q = true ∨
          (isPre q (dest ++ [n]) = true ∧ lookupEnt fs.entries q = none)))

/-- The main induction: a successful recursive copy of a link-free
well-formed source tree to a fresh disjoint destination reproduces the
tree, and the loop over listed children does so child by child. -/
theorem cpRun_copy_struct : ∀ fuel : Nat,
    (∀ (fs : FSys) (src dest : Path) (args : CpArgs),
      args.Recursive = true →
      keysNodup fs.entries →
      isPre src dest = false →
      isPre dest src = false →
      linkFreeUnder fs.entries src →
      treeParentsDirs fs.entries src →
      cleanUnder fs.entries dest →
      (cpRun fuel fs (.one src dest args)).1 = .ok () →
      copyPost fs src dest (cpRun fuel fs (.one src dest args)).2) ∧
    (∀ (fs : FSys) (src dest : Path) (args : CpArgs) (names : List String),
      args.Recursive = true →
      keysNodup fs.entries →
      isPre src dest = false →
      isPre dest src = false →
      names.Nodup →
      linkFreeUnder fs.entries src →
      treeParentsDirs fs.entries src →
      (∀ e ∈ fs.entries, ∀ n ∈ names, isPre (dest ++ [n]) e.1 = false) →
      (cpRun fuel fs (.many src dest args names)).1 = .ok () →
      manyPost fs src dest names (cpRun fuel fs (.many src dest args names)).2) := by
  intro fuel
  induction fuel with
  | zero =>
    constructor
    · intro fs src dest args _ _ _ _ _ _ _ hok
      simp [cpRun] at hok
    · intro fs src dest args names _ _ _ _ _ _ _ _ hok
      simp [cpRun] at hok
  | succ fuel ih =>
    constructor
    · -- the `.one` task
      intro fs src dest args hrec hnd hd1 hd2 hlf htp hcl hok
      cases hls : lookupEnt fs.entries src with
      | none =>
        have hstat : statNode fs.entries src =
            .error (lookupFailErr fs.entries src) := by
          simp [statNode, resolveLD_none hls, hls]
        rw [cpRun_one_eq, hstat] at hok
        cases hok
      | some srcNode =>
        cases srcNode with
        | symlink t =>
          exfalso
          have h2 := hlf _ (lookupEnt_some_mem hls) (isPre_refl src)
          simp [Node.isLink] at h2
        | file c m a mt u g =>
          -- the file branch: `cpWithArgs_file_fresh_eq` gives the state
          have hdn : lookupEnt fs.entries dest = none := cleanUnder_lookup_none hcl
          have hresd : resolvePath fs.entries linkDepth dest = .ok dest :=
            resolvePath_none_head 39 hdn
          cases hpar : parentOk fs.entries dest with
          | false =>
            have herr := cpWithArgs_file_noparent_err fuel fs src dest args
              c m a mt u g dest hls hresd hdn hpar
            have hok2 : (CpWithArgs (fuel + 1) fs src dest args).1 = .ok () := hok
            rw [herr] at hok2
            cases hok2
          | true =>
            have heq := cpWithArgs_file_fresh_eq fuel fs src dest args
              c m a mt u g dest hls hresd hdn hpar
            show copyPost fs src dest (CpWithArgs (fuel + 1) fs src dest args).2
            rw [heq]
            have hnode : ∃ a2 mt2 u2 g2,
                (if args.PreserveTimestamps then Node.file c m mt mt 0 0
                 else Node.file c m 0 0 0 0) = Node.file c m a2 mt2 u2 g2 := by
              cases args.PreserveTimestamps
              · exact ⟨0, 0, 0, 0, rfl⟩
              · exact ⟨mt, mt, 0, 0, rfl⟩
            obtain ⟨a2, mt2, u2, g2, hnode⟩ := hnode
            unfold copyPost
            dsimp only
            rw [hnode]
            refine ⟨?_, ?_, ?_, ?_, ?_⟩
            · intro rel
              cases rel with
              | nil =>
                rw [List.append_nil, List.append_nil, hls]
                simp only [lookupEnt_insEnt, hdn, if_pos rfl]
                show copiesNode (Node.file c m a mt u g) (Node.file c m a2 mt2 u2 g2)
                exact ⟨rfl, rfl⟩
              | cons nm rel2 =>
                have hsnone : lookupEnt fs.entries (src ++ nm :: rel2) = none := by
                  cases hl9 : lookupEnt fs.entries (src ++ nm :: rel2) with
                  | none => rfl
                  | some nd =>
                    exfalso
                    have hmem9 := lookupEnt_some_mem hl9
                    have hp9 : isPre src (src ++ nm :: rel2) = true :=
                      isPre_append_right _ _
                    have hi9 : src.length ∈ List.range (src ++ nm :: rel2).length := by
                      rw [List.mem_range]
                      simp
                    have h10 := htp _ hmem9 hp9 src.length hi9 (le_refl _)
                    rw [List.take_left] at h10
                    unfold isDirAt at h10
                    rw [hls] at h10
                    cases h10
                have hdnone : lookupEnt fs.entries (dest ++ nm :: rel2) = none :=
                  cleanUnder_lookup_none_below hcl _ (isPre_append_right _ _)
                have hne9 : dest ≠ dest ++ nm :: rel2 := by
                  intro h9
                  have h10 := congrArg List.length h9
                  simp at h10
                rw [hsnone]
                simp only [lookupEnt_insEnt, hdnone, if_neg hne9]
                exact trivial
            · intro q hq1 hq2
              have hne9 : dest ≠ q := by
                intro h9
                rw [← h9, isPre_refl] at hq1
                cases hq1
              simp only [lookupEnt_insEnt]
              cases hl9 : lookupEnt fs.entries q with
              | some nd => rfl
              | none => rw [if_neg hne9]
            · intro q n hq1 hsome
              simp only [lookupEnt_insEnt, hsome]
            · exact keysNodup_insEnt _ _ _ hnd hdn
            · intro q n2 hsome
              simp only [lookupEnt_insEnt] at hsome
              cases hl9 : lookupEnt fs.entries q with
              | some nd =>
                rw [hl9] at hsome
                left
                exact hsome
              | none =>
                rw [hl9] at hsome
                have hsome2 : (if dest = q then
                    some (Node.file c m a2 mt2 u2 g2) else none) = some n2 := hsome
                by_cases h9 : dest = q
                · right
                  left
                  rw [← h9]
                  exact isPre_refl dest
                · rw [if_neg h9] at hsome2
                  cases hsome2
        | dir m u g =>
          -- the directory branch
          have hstat : statNode fs.entries src = .ok (.dir m u g) := by
            simp [statNode, resolveLD_nonlink hls (by intro t he; cases he), hls]
          have hdn : lookupEnt fs.entries dest = none := cleanUnder_lookup_none hcl
          have hresd : resolvePath fs.entries linkDepth dest = .ok dest :=
            resolvePath_none_head 39 hdn
          have hopen : osOpen fs dest = (.error (lookupFailErr fs.entries dest), fs) := by
            simp [osOpen, hresd, hdn]
          have hfe : lookupFailErr fs.entries dest = .notDir ∨
              lookupFailErr fs.entries dest = .notExist := by
            unfold lookupFailErr
            by_cases hb : ((List.range dest.length).any fun i =>
                match lookupEnt fs.entries (dest.take i) with
                | some (.dir _ _ _) => false
                | some _ => true
                | none => false) = true
            · rw [if_pos hb]
              exact Or.inl rfl
            · rw [if_neg hb]
              exact Or.inr rfl
          rcases hfe with hfe | hfe
          · have hopen2 : osOpen fs dest = (.error .notDir, fs) := by
              rw [hopen, hfe]
            rw [cpRun_one_eq, hstat] at hok
            simp only [Node.isDir, if_true, hrec, Bool.not_true,
              Bool.false_eq_true, if_false] at hok
            rw [hopen2] at hok
            cases hok
          · have hopen2 : osOpen fs dest = (.error .notExist, fs) := by
              rw [hopen, hfe]
            rcases hmk : mkdirAll fs dest m with ⟨rm, fs2⟩
            cases rm with
            | error e2 =>
              rw [cpRun_one_eq, hstat] at hok
              simp only [Node.isDir, if_true, hrec, Bool.not_true,
                Bool.false_eq_true, if_false] at hok
              rw [hopen2] at hok
              dsimp only at hok
              rw [show (Node.dir m u g).modeOf = m from rfl, hmk] at hok
              cases hok
            | ok u2 =>
              cases u2
              have hdne : dest ≠ [] := by
                intro h9
                rw [h9, mkdirAll_empty] at hmk
                injection hmk with h10 h11
                cases h10
              have hmkok : (mkdirAll fs dest m).1 = .ok () := by
                rw [hmk]
              obtain ⟨ext, hent0, hextP, hextN⟩ := @mkdirAll_struct fs dest m hdne
              rw [hmk] at hent0
              have hent : fs2.entries = fs.entries ++ ext := hent0
              have hdestdir : lookupEnt fs2.entries dest = some (.dir m 0 0) := by
                have h9 := mkdirAll_ok_dir m hdne hdn hmkok
                rw [hmk] at h9
                exact h9
              have hsrc2 : lookupEnt fs2.entries src = some (.dir m u g) := by
                rw [hent]
                exact lookupEnt_append_some ext hls
              have hstat2 : statNode fs2.entries src = .ok (.dir m u g) := by
                simp [statNode, resolveLD_nonlink hsrc2 (by intro t he; cases he), hsrc2]
              have hrd : readDir fs2 src = .ok (childNames fs2.entries src) := by
                simp [readDir, hstat2]
              have hcn : childNames fs2.entries src = childNames fs.entries src := by
                rw [hent]
                apply childNames_append
                rintro e he ⟨hne, hdl⟩
                have hkey := key_eq_of_raw ⟨hne, hdl⟩
                have h5 : isPre src e.1 = true := by
                  rw [hkey]
                  exact isPre_append_right _ _
                have h6 : isPre e.1 dest = true := (hextP e he).1.2
                have h7 := isPre_trans h5 h6
                rw [h7] at hd1
                cases hd1
              have hrun : cpRun (fuel + 1) fs (.one src dest args) =
                  cpRun fuel fs2 (.many src dest args (childNames fs.entries src)) := by
                rw [cpRun_one_eq, hstat]
                simp only [Node.isDir, if_true, hrec, Bool.not_true,
                  Bool.false_eq_true, if_false]
                rw [hopen2]
                dsimp only
                rw [show (Node.dir m u g).modeOf = m from rfl, hmk]
                dsimp only
                rw [hrd]
                dsimp only
                rw [hcn]
              rw [hrun] at hok ⊢
              -- hypotheses of the loop invariant at fs2
              have hnd2 : keysNodup fs2.entries := by
                rw [hent]
                exact keysNodup_append hnd hextN (fun e he => (hextP e he).2.1)
              have hnodup : (childNames fs.entries src).Nodup := childNames_nodup src hnd
              have hextNoSrc : ∀ e ∈ ext, isPre src e.1 = false := by
                intro e he
                cases hq9 : isPre src e.1 with
                | false => rfl
                | true =>
                  exfalso
                  have h6 := (hextP e he).1.2
                  have h7 := isPre_trans hq9 h6
                  rw [h7] at hd1
                  cases hd1
              have hlf2 : linkFreeUnder fs2.entries src := by
                intro e he hp
                rw [hent] at he
                rcases List.mem_append.mp he with he | he
                · exact hlf e he hp
                · rw [hextNoSrc e he] at hp
                  cases hp
              have htp2 : treeParentsDirs fs2.entries src := by
                intro e he hp i hi hle
                rw [hent] at he
                rcases List.mem_append.mp he with he | he
                · have h8 := htp e he hp i hi hle
                  unfold isDirAt at h8 ⊢
                  cases hl8 : lookupEnt fs.entries (e.1.take i) with
                  | none =>
                    rw [hl8] at h8
                    cases h8
                  | some nd =>
                    rw [hl8] at h8
                    rw [hent, lookupEnt_append_some ext hl8]
                    exact h8
                · rw [hextNoSrc e he] at hp
                  cases hp
              have hch2 : ∀ e ∈ fs2.entries, ∀ n2 ∈ childNames fs.entries src,
                  isPre (dest ++ [n2]) e.1 = false := by
                intro e he n2 _
                rw [hent] at he
                rcases List.mem_append.mp he with he | he
                · cases hq9 : isPre (dest ++ [n2]) e.1 with
                  | false => rfl
                  | true =>
                    exfalso
                    have h9 := isPre_drop_singleton hq9
                    have h10 := hcl e he
                    rw [h9] at h10
                    cases h10
                · cases hq9 : isPre (dest ++ [n2]) e.1 with
                  | false => rfl
                  | true =>
                    exfalso
                    have h6 := (hextP e he).1.2
                    have h7 := isPre_length hq9
                    have h8 := isPre_length h6
                    simp only [List.length_append, List.length_singleton] at h7
                    omega
              have ihm := ih.2 fs2 src dest args (childNames fs.entries src)
                hrec hnd2 hd1 hd2 hnodup hlf2 htp2 hch2 hok
              obtain ⟨M1, M2, M3, M4, M5⟩ := ihm
              -- from the loop postcondition at fs2 back to fs
              have hnotbelow : ∀ n2 ∈ childNames fs.entries src,
                  isPre (dest ++ [n2]) dest = false := by
                intro n2 _
                cases hq9 : isPre (dest ++ [n2]) dest with
                | false => rfl
                | true =>
                  have h7 := isPre_length hq9
                  simp only [List.length_append, List.length_singleton] at h7
                  omega
              refine ⟨?_, ?_, ?_, M4, ?_⟩
              · -- the subtree copy
                intro rel
                cases rel with
                | nil =>
                  rw [List.append_nil, List.append_nil, hls,
                    M3 dest (.dir m 0 0) hnotbelow hdestdir]
                  show copiesNode (Node.dir m u g) (Node.dir m 0 0)
                  exact rfl
                | cons nm rel2 =>
                  have hpath : src ++ nm :: rel2 = src ++ [nm] ++ rel2 := by simp
                  have hpathd : dest ++ nm :: rel2 = dest ++ [nm] ++ rel2 := by simp
                  rw [hpath, hpathd]
                  by_cases hmem : nm ∈ childNames fs.entries src
                  · have hM1 := M1 nm hmem rel2
                    have hagree : lookupEnt fs2.entries (src ++ [nm] ++ rel2) =
                        lookupEnt fs.entries (src ++ [nm] ++ rel2) := by
                      rw [hent, lookupEnt_append]
                      cases hl9 : lookupEnt fs.entries (src ++ [nm] ++ rel2) with
                      | some _ => rfl
                      | none =>
                        cases hl10 : lookupEnt ext (src ++ [nm] ++ rel2) with
                        | none => rfl
                        | some nd =>
                          exfalso
                          have hm10 := lookupEnt_some_mem hl10
                          have h7 : isPre src (src ++ [nm] ++ rel2) = true := by
                            rw [List.append_assoc]
                            exact isPre_append_right _ _
                          rw [hextNoSrc _ hm10] at h7
                          cases h7
                    rw [← hagree]
                    exact hM1
                  · have hsnone : lookupEnt fs.entries (src ++ [nm] ++ rel2) = none := by
                      cases hl9 : lookupEnt fs.entries (src ++ [nm] ++ rel2) with
                      | none => rfl
                      | some nd =>
                        exfalso
                        apply hmem
                        rw [mem_childNames]
                        cases rel2 with
                        | nil =>
                          refine ⟨nd, ?_⟩
                          have h10 := lookupEnt_some_mem hl9
                          rw [List.append_nil] at h10
                          exact h10
                        | cons b rel3 =>
                          have hmem9 := lookupEnt_some_mem hl9
                          have hp9 : isPre src (src ++ [nm] ++ (b :: rel3)) = true := by
                            rw [List.append_assoc]
                            exact isPre_append_right _ _
                          have hi9 : src.length + 1 ∈
                              List.range (src ++ [nm] ++ (b :: rel3)).length := by
                            rw [List.mem_range]
                            simp only [List.length_append, List.length_singleton,
                              List.length_cons]
                            omega
                          have h10 := htp _ hmem9 hp9 (src.length + 1) hi9
                            (Nat.le_succ _)
                          have htake : (src ++ [nm] ++ (b :: rel3)).take
                              (src.length + 1) = src ++ [nm] := by
                            have h11 : (src ++ [nm] : Path).length = src.length + 1 := by
                              simp
                            rw [← h11, List.take_left]
                          rw [htake] at h10
                          unfold isDirAt at h10
                          cases hl11 : lookupEnt fs.entries (src ++ [nm]) with
                          | none =>
                            rw [hl11] at h10
                            cases h10
                          | some nd2 => exact ⟨nd2, lookupEnt_some_mem hl11⟩
                    have hcond : ∀ n2 ∈ childNames fs.entries src,
                        isPre (dest ++ [n2]) (dest ++ [nm] ++ rel2) = false ∧
                        isPre (dest ++ [nm] ++ rel2) (dest ++ [n2]) = false := by
                      intro n2 hn2
                      have hne : nm ≠ n2 := by
                        intro h9
                        rw [← h9] at hn2
                        exact hmem hn2
                      constructor
                      · cases hq9 : isPre (dest ++ [n2]) (dest ++ [nm] ++ rel2) with
                        | false => rfl
                        | true =>
                          exfalso
                          have h11 : isPre (dest ++ [nm]) (dest ++ [nm] ++ rel2) =
                              true := isPre_append_right _ _
                          have h12 := isPre_singleton_ext_inj hq9 h11
                          exact hne h12.symm
                      · cases hq9 : isPre (dest ++ [nm] ++ rel2) (dest ++ [n2]) with
                        | false => rfl
                        | true =>
                          exfalso
                          have h7 := isPre_length hq9
                          simp only [List.length_append, List.length_singleton] at h7
                          have hrel : rel2 = [] := by
                            rw [← List.length_eq_zero]
                            omega
                          subst hrel
                          rw [List.append_nil] at hq9
                          rw [isPre_append_cancel] at hq9
                          have h12 : nm = n2 := by
                            simpa [isPre] using hq9
                          exact hne h12
                    have hdnone : lookupEnt
                        (cpRun fuel fs2 (.many src dest args
                          (childNames fs.entries src))).2.entries
                        (dest ++ [nm] ++ rel2) = none := by
                      rw [M2 _ hcond, hent, lookupEnt_append]
                      have hfs_none : lookupEnt fs.entries (dest ++ [nm] ++ rel2) =
                          none := by
                        apply cleanUnder_lookup_none_below hcl
                        rw [List.append_assoc]
                        exact isPre_append_right _ _
                      rw [hfs_none]
                      cases hl10 : lookupEnt ext (dest ++ [nm] ++ rel2) with
                      | none => rfl
                      | some nd =>
                        exfalso
                        have h6 := (hextP _ (lookupEnt_some_mem hl10)).1.2
                        have h7 := isPre_length h6
                        simp only [List.length_append, List.length_singleton] at h7
                        omega
                    rw [hsnone, hdnone]
                    exact trivial
              · -- untouched outside the destination subtree
                intro q hq1 hq2
                have hcond : ∀ n2 ∈ childNames fs.entries src,
                    isPre (dest ++ [n2]) q = false ∧
                    isPre q (dest ++ [n2]) = false := by
                  intro n2 _
                  constructor
                  · cases hq9 : isPre (dest ++ [n2]) q with
                    | false => rfl
                    | true =>
                      exfalso
                      have h9 := isPre_drop_singleton hq9
                      rw [h9] at hq1
                      cases hq1
                  · cases hq9 : isPre q (dest ++ [n2]) with
                    | false => rfl
                    | true =>
                      exfalso
                      rcases isPre_of_append_singleton hq9 with h9 | h9
                      · rw [h9] at hq2
                        cases hq2
                      · have h10 : isPre dest q = true := by
                          rw [h9]
                          exact isPre_append_right _ _
                        rw [h10] at hq1
                        cases hq1
                rw [M2 q hcond, hent, lookupEnt_append]
                cases hl9 : lookupEnt fs.entries q with
                | some _ => rfl
                | none =>
                  cases hl10 : lookupEnt ext q with
                  | none => rfl
                  | some nd =>
                    exfalso
                    have h6 := (hextP _ (lookupEnt_some_mem hl10)).1.2
                    rw [h6] at hq2
                    cases hq2
              · -- previously existing entries outside `dest` survive
                intro q n hq1 hsome
                have hcond : ∀ n2 ∈ childNames fs.entries src,
                    isPre (dest ++ [n2]) q = false := by
                  intro n2 _
                  cases hq9 : isPre (dest ++ [n2]) q with
                  | false => rfl
                  | true =>
                    exfalso
                    have h9 := isPre_drop_singleton hq9
                    rw [h9] at hq1
                    cases hq1
                have h9 : lookupEnt fs2.entries q = some n := by
                  rw [hent]
                  exact lookupEnt_append_some ext hsome
                exact M3 q n hcond h9
              · -- provenance of every entry afterwards
                intro q n2 hsome
                rcases M5 q n2 hsome with h9 | ⟨nmm, hnm, h9⟩
                · rw [hent, lookupEnt_append] at h9
                  cases hl9 : lookupEnt fs.entries q with
                  | some nd =>
                    rw [hl9] at h9
                    left
                    exact h9
                  | none =>
                    rw [hl9] at h9
                    have h9b : lookupEnt ext q = some n2 := h9
                    right
                    right
                    exact ⟨(hextP _ (lookupEnt_some_mem h9b)).1.2, rfl⟩
                · rcases h9 with h9 | ⟨h9, h10⟩
                  · right
                    left
                    exact isPre_trans (isPre_append_right dest [nmm]) h9
                  · rcases isPre_of_append_singleton h9 with h11 | h11
                    · right
                      right
                      refine ⟨h11, ?_⟩
                      rw [hent] at h10
                      exact lookupEnt_append_none_left h10
                    · right
                      left
                      rw [h11]
                      exact isPre_append_right _ _
    · -- the `.many` task
      intro fs src dest args names hrec hnd hd1 hd2 hnames hlf htp hch hok
      cases names with
      | nil =>
        rw [cpRun_many_nil]
        refine ⟨?_, ?_, ?_, hnd, ?_⟩
        · intro n hn
          cases hn
        · intro q _
          rfl
        · intro q nd _ h
          exact h
        · intro q n2 h
          exact Or.inl h
      | cons name rest =>
        have hname_notin := (List.nodup_cons.mp hnames).1
        have hrestnodup := (List.nodup_cons.mp hnames).2
        rcases hc : cpRun fuel fs (.one (src ++ [name]) (dest ++ [name]) args)
          with ⟨rc, fs1⟩
        cases rc with
        | error e =>
          rw [cpRun_many_cons, hc] at hok
          cases hok
        | ok u =>
          cases u
          have heq : cpRun (fuel + 1) fs (.many src dest args (name :: rest)) =
              cpRun fuel fs1 (.many src dest args rest) := by
            rw [cpRun_many_cons, hc]
          rw [heq] at hok ⊢
          have hdc := disjoint_child name hd1 hd2
          have hclc : cleanUnder fs.entries (dest ++ [name]) := by
            intro e he
            exact hch e he name (List.mem_cons_self _ _)
          have hokc : (cpRun fuel fs
              (.one (src ++ [name]) (dest ++ [name]) args)).1 = .ok () := by
            rw [hc]
          have hone := ih.1 fs (src ++ [name]) (dest ++ [name]) args hrec hnd
            hdc.1 hdc.2
            (linkFreeUnder_mono (isPre_append_right _ _) hlf)
            (treeParentsDirs_mono (isPre_append_right _ _) htp)
            hclc hokc
          rw [hc] at hone
          have hone2 : copyPost fs (src ++ [name]) (dest ++ [name]) fs1 := hone
          obtain ⟨C1c, C2c, C3c, C4c, C5c⟩ := hone2
          -- hypotheses for the remaining names, at fs1
          have hlf1 : linkFreeUnder fs1.entries src := by
            intro e he hp
            have hl9 : lookupEnt fs1.entries e.1 = some e.2 :=
              mem_lookupEnt_of_nodup C4c he
            have hq1 := srcSub_incomp_destChild name hd1 hd2 hp
            have hl10 : lookupEnt fs.entries e.1 = some e.2 := by
              rw [← C2c e.1 hq1.1 hq1.2]
              exact hl9
            exact hlf _ (lookupEnt_some_mem hl10) hp
          have htp1 : treeParentsDirs fs1.entries src := by
            intro e he hp i hi hle
            have hl9 : lookupEnt fs1.entries e.1 = some e.2 :=
              mem_lookupEnt_of_nodup C4c he
            have hq1 := srcSub_incomp_destChild name hd1 hd2 hp
            have hl10 : lookupEnt fs.entries e.1 = some e.2 := by
              rw [← C2c e.1 hq1.1 hq1.2]
              exact hl9
            have h8 := htp _ (lookupEnt_some_mem hl10) hp i hi hle
            have hpt : isPre src (e.1.take i) = true := isPre_take_of_isPre hp hle
            have hqt := srcSub_incomp_destChild name hd1 hd2 hpt
            unfold isDirAt at h8 ⊢
            rw [C2c _ hqt.1 hqt.2]
            exact h8
          have hch1 : ∀ e ∈ fs1.entries, ∀ n2 ∈ rest,
              isPre (dest ++ [n2]) e.1 = false := by
            intro e he n2 hn2
            have hl9 : lookupEnt fs1.entries e.1 = some e.2 :=
              mem_lookupEnt_of_nodup C4c he
            rcases C5c e.1 e.2 hl9 with h9 | h9 | ⟨h9, h10⟩
            · exact hch _ (lookupEnt_some_mem h9) n2 (List.mem_cons_of_mem _ hn2)
            · cases hq9 : isPre (dest ++ [n2]) e.1 with
              | false => rfl
              | true =>
                exfalso
                have h12 := isPre_singleton_ext_inj hq9 h9
                rw [h12] at hn2
                exact hname_notin hn2
            · cases hq9 : isPre (dest ++ [n2]) e.1 with
              | false => rfl
              | true =>
                exfalso
                have h11 := isPre_trans hq9 h9
                rw [isPre_append_cancel] at h11
                have h12 : n2 = name := by
                  simpa [isPre] using h11
                rw [h12] at hn2
                exact hname_notin hn2
          have ihr := ih.2 fs1 src dest args rest hrec C4c hd1 hd2 hrestnodup
            hlf1 htp1 hch1 hok
          obtain ⟨R1, R2, R3, R4, R5⟩ := ihr
          refine ⟨?_, ?_, ?_, R4, ?_⟩
          · intro n2 hn2 rel
            rcases List.mem_cons.mp hn2 with h9 | hn2r
            · subst h9
              have hc1 := C1c rel
              have hcond : ∀ n3 ∈ rest,
                  isPre (dest ++ [n3]) (dest ++ [n2] ++ rel) = false ∧
                  isPre (dest ++ [n2] ++ rel) (dest ++ [n3]) = false := by
                intro n3 hn3
                have hne : n2 ≠ n3 := fun h => hname_notin (h ▸ hn3)
                have h1 : isPre (dest ++ [n2]) (dest ++ [n2] ++ rel) = true :=
                  isPre_append_right _ _
                have h2 := child_name_determined hne h1
                exact ⟨h2.1, h2.2⟩
              rw [R2 _ hcond]
              exact hc1
            · have hr1 := R1 n2 hn2r rel
              have hp : isPre src (src ++ [n2] ++ rel) = true := by
                rw [List.append_assoc]
                exact isPre_append_right _ _
              have hq1 := srcSub_incomp_destChild name hd1 hd2 hp
              rw [C2c _ hq1.1 hq1.2] at hr1
              exact hr1
          · intro q hcond
            have hcr : ∀ n3 ∈ rest, isPre (dest ++ [n3]) q = false ∧
                isPre q (dest ++ [n3]) = false :=
              fun n3 hn3 => hcond n3 (List.mem_cons_of_mem _ hn3)
            rw [R2 q hcr]
            exact C2c q (hcond name (List.mem_cons_self _ _)).1
              (hcond name (List.mem_cons_self _ _)).2
          · intro q nd hcond hsome
            have h9 := C3c q nd (hcond name (List.mem_cons_self _ _)) hsome
            exact R3 q nd (fun n3 hn3 => hcond n3 (List.mem_cons_of_mem _ hn3)) h9
          · intro q n2 hsome
            rcases R5 q n2 hsome with h9 | ⟨n3, hn3, h9⟩
            · rcases C5c q n2 h9 with h10 | h10 | ⟨h10, h11⟩
              · left
                exact h10
              · right
                exact ⟨name, List.mem_cons_self _ _, Or.inl h10⟩
              · right
                exact ⟨name, List.mem_cons_self _ _, Or.inr ⟨h10, h11⟩⟩
            · rcases h9 with h9 | ⟨h9, h10⟩
              · right
                exact ⟨n3, List.mem_cons_of_mem _ hn3, Or.inl h9⟩
              · right
                refine ⟨n3, List.mem_cons_of_mem _ hn3, Or.inr ⟨h9, ?_⟩⟩
                cases hl9 : lookupEnt fs.entries q with
                | none => rfl
                | some nd =>
                  exfalso
                  have h11 := cpRun_entries_mono fuel fs
                    (.one (src ++ [name]) (dest ++ [name]) args) q nd hl9
                  rw [hc] at h11
                  obtain ⟨n4, h12⟩ := h11
                  have h13 : lookupEnt fs1.entries q = some n4 := h12
                  rw [h13] at h10
                  cases h10

/-- C2: for a well-formed, link-free directory tree at `src` and a fresh
destination `dest` disjoint from it, a successful `CpR fuel fs src dest`
leaves at `dest` a tree structurally identical to the one at `src`: the
same relative paths exist (and no others below `dest`), each regular
file keeps its content and mode, each directory its mode, everything
else in the file system is untouched, and key uniqueness is preserved
(`copyPost` bundles exactly these conclusions); moreover — success or
failure — the recursion never removes an existing entry, so an aborted
copy leaves the destination partially populated with no cleanup. -/
theorem c2_recursive_structural_identity (fuel : Nat) (fs : FSys) (src dest : Path)
    (hnd : keysNodup fs.entries)
    (hlf : linkFreeUnder fs.entries src)
    (htp : treeParentsDirs fs.entries src)
    (hcl : cleanUnder fs.entries dest)
    (hd1 : isPre src dest = false)
    (hd2 : isPre dest src = false)
    (hok : (CpR fuel fs src dest).1 = .ok ()) :
    copyPost fs src dest (CpR fuel fs src dest).2 ∧
    (∀ (fuel2 : Nat) (fs2 : FSys) (src2 dest2 : Path) (q : Path) (n : Node),
      lookupEnt fs2.entries q = some n →
      ∃ n2, lookupEnt (CpR fuel2 fs2 src2 dest2).2.entries q = some n2) := by
  constructor
  · exact (cpRun_copy_struct fuel).1 fs src dest ⟨true, false, false⟩ rfl
      hnd hd1 hd2 hlf htp hcl hok
  · intro fuel2 fs2 src2 dest2 q n h
    exact cpRun_entries_mono fuel2 fs2 (.one src2 dest2 ⟨true, false, false⟩) q n h

/-- A three-level link-free source tree: a directory holding one regular
file and one subdirectory with a file inside. -/
def exC2 : FSys :=
  ⟨[(["s"], .dir 493 0 0),
    (["s", "d"], .dir 448 0 0),
    (["s", "d", "g"], .file [3] 384 7 8 0 0),
    (["s", "f"], .file [1, 2] 420 5 6 0 0)], 0, []⟩

theorem c2_recursive_structural_identity_witness :
    (keysNodup exC2.entries ∧
     linkFreeUnder exC2.entries ["s"] ∧
     treeParentsDirs exC2.entries ["s"] ∧
     cleanUnder exC2.entries ["t"] ∧
     isPre ["s"] ["t"] = false ∧
     isPre ["t"] ["s"] = false ∧
     (CpR 8 exC2 ["s"] ["t"]).1 = .ok ()) ∧
    (copyPost exC2 ["s"] ["t"] (CpR 8 exC2 ["s"] ["t"]).2 ∧
     (∀ (fuel2 : Nat) (fs2 : FSys) (src2 dest2 : Path) (q : Path) (n : Node),
       lookupEnt fs2.entries q = some n →
       ∃ n2, lookupEnt (CpR fuel2 fs2 src2 dest2).2.entries q = some n2)) :=
  ⟨⟨by decide, by decide, by decide, by decide, by decide, by decide, by decide⟩,
   c2_recursive_structural_identity 8 exC2 ["s"] ["t"] (by decide) (by decide)
     (by decide) (by decide) (by decide) (by decide) (by decide)⟩

/-! ### Recursive chmod / chown via the walk -/

/-- What `os.Chmod(path, mode)` leaves at a path that holds this node. -/
def chAll (mode : Nat) : Node → Node
  | .file c _ a mt u g => .file c mode a mt u g
  | .dir _ u g => .dir mode u g
  | .symlink t => .symlink t

/-- What `os.Chown(path, uid, gid)` leaves at a path that holds this node. -/
def ownAll (uid gid : Nat) : Node → Node
  | .file c m a mt _ _ => .file c m a mt uid gid
  | .dir m _ _ => .dir m uid gid
  | .symlink t => .symlink t

/-- The visit order the specification describes for the walk: each
entry before its children (pre-order), children in sorted name order;
written against the spec's words, to be compared with `walkRun`. -/
def wOrder (l : List (Path × Node)) : Nat → WTask → List Path
  | 0, _ => []
  | fuel + 1, .start p =>
    match lookupEnt l p with
    | none => []
    | some info => wOrder l fuel (.visit p info)
  | fuel + 1, .visit p info =>
    if info.isDir then p :: wOrder l fuel (.kids p (childNames l p))
    else [p]
  | _ + 1, .kids _ [] => []
  | fuel + 1, .kids p (n :: rest) =>
    match lookupEnt l (p ++ [n]) with
    | none => []
    | some info =>
      wOrder l fuel (.visit (p ++ [n]) info) ++ wOrder l fuel (.kids p rest)

theorem walkRun_start_eq (op : FSys → Path → Except Err Unit × FSys)
    (fuel : Nat) (fs : FSys) (p : Path) :
    walkRun op (fuel + 1) fs (.start p) =
      match lookupEnt fs.entries p with
      | none => (.error (lookupFailErr fs.entries p), fs)
      | some info => walkRun op fuel fs (.visit p info) := rfl

theorem walkRun_visit_eq (op : FSys → Path → Except Err Unit × FSys)
    (fuel : Nat) (fs : FSys) (p : Path) (info : Node) :
    walkRun op (fuel + 1) fs (.visit p info) =
      (if info.isDir then
        match op fs p with
        | (.error e, fs1) => (.error e, fs1)
        | (.ok _, fs1) => walkRun op fuel fs1 (.kids p (childNames fs.entries p))
      else op fs p) := rfl

theorem walkRun_kids_nil (op : FSys → Path → Except Err Unit × FSys)
    (fuel : Nat) (fs : FSys) (p : Path) :
    walkRun op (fuel + 1) fs (.kids p []) = (.ok (), fs) := rfl

theorem walkRun_kids_cons (op : FSys → Path → Except Err Unit × FSys)
    (fuel : Nat) (fs : FSys) (p : Path) (n : String) (rest : List String) :
    walkRun op (fuel + 1) fs (.kids p (n :: rest)) =
      match lookupEnt fs.entries (p ++ [n]) with
      | none => (.error (lookupFailErr fs.entries (p ++ [n])), fs)
      | some info =>
        match walkRun op fuel fs (.visit (p ++ [n]) info) with
        | (.error e, fs1) => (.error e, fs1)
        | (.ok _, fs1) => walkRun op fuel fs1 (.kids p rest) := rfl

theorem wOrder_start_eq (l : List (Path × Node)) (fuel : Nat) (p : Path) :
    wOrder l (fuel + 1) (.start p) =
      match lookupEnt l p with
      | none => []
      | some info => wOrder l fuel (.visit p info) := rfl

theorem wOrder_visit_eq (l : List (Path × Node)) (fuel : Nat) (p : Path)
    (info : Node) :
    wOrder l (fuel + 1) (.visit p info) =
      (if info.isDir then p :: wOrder l fuel (.kids p (childNames l p))
       else [p]) := rfl

theorem wOrder_kids_nil (l : List (Path × Node)) (fuel : Nat) (p : Path) :
    wOrder l (fuel + 1) (.kids p []) = [] := rfl

theorem wOrder_kids_cons (l : List (Path × Node)) (fuel : Nat) (p : Path)
    (n : String) (rest : List String) :
    wOrder l (fuel + 1) (.kids p (n :: rest)) =
      match lookupEnt l (p ++ [n]) with
      | none => []
      | some info =>
        wOrder l fuel (.visit (p ++ [n]) info) ++ wOrder l fuel (.kids p rest) := rfl

/-- The raw directory listing depends only on the stored keys. -/
theorem rawChildNames_keys_congr : ∀ {l1 l2 : List (Path × Node)},
    l1.map Prod.fst = l2.map Prod.fst → ∀ p, rawChildNames l1 p = rawChildNames l2 p := by
  intro l1
  induction l1 with
  | nil =>
    intro l2 h p
    cases l2 with
    | nil => rfl
    | cons e t => cases h
  | cons e t ih =>
    intro l2 h p
    cases l2 with
    | nil => cases h
    | cons e2 t2 =>
      simp only [List.map_cons, List.cons.injEq] at h
      unfold rawChildNames
      rw [List.filterMap_cons, List.filterMap_cons, h.1]
      have ht := ih h.2 p
      unfold rawChildNames at ht
      rw [ht]

/-- The directory listing depends only on the stored keys. -/
theorem childNames_keys_congr {l1 l2 : List (Path × Node)}
    (h : l1.map Prod.fst = l2.map Prod.fst) (p : Path) :
    childNames l1 p = childNames l2 p := by
  rw [childNames_eq_sort_raw, childNames_eq_sort_raw, rawChildNames_keys_congr h p]

/-- Relevant paths of a walk task: the subtree being visited. -/
def taskRel : WTask → Path → Prop
  | .start p, q => isPre p q = true
  | .visit p _, q => isPre p q = true
  | .kids p names, q => ∃ n ∈ names, isPre (p ++ [n]) q = true

/-- The spec-side visit order only consults keys and the lookups inside
the task's subtree. -/
theorem wOrder_congr : ∀ (fuel : Nat) (l1 l2 : List (Path × Node)) (task : WTask),
    l1.map Prod.fst = l2.map Prod.fst →
    (∀ q : Path, taskRel task q → lookupEnt l1 q = lookupEnt l2 q) →
    wOrder l1 fuel task = wOrder l2 fuel task := by
  intro fuel
  induction fuel with
  | zero => intro l1 l2 task _ _; rfl
  | succ fuel ih =>
    intro l1 l2 task hkeys hrel
    cases task with
    | start p =>
      rw [wOrder_start_eq, wOrder_start_eq, hrel p (isPre_refl p)]
      cases lookupEnt l2 p with
      | none => rfl
      | some info => exact ih l1 l2 (.visit p info) hkeys hrel
    | visit p info =>
      rw [wOrder_visit_eq, wOrder_visit_eq]
      cases info.isDir with
      | false => rfl
      | true =>
        simp only [if_true]
        rw [childNames_keys_congr hkeys p]
        congr 1
        apply ih l1 l2 _ hkeys
        intro q hq
        obtain ⟨n, _, hn⟩ := hq
        exact hrel q (isPre_trans (isPre_append_right p [n]) hn)
    | kids p names =>
      cases names with
      | nil => rfl
      | cons n rest =>
        rw [wOrder_kids_cons, wOrder_kids_cons,
          hrel (p ++ [n]) ⟨n, List.mem_cons_self _ _, isPre_refl _⟩]
        cases lookupEnt l2 (p ++ [n]) with
        | none => rfl
        | some info =>
          have h1 := ih l1 l2 (.visit (p ++ [n]) info) hkeys (fun q hq =>
            hrel q ⟨n, List.mem_cons_self _ _, hq⟩)
          have h2 := ih l1 l2 (.kids p rest) hkeys (fun q hq => by
            obtain ⟨n2, hn2, hq2⟩ := hq
            exact hrel q ⟨n2, List.mem_cons_of_mem _ hn2, hq2⟩)
          show wOrder l1 fuel (.visit (p ++ [n]) info) ++ wOrder l1 fuel (.kids p rest) =
            wOrder l2 fuel (.visit (p ++ [n]) info) ++ wOrder l2 fuel (.kids p rest)
          rw [h1, h2]

/-- Both walk payloads (`os.Chmod`, `os.Chown`) keep the key set and only
append to the event trace, whatever the outcome. -/
theorem walkRun_frame (op : FSys → Path → Except Err Unit × FSys)
    (hop : ∀ (fs : FSys) (p : Path),
      (op fs p).2.entries.map Prod.fst = fs.entries.map Prod.fst ∧
      ∃ tr, (op fs p).2.trace = fs.trace ++ tr) :
    ∀ (fuel : Nat) (fs : FSys) (task : WTask),
      (walkRun op fuel fs task).2.entries.map Prod.fst = fs.entries.map Prod.fst ∧
      ∃ tr, (walkRun op fuel fs task).2.trace = fs.trace ++ tr := by
  intro fuel
  induction fuel with
  | zero =>
    intro fs task
    cases task <;> refine ⟨?_, [], ?_⟩ <;> simp [walkRun]
  | succ fuel ih =>
    intro fs task
    cases task with
    | start p =>
      rw [walkRun_start_eq]
      cases lookupEnt fs.entries p with
      | none => exact ⟨rfl, [], by simp⟩
      | some info => exact ih fs (.visit p info)
    | visit p info =>
      rw [walkRun_visit_eq]
      cases info.isDir with
      | false =>
        simp only [Bool.false_eq_true, if_false]
        exact hop fs p
      | true =>
        simp only [if_true]
        rcases hc : op fs p with ⟨rc, fs1⟩
        have hop1 := hop fs p
        rw [hc] at hop1
        cases rc with
        | error e => exact hop1
        | ok u =>
          dsimp only
          have ihk := ih fs1 (.kids p (childNames fs.entries p))
          obtain ⟨tr1, htr1⟩ := hop1.2
          obtain ⟨tr2, htr2⟩ := ihk.2
          refine ⟨?_, tr1 ++ tr2, ?_⟩
          · rw [ihk.1, hop1.1]
          · rw [htr2, htr1, List.append_assoc]
    | kids p names =>
      cases names with
      | nil =>
        refine ⟨rfl, [], ?_⟩
        rw [walkRun_kids_nil]
        simp
      | cons n rest =>
        rw [walkRun_kids_cons]
        cases lookupEnt fs.entries (p ++ [n]) with
        | none => exact ⟨rfl, [], by simp⟩
        | some info =>
          dsimp only
          rcases hc : walkRun op fuel fs (.visit (p ++ [n]) info) with ⟨rc, fs1⟩
          have ihv := ih fs (.visit (p ++ [n]) info)
          rw [hc] at ihv
          cases rc with
          | error e => exact ihv
          | ok u =>
            dsimp only
            have ihk := ih fs1 (.kids p rest)
            obtain ⟨tr1, htr1⟩ := ihv.2
            obtain ⟨tr2, htr2⟩ := ihk.2
            refine ⟨?_, tr1 ++ tr2, ?_⟩
            · rw [ihk.1, ihv.1]
            · rw [htr2, htr1, List.append_assoc]

/-- `os.Chmod` on an existing non-link path: follow (no) links, set the
permission bits, record the event. -/
theorem chmodOp_visit_eq (mode : Nat) (fs : FSys) (p : Path) (n : Node)
    (h : lookupEnt fs.entries p = some n) (hnl : n.isLink = false) :
    chmodOp mode fs p = (.ok (),
      { fs with entries := setEnt fs.entries p (chAll mode n),
                trace := fs.trace ++ [.chmodE p mode] }) := by
  have hres : resolvePath fs.entries linkDepth p = .ok p := by
    apply resolveLD_nonlink h
    intro t he
    rw [he] at hnl
    simp [Node.isLink] at hnl
  cases n with
  | symlink t => simp [Node.isLink] at hnl
  | file c m a mt u g => simp [chmodOp, hres, h, chAll]
  | dir m u g => simp [chmodOp, hres, h, chAll]

/-- `os.Chown` on an existing non-link path. -/
theorem chownOp_visit_eq (uid gid : Nat) (fs : FSys) (p : Path) (n : Node)
    (h : lookupEnt fs.entries p = some n) (hnl : n.isLink = false) :
    chownOp uid gid fs p = (.ok (),
      { fs with entries := setEnt fs.entries p (ownAll uid gid n),
                trace := fs.trace ++ [.chownE p uid gid] }) := by
  have hres : resolvePath fs.entries linkDepth p = .ok p := by
    apply resolveLD_nonlink h
    intro t he
    rw [he] at hnl
    simp [Node.isLink] at hnl
  cases n with
  | symlink t => simp [Node.isLink] at hnl
  | file c m a mt u g => simp [chownOp, hres, h, ownAll]
  | dir m u g => simp [chownOp, hres, h, ownAll]

/-- `os.Chmod` never changes the key set and only appends events. -/
theorem chmodOp_frame (mode : Nat) (fs : FSys) (p : Path) :
    (chmodOp mode fs p).2.entries.map Prod.fst = fs.entries.map Prod.fst ∧
    ∃ tr, (chmodOp mode fs p).2.trace = fs.trace ++ tr := by
  unfold chmodOp
  cases hr : resolvePath fs.entries linkDepth p with
  | error e => exact ⟨rfl, [], by simp⟩
  | ok q =>
    dsimp only
    cases hl : lookupEnt fs.entries q with
    | none => exact ⟨rfl, [], by simp⟩
    | some n =>
      cases n with
      | symlink t => exact ⟨rfl, [], by simp⟩
      | file c m a mt u g => exact ⟨setEnt_keys _ _ _, [.chmodE p mode], rfl⟩
      | dir m u g => exact ⟨setEnt_keys _ _ _, [.chmodE p mode], rfl⟩

/-- `os.Chown` never changes the key set and only appends events. -/
theorem chownOp_frame (uid gid : Nat) (fs : FSys) (p : Path) :
    (chownOp uid gid fs p).2.entries.map Prod.fst = fs.entries.map Prod.fst ∧
    ∃ tr, (chownOp uid gid fs p).2.trace = fs.trace ++ tr := by
  unfold chownOp
  cases hr : resolvePath fs.entries linkDepth p with
  | error e => exact ⟨rfl, [], by simp⟩
  | ok q =>
    dsimp only
    cases hl : lookupEnt fs.entries q with
    | none => exact ⟨rfl, [], by simp⟩
    | some n =>
      cases n with
      | symlink t => exact ⟨rfl, [], by simp⟩
      | file c m a mt u g => exact ⟨setEnt_keys _ _ _, [.chownE p uid gid], rfl⟩
      | dir m u g => exact ⟨setEnt_keys _ _ _, [.chownE p uid gid], rfl⟩

/-! ### Small helpers for the walk induction -/

theorem lookupEnt_setEnt_ne {l : List (Path × Node)} {p : Path} {nd : Node}
    {q : Path} (h : q ≠ p) : lookupEnt (setEnt l p nd) q = lookupEnt l q := by
  rw [lookupEnt_setEnt, if_neg h]

theorem lookupEnt_setEnt_self {l : List (Path × Node)} {p : Path} {nd n : Node}
    (h : lookupEnt l p = some n) : lookupEnt (setEnt l p nd) p = some nd := by
  rw [lookupEnt_setEnt, if_pos rfl, h]
  rfl

theorem mem_setEnt {l : List (Path × Node)} {p : Path} {nd : Node}
    {e : Path × Node} (h : e ∈ setEnt l p nd) : e = (p, nd) ∨ e ∈ l := by
  unfold setEnt at h
  rw [List.mem_map] at h
  obtain ⟨e0, he0, heq⟩ := h
  by_cases hc : e0.1 = p
  · rw [if_pos hc] at heq
    left
    exact heq.symm
  · rw [if_neg hc] at heq
    right
    rw [← heq]
    exact he0

theorem append_singleton_ne (p : Path) (n : String) : p ++ [n] ≠ p := by
  intro h
  have h2 := congrArg List.length h
  simp at h2

theorem isPre_append_singleton_self (p : Path) (n : String) :
    isPre (p ++ [n]) p = false := by
  cases h : isPre (p ++ [n]) p with
  | false => rfl
  | true =>
    exfalso
    have h2 := isPre_length h
    simp only [List.length_append, List.length_singleton] at h2
    omega

theorem keysNodup_of_keys_eq {l1 l2 : List (Path × Node)}
    (h : l1.map Prod.fst = l2.map Prod.fst) (hnd : keysNodup l2) : keysNodup l1 := by
  unfold keysNodup at hnd ⊢
  rw [h]
  exact hnd

/-- The walk postcondition, for any payload that rewrites an existing
non-link entry in place and records one event: every entry in the root's
subtree is rewritten by `f`, everything else is untouched, keys are kept,
and the trace grows by exactly the pre-order visit events. -/
theorem walkRun_post (op : FSys → Path → Except Err Unit × FSys)
    (f : Node → Node) (ev : Path → Ev)
    (hop : ∀ (fs : FSys) (p : Path) (n : Node), lookupEnt fs.entries p = some n →
      n.isLink = false →
      op fs p = (.ok (),
        { fs with entries := setEnt fs.entries p (f n),
                  trace := fs.trace ++ [ev p] })) :
    ∀ fuel : Nat,
    (∀ (fs : FSys) (p : Path) (info : Node),
      keysNodup fs.entries →
      lookupEnt fs.entries p = some info →
      linkFreeUnder fs.entries p →
      treeParentsDirs fs.entries p →
      (walkRun op fuel fs (.visit p info)).1 = .ok () →
      ((∀ (q : Path) (n : Node), isPre p q = true → lookupEnt fs.entries q = some n →
          lookupEnt (walkRun op fuel fs (.visit p info)).2.entries q = some (f n)) ∧
       (∀ q : Path, isPre p q = false →
          lookupEnt (walkRun op fuel fs (.visit p info)).2.entries q =
            lookupEnt fs.entries q) ∧
       (walkRun op fuel fs (.visit p info)).2.entries.map Prod.fst =
          fs.entries.map Prod.fst ∧
       (walkRun op fuel fs (.visit p info)).2.trace =
          fs.trace ++ (wOrder fs.entries fuel (.visit p info)).map ev)) ∧
    (∀ (fs : FSys) (p : Path) (names : List String),
      keysNodup fs.entries →
      names.Nodup →
      (∀ n ∈ names, ∃ nd, lookupEnt fs.entries (p ++ [n]) = some nd) →
      (∀ n ∈ names, linkFreeUnder fs.entries (p ++ [n])) →
      (∀ n ∈ names, treeParentsDirs fs.entries (p ++ [n])) →
      (walkRun op fuel fs (.kids p names)).1 = .ok () →
      ((∀ n ∈ names, ∀ (q : Path) (nd : Node), isPre (p ++ [n]) q = true →
          lookupEnt fs.entries q = some nd →
          lookupEnt (walkRun op fuel fs (.kids p names)).2.entries q = some (f nd)) ∧
       (∀ q : Path, (∀ n ∈ names, isPre (p ++ [n]) q = false) →
          lookupEnt (walkRun op fuel fs (.kids p names)).2.entries q =
            lookupEnt fs.entries q) ∧
       (walkRun op fuel fs (.kids p names)).2.entries.map Prod.fst =
          fs.entries.map Prod.fst ∧
       (walkRun op fuel fs (.kids p names)).2.trace =
          fs.trace ++ (wOrder fs.entries fuel (.kids p names)).map ev)) := by
  intro fuel
  induction fuel with
  | zero =>
    constructor
    · intro fs p info _ _ _ _ hok
      simp [walkRun] at hok
    · intro fs p names _ _ _ _ _ hok
      simp [walkRun] at hok
  | succ fuel ih =>
    constructor
    · -- visiting one path
      intro fs p info hnd hlook hlf htp hok
      have hinfoLink : info.isLink = false :=
        hlf _ (lookupEnt_some_mem hlook) (isPre_refl p)
      have hopEq := hop fs p info hlook hinfoLink
      rw [walkRun_visit_eq] at hok ⊢
      rw [wOrder_visit_eq]
      have hstrict : ∀ (x : String) (r2 : Path) (n : Node),
          lookupEnt fs.entries (p ++ x :: r2) = some n →
          ∃ m2 u2 g2, info = Node.dir m2 u2 g2 := by
        intro x r2 n hsome
        have hp9 : isPre p (p ++ x :: r2) = true := isPre_append_right _ _
        have hi9 : p.length ∈ List.range (p ++ x :: r2).length := by
          rw [List.mem_range]
          simp
        have h10 := htp _ (lookupEnt_some_mem hsome) hp9 p.length hi9 (le_refl _)
        rw [List.take_left] at h10
        unfold isDirAt at h10
        rw [hlook] at h10
        cases info with
        | dir m2 u2 g2 => exact ⟨m2, u2, g2, rfl⟩
        | file c m a mt u g => cases h10
        | symlink t => cases h10
      cases hdir : info.isDir with
      | false =>
        simp only [hdir, Bool.false_eq_true, if_false] at hok ⊢
        rw [hopEq] at hok ⊢
        refine ⟨?_, ?_, ?_, ?_⟩
        · intro q n hq hsome
          obtain ⟨r, hr⟩ := (isPre_iff p q).mp hq
          cases r with
          | nil =>
            rw [List.append_nil] at hr
            subst hr
            rw [hlook] at hsome
            injection hsome with hsome
            subst hsome
            exact lookupEnt_setEnt_self hlook
          | cons x r2 =>
            exfalso
            subst hr
            obtain ⟨m2, u2, g2, hinfo2⟩ := hstrict x r2 n hsome
            rw [hinfo2] at hdir
            simp [Node.isDir] at hdir
        · intro q hq
          have hqp : q ≠ p := by
            intro h9
            rw [h9, isPre_refl] at hq
            cases hq
          exact lookupEnt_setEnt_ne hqp
        · exact setEnt_keys _ _ _
        · simp only [hdir, Bool.false_eq_true, if_false]
          rfl
      | true =>
        simp only [hdir, if_true] at hok ⊢
        rw [hopEq] at hok ⊢
        dsimp only at hok ⊢
        have hkeys1 : (setEnt fs.entries p (f info)).map Prod.fst =
            fs.entries.map Prod.fst := setEnt_keys _ _ _
        have hnd1 : keysNodup (setEnt fs.entries p (f info)) :=
          keysNodup_of_keys_eq hkeys1 hnd
        have hset := ih.2
          { fs with entries := setEnt fs.entries p (f info),
                    trace := fs.trace ++ [ev p] }
          p (childNames fs.entries p) hnd1 (childNames_nodup p hnd)
          (by
            intro n hn
            obtain ⟨nd, hmem⟩ := mem_childNames.mp hn
            refine ⟨nd, ?_⟩
            show lookupEnt (setEnt fs.entries p (f info)) (p ++ [n]) = some nd
            rw [lookupEnt_setEnt_ne (append_singleton_ne p n)]
            exact mem_lookupEnt_of_nodup hnd hmem)
          (by
            intro n hn e he hpre
            rcases mem_setEnt he with h9 | h9
            · rw [h9] at hpre
              rw [isPre_append_singleton_self] at hpre
              cases hpre
            · exact hlf e h9 (isPre_trans (isPre_append_right p [n]) hpre))
          (by
            intro n hn e he hpre i hi hle
            rcases mem_setEnt he with h9 | h9
            · rw [h9] at hpre
              rw [isPre_append_singleton_self] at hpre
              cases hpre
            · have h10 := htp e h9 (isPre_trans (isPre_append_right p [n]) hpre)
                i hi (le_trans (by simp) hle)
              unfold isDirAt at h10 ⊢
              have htne : e.1.take i ≠ p := by
                intro h11
                have h12 := congrArg List.length h11
                rw [List.length_take] at h12
                rw [List.mem_range] at hi
                have h13 : (p ++ [n] : Path).length ≤ i := by
                  exact hle
                simp only [List.length_append, List.length_singleton] at h13
                omega
              show (match lookupEnt (setEnt fs.entries p (f info)) (e.1.take i) with
                | some (.dir _ _ _) => true
                | _ => false) = true
              rw [lookupEnt_setEnt_ne htne]
              exact h10)
          hok
        obtain ⟨K1, K2, K3, K4⟩ := hset
        have hselfnot : ∀ n ∈ childNames fs.entries p, isPre (p ++ [n]) p = false :=
          fun n _ => isPre_append_singleton_self p n
        refine ⟨?_, ?_, ?_, ?_⟩
        · intro q n hq hsome
          obtain ⟨r, hr⟩ := (isPre_iff p q).mp hq
          cases r with
          | nil =>
            rw [List.append_nil] at hr
            subst hr
            rw [hlook] at hsome
            injection hsome with hsome
            subst hsome
            rw [K2 _ hselfnot]
            exact lookupEnt_setEnt_self hlook
          | cons x r2 =>
            subst hr
            have hx : x ∈ childNames fs.entries p := by
              rw [mem_childNames]
              cases r2 with
              | nil => exact ⟨n, lookupEnt_some_mem (by simpa using hsome)⟩
              | cons y r3 =>
                have hp9 : isPre p (p ++ x :: y :: r3) = true := isPre_append_right _ _
                have hi9 : p.length + 1 ∈ List.range (p ++ x :: y :: r3).length := by
                  rw [List.mem_range]
                  simp
                have h10 := htp _ (lookupEnt_some_mem hsome) hp9 (p.length + 1) hi9
                  (Nat.le_succ _)
                have htake : (p ++ x :: y :: r3).take (p.length + 1) = p ++ [x] := by
                  have h11 : (p ++ [x] : Path).length = p.length + 1 := by simp
                  rw [show p ++ x :: y :: r3 = (p ++ [x]) ++ (y :: r3) by simp, ← h11,
                    List.take_left]
                rw [htake] at h10
                unfold isDirAt at h10
                cases hl11 : lookupEnt fs.entries (p ++ [x]) with
                | none =>
                  rw [hl11] at h10
                  cases h10
                | some nd2 => exact ⟨nd2, lookupEnt_some_mem hl11⟩
            have hq2 : isPre (p ++ [x]) (p ++ x :: r2) = true := by
              rw [show p ++ x :: r2 = (p ++ [x]) ++ r2 by simp]
              exact isPre_append_right _ _
            have hsome1 : lookupEnt (setEnt fs.entries p (f info)) (p ++ x :: r2) =
                some n := by
              rw [lookupEnt_setEnt_ne]
              · exact hsome
              · intro h11
                have h12 := congrArg List.length h11
                simp at h12
            exact K1 x hx (p ++ x :: r2) n hq2 hsome1
        · intro q hq
          have hqp : q ≠ p := by
            intro h9
            rw [h9, isPre_refl] at hq
            cases hq
          have hcond : ∀ n ∈ childNames fs.entries p, isPre (p ++ [n]) q = false := by
            intro n _
            cases h9 : isPre (p ++ [n]) q with
            | false => rfl
            | true =>
              exfalso
              have h10 := isPre_trans (isPre_append_right p [n]) h9
              rw [h10] at hq
              cases hq
          rw [K2 q hcond]
          exact lookupEnt_setEnt_ne hqp
        · rw [K3]
          exact hkeys1
        · rw [K4]
          have hord : wOrder (setEnt fs.entries p (f info)) fuel
              (.kids p (childNames fs.entries p)) =
              wOrder fs.entries fuel (.kids p (childNames fs.entries p)) := by
            apply wOrder_congr fuel _ _ _ hkeys1
            intro q hq
            obtain ⟨n, _, hn⟩ := hq
            apply lookupEnt_setEnt_ne
            intro h11
            rw [h11, isPre_append_singleton_self] at hn
            cases hn
          rw [hord]
          simp only [hdir, if_true, List.map_cons]
          rw [List.append_assoc]
          rfl
    · -- the loop over a directory's children
      intro fs p names hnd hnames hex hlfs htps hok
      cases names with
      | nil =>
        rw [walkRun_kids_nil] at hok ⊢
        rw [wOrder_kids_nil]
        refine ⟨?_, ?_, rfl, by simp⟩
        · intro n hn
          cases hn
        · intro q _
          rfl
      | cons n rest =>
        have hn_notin := (List.nodup_cons.mp hnames).1
        have hrest_nd := (List.nodup_cons.mp hnames).2
        obtain ⟨info, hinfo⟩ := hex n (List.mem_cons_self _ _)
        rw [walkRun_kids_cons] at hok ⊢
        rw [wOrder_kids_cons]
        rw [hinfo] at hok ⊢
        dsimp only at hok ⊢
        rcases hc : walkRun op fuel fs (.visit (p ++ [n]) info) with ⟨rc, fs1⟩
        rw [hc] at hok
        cases rc with
        | error e => cases hok
        | ok u =>
          cases u
          dsimp only at hok ⊢
          have ihv := ih.1 fs (p ++ [n]) info hnd hinfo
            (hlfs n (List.mem_cons_self _ _)) (htps n (List.mem_cons_self _ _))
            (by rw [hc])
          rw [hc] at ihv
          have V1 : ∀ (q : Path) (nd : Node), isPre (p ++ [n]) q = true →
              lookupEnt fs.entries q = some nd →
              lookupEnt fs1.entries q = some (f nd) := ihv.1
          have V2 : ∀ q : Path, isPre (p ++ [n]) q = false →
              lookupEnt fs1.entries q = lookupEnt fs.entries q := ihv.2.1
          have V3 : fs1.entries.map Prod.fst = fs.entries.map Prod.fst := ihv.2.2.1
          have V4 : fs1.trace = fs.trace ++
              (wOrder fs.entries fuel (.visit (p ++ [n]) info)).map ev := ihv.2.2.2
          have hnd1 : keysNodup fs1.entries := keysNodup_of_keys_eq V3 hnd
          have hsib : ∀ n2, n2 ≠ n → ∀ q : Path, isPre (p ++ [n2]) q = true →
              isPre (p ++ [n]) q = false :=
            fun n2 hne q hq => (child_name_determined hne hq).1
          have ihr := ih.2 fs1 p rest hnd1 hrest_nd
            (by
              intro n2 hn2
              obtain ⟨nd, hnd2⟩ := hex n2 (List.mem_cons_of_mem _ hn2)
              have hne : n2 ≠ n := fun h => hn_notin (h ▸ hn2)
              refine ⟨nd, ?_⟩
              rw [V2 _ (hsib n2 hne _ (isPre_refl _))]
              exact hnd2)
            (by
              intro n2 hn2 e he hpre
              have hne : n2 ≠ n := fun h => hn_notin (h ▸ hn2)
              have hl9 : lookupEnt fs1.entries e.1 = some e.2 :=
                mem_lookupEnt_of_nodup hnd1 he
              rw [V2 _ (hsib n2 hne _ hpre)] at hl9
              exact hlfs n2 (List.mem_cons_of_mem _ hn2) _
                (lookupEnt_some_mem hl9) hpre)
            (by
              intro n2 hn2 e he hpre i hi hle
              have hne : n2 ≠ n := fun h => hn_notin (h ▸ hn2)
              have hl9 : lookupEnt fs1.entries e.1 = some e.2 :=
                mem_lookupEnt_of_nodup hnd1 he
              rw [V2 _ (hsib n2 hne _ hpre)] at hl9
              have h10 := htps n2 (List.mem_cons_of_mem _ hn2) _
                (lookupEnt_some_mem hl9) hpre i hi hle
              have hpret : isPre (p ++ [n2]) (e.1.take i) = true :=
                isPre_take_of_isPre hpre hle
              unfold isDirAt at h10 ⊢
              rw [V2 _ (hsib n2 hne _ hpret)]
              exact h10)
            hok
          obtain ⟨K1r, K2r, K3r, K4r⟩ := ihr
          refine ⟨?_, ?_, ?_, ?_⟩
          · intro n2 hn2 q nd hq hsome
            rcases List.mem_cons.mp hn2 with h9 | hn2r
            · subst h9
              have h10 := V1 q nd hq hsome
              have hcond : ∀ n3 ∈ rest, isPre (p ++ [n3]) q = false := by
                intro n3 hn3
                have hne : n2 ≠ n3 := by
                  intro h
                  rw [h] at hn_notin
                  exact hn_notin hn3
                exact (child_name_determined hne hq).1
              rw [K2r q hcond]
              exact h10
            · have hne : n2 ≠ n := fun h => hn_notin (h ▸ hn2r)
              have hsome1 : lookupEnt fs1.entries q = some nd := by
                rw [V2 q (hsib n2 hne q hq)]
                exact hsome
              exact K1r n2 hn2r q nd hq hsome1
          · intro q hcond
            rw [K2r q (fun n3 hn3 => hcond n3 (List.mem_cons_of_mem _ hn3))]
            exact V2 q (hcond n (List.mem_cons_self _ _))
          · rw [K3r]
            exact V3
          · rw [K4r, V4]
            have hord : wOrder fs1.entries fuel (.kids p rest) =
                wOrder fs.entries fuel (.kids p rest) := by
              apply wOrder_congr fuel _ _ _ V3
              intro q hq
              obtain ⟨n2, hn2, hq2⟩ := hq
              have hne : n2 ≠ n := fun h => hn_notin (h ▸ hn2)
              exact V2 q (hsib n2 hne q hq2)
            rw [hord, List.map_append, List.append_assoc]

/-- C8: on a link-free well-formed tree, `ChmodR root mode` walks every
entry reachable from `root` (root included) in pre-order — each entry's
change happens before its children's, children in the sorted listing
order `wOrder` describes — applying the mode to each, so that afterwards
every entry at or under `root` carries mode `mode`; paths outside the
subtree are untouched; `ChownR` does the same for the owner pair; and on
every outcome, error included, the walk only edits nodes in place and
appends events — the first error aborts the walk with all already-applied
changes kept (no rollback). -/
theorem c8_recursive_chmod_chown (fuel : Nat) (fs : FSys) (root : Path)
    (mode uid gid : Nat)
    (hnd : keysNodup fs.entries)
    (hlf : linkFreeUnder fs.entries root)
    (htp : treeParentsDirs fs.entries root) :
    ((ChmodR fuel fs root mode).1 = .ok () →
      (∀ (q : Path) (n : Node), isPre root q = true →
        lookupEnt fs.entries q = some n →
        lookupEnt (ChmodR fuel fs root mode).2.entries q = some (chAll mode n)) ∧
      (∀ q : Path, isPre root q = false →
        lookupEnt (ChmodR fuel fs root mode).2.entries q =
          lookupEnt fs.entries q) ∧
      (ChmodR fuel fs root mode).2.trace =
        fs.trace ++ (wOrder fs.entries fuel (.start root)).map
          (fun p => Ev.chmodE p mode)) ∧
    ((ChownR fuel fs root uid gid).1 = .ok () →
      (∀ (q : Path) (n : Node), isPre root q = true →
        lookupEnt fs.entries q = some n →
        lookupEnt (ChownR fuel fs root uid gid).2.entries q =
          some (ownAll uid gid n)) ∧
      (∀ q : Path, isPre root q = false →
        lookupEnt (ChownR fuel fs root uid gid).2.entries q =
          lookupEnt fs.entries q) ∧
      (ChownR fuel fs root uid gid).2.trace =
        fs.trace ++ (wOrder fs.entries fuel (.start root)).map
          (fun p => Ev.chownE p uid gid)) ∧
    ((ChmodR fuel fs root mode).2.entries.map Prod.fst =
        fs.entries.map Prod.fst ∧
      ∃ tr, (ChmodR fuel fs root mode).2.trace = fs.trace ++ tr) ∧
    ((ChownR fuel fs root uid gid).2.entries.map Prod.fst =
        fs.entries.map Prod.fst ∧
      ∃ tr, (ChownR fuel fs root uid gid).2.trace = fs.trace ++ tr) := by
  refine ⟨?_, ?_, ?_, ?_⟩
  · intro hok
    cases fuel with
    | zero => simp [ChmodR, walkRun] at hok
    | succ f =>
      unfold ChmodR at hok ⊢
      rw [walkRun_start_eq] at hok ⊢
      rw [wOrder_start_eq]
      cases hl : lookupEnt fs.entries root with
      | none =>
        rw [hl] at hok
        simp at hok
      | some info =>
        rw [hl] at hok
        dsimp only at hok ⊢
        have hres := (walkRun_post (chmodOp mode) (chAll mode)
          (fun p => Ev.chmodE p mode)
          (fun fs2 p n h hnl => chmodOp_visit_eq mode fs2 p n h hnl) f).1
          fs root info hnd hl hlf htp hok
        exact ⟨hres.1, hres.2.1, hres.2.2.2⟩
  · intro hok
    cases fuel with
    | zero => simp [ChownR, walkRun] at hok
    | succ f =>
      unfold ChownR at hok ⊢
      rw [walkRun_start_eq] at hok ⊢
      rw [wOrder_start_eq]
      cases hl : lookupEnt fs.entries root with
      | none =>
        rw [hl] at hok
        simp at hok
      | some info =>
        rw [hl] at hok
        dsimp only at hok ⊢
        have hres := (walkRun_post (chownOp uid gid) (ownAll uid gid)
          (fun p => Ev.chownE p uid gid)
          (fun fs2 p n h hnl => chownOp_visit_eq uid gid fs2 p n h hnl) f).1
          fs root info hnd hl hlf htp hok
        exact ⟨hres.1, hres.2.1, hres.2.2.2⟩
  · exact walkRun_frame (chmodOp mode) (fun fs2 p => chmodOp_frame mode fs2 p)
      fuel fs (.start root)
  · exact walkRun_frame (chownOp uid gid) (fun fs2 p => chownOp_frame uid gid fs2 p)
      fuel fs (.start root)

/-- A link-free tree for the walk: a root directory with one file and
one subdirectory holding another file. -/
def exC8 : FSys :=
  ⟨[(["r"], .dir 493 0 0),
    (["r", "a"], .file [1] 420 1 2 3 4),
    (["r", "b"], .dir 448 5 6),
    (["r", "b", "c"], .file [2] 384 7 8 9 10)], 0, []⟩

theorem c8_recursive_chmod_chown_witness :
    (keysNodup exC8.entries ∧
     linkFreeUnder exC8.entries ["r"] ∧
     treeParentsDirs exC8.entries ["r"] ∧
     (ChmodR 10 exC8 ["r"] 511).1 = .ok () ∧
     (ChownR 10 exC8 ["r"] 100 200).1 = .ok ()) ∧
    (((ChmodR 10 exC8 ["r"] 511).1 = .ok () →
      (∀ (q : Path) (n : Node), isPre ["r"] q = true →
        lookupEnt exC8.entries q = some n →
        lookupEnt (ChmodR 10 exC8 ["r"] 511).2.entries q = some (chAll 511 n)) ∧
      (∀ q : Path, isPre ["r"] q = false →
        lookupEnt (ChmodR 10 exC8 ["r"] 511).2.entries q =
          lookupEnt exC8.entries q) ∧
      (ChmodR 10 exC8 ["r"] 511).2.trace =
        exC8.trace ++ (wOrder exC8.entries 10 (.start ["r"])).map
          (fun p => Ev.chmodE p 511)) ∧
    ((ChownR 10 exC8 ["r"] 100 200).1 = .ok () →
      (∀ (q : Path) (n : Node), isPre ["r"] q = true →
        lookupEnt exC8.entries q = some n →
        lookupEnt (ChownR 10 exC8 ["r"] 100 200).2.entries q =
          some (ownAll 100 200 n)) ∧
      (∀ q : Path, isPre ["r"] q = false →
        lookupEnt (ChownR 10 exC8 ["r"] 100 200).2.entries q =
          lookupEnt exC8.entries q) ∧
      (ChownR 10 exC8 ["r"] 100 200).2.trace =
        exC8.trace ++ (wOrder exC8.entries 10 (.start ["r"])).map
          (fun p => Ev.chownE p 100 200)) ∧
    ((ChmodR 10 exC8 ["r"] 511).2.entries.map Prod.fst =
        exC8.entries.map Prod.fst ∧
      ∃ tr, (ChmodR 10 exC8 ["r"] 511).2.trace = exC8.trace ++ tr) ∧
    ((ChownR 10 exC8 ["r"] 100 200).2.entries.map Prod.fst =
        exC8.entries.map Prod.fst ∧
      ∃ tr, (ChownR 10 exC8 ["r"] 100 200).2.trace = exC8.trace ++ tr)) :=
  ⟨⟨by decide, by decide, by decide, by decide, by decide⟩,
   c8_recursive_chmod_chown 10 exC8 ["r"] 511 100 200 (by decide) (by decide)
     (by decide)⟩

end Fileutils
